import Mathlib

/-!
# M-LOCK allocator: formal model and verification

A shallow embedding of the M-LOCK memory allocator (`mlock.c`, the 64-bit
variant; `mm.c` is the same algorithm for 32-bit words).  The arena is
modelled as a physically ordered list of blocks, each holding its header
word, its payload words and its boundary-tag word, so that the word-level
image of the heap is fully determined: `loadWord`/`storeWord` give the raw
word semantics of the C macros `GET_WORD`/`PUT_WORD` at any byte address,
and `REDO_HEADERS` performs the retiling that the two `PUT_WORD`s of the C
macro induce on the block structure (same extent, coalescing, or splitting,
exactly as the written header dictates where the boundary tag lands).

Machine integers are `Nat`; `% 2 ^ 64` is applied exactly where the C
`size_t` arithmetic can wrap (`ALIGN_BYTES`, and the subtractions via
`sub64`).  `sbrk` is modelled by a growth limit: the break can grow up to
`Heap.limit` and the primitive returns `(void * )-1` (here `SBRK_FAIL`)
past it, without moving the break.  `NULL` is the address `0`; the heap
starts at the nonzero base address `BASE`.
-/

namespace Mlock

/-! ## Constants (mlock.c lines 39-52) -/

def WORD_SIZE : Nat := 8
def FREE : Nat := 0
def ALLOCATED : Nat := 1
def MIN_DATA_SIZE : Nat := WORD_SIZE * 2
def MIN_BLOCK_SIZE : Nat := WORD_SIZE * 4
def CHUNK_SIZE : Nat := 2 ^ 12
def HEADER_SIZE : Nat := WORD_SIZE
def BOUNDARY_SIZE : Nat := WORD_SIZE

/-- Modulus of `size_t` arithmetic on the 64-bit build. -/
def MOD : Nat := 2 ^ 64

/-- The value of `(void * )-1`, which `sbrk` returns on failure. -/
def SBRK_FAIL : Nat := MOD - 1

/-- The word written before the prologue by `init_lock` (line 272). -/
def KEY : Nat := 0x00DECADE

/-- Byte address returned by the very first `sbrk`: where the heap starts.
Any nonzero multiple of 8 works; addresses below `BASE` back no memory. -/
def BASE : Nat := 32

/-- Data address of the first block: `BASE` holds the key word, `BASE+8`
and `BASE+16` the prologue header and boundary tag, `BASE+24` the first
block's header (initially the epilogue). -/
def firstAddr : Nat := BASE + 32

/-! ## Header codec (mlock.c lines 66-91) -/

/-- `PACK_HEADER(size, alloc) = (word_t)(size) | (word_t)(alloc)`. -/
def pack (size alloc : Nat) : Nat := Nat.lor size alloc

/-- `GET_SIZE_FROM_HEADER(p) = GET_WORD(p) & ~0x7`: clear the low 3 bits. -/
def GET_SIZE_FROM_HEADER (w : Nat) : Nat := w / 8 * 8

/-- `GET_ALLOC_FROM_HEADER(p) = GET_WORD(p) & 0x1`: the low bit. -/
def GET_ALLOC_FROM_HEADER (w : Nat) : Nat := w % 2

/-- `ALIGN_BYTES(bytes)`: round up to the 8-byte quantum, in `size_t`
arithmetic (the multiplication can wrap for `bytes > 2^64 - 8`). -/
def ALIGN_BYTES (bytes : Nat) : Nat :=
  if bytes % 8 = 0 then bytes else 8 * (bytes / 8 + 1) % MOD

/-- `size_t` subtraction `a - b` modulo `2^64`. -/
def sub64 (a b : Nat) : Nat := (a + (MOD - b % MOD)) % MOD

/-! ## The heap model -/

/-- One block of the arena: header word, payload words, boundary-tag word.
The physical payload extent is `8 * payload.length` bytes; the header is
the word directly before the payload and the tag the word directly after. -/
structure Block where
  hdr : Nat
  payload : List Nat
  tag : Nat
  deriving DecidableEq, Repr

instance : Inhabited Block := ⟨⟨0, [], 0⟩⟩

/-- Physical extent of a block in bytes, header and tag included. -/
def blockExtent (b : Block) : Nat := 8 * b.payload.length + 16

/-- The allocator state: the blocks of the arena in physical order (the
key word, prologue and epilogue sentinels are implicit, see `loadWord`),
the free-list head pointer (`free_list`, 0 for `NULL`), and the highest
address the growth primitive can reach. -/
structure Heap where
  blocks : List Block
  free_list : Nat
  limit : Nat
  deriving DecidableEq, Repr

/-- Total bytes covered by a list of blocks. -/
def sumExt (bs : List Block) : Nat := bs.foldr (fun b s => blockExtent b + s) 0

/-- Address of the epilogue header: the word after the last block's tag. -/
def epilogueAddr (h : Heap) : Nat := firstAddr + sumExt h.blocks - 8

/-- The current break: first address past the epilogue header. -/
def brkAddr (h : Heap) : Nat := firstAddr + sumExt h.blocks

/-- Data addresses of the blocks, in physical order. -/
def addrsFrom (d : Nat) : List Block → List Nat
  | [] => []
  | b :: bs => d :: addrsFrom (d + blockExtent b) bs

def startAddrs (h : Heap) : List Nat := addrsFrom firstAddr h.blocks

/-- Data address of the block that follows the prefix `pre`. -/
def dA (pre : List Block) : Nat := firstAddr + sumExt pre

/-! ## Raw word access -/

/-- Read the word at address `a` inside the block area, `a` being measured
against the data address `d` of the first listed block. -/
def loadBlocks : List Block → Nat → Nat → Nat
  | [], _, _ => 0
  | b :: bs, d, a =>
    if a = d - HEADER_SIZE then b.hdr
    else if a = d + 8 * b.payload.length then b.tag
    else if d ≤ a ∧ a < d + 8 * b.payload.length then b.payload.getD ((a - d) / 8) 0
    else loadBlocks bs (d + blockExtent b) a

/-- `GET_WORD(p)`: the word at byte address `p`.  The key word, the
prologue header/tag and the epilogue header are the implicit sentinels. -/
def loadWord (h : Heap) (a : Nat) : Nat :=
  if a = BASE then KEY
  else if a = BASE + 8 ∨ a = BASE + 16 then pack 0 ALLOCATED
  else if a = epilogueAddr h then pack 0 ALLOCATED
  else loadBlocks h.blocks firstAddr a

/-- Write the word at address `a` inside the block area. -/
def storeBlocks : List Block → Nat → Nat → Nat → List Block
  | [], _, _, _ => []
  | b :: bs, d, a, v =>
    if a = d - HEADER_SIZE then { b with hdr := v } :: bs
    else if a = d + 8 * b.payload.length then { b with tag := v } :: bs
    else if d ≤ a ∧ a < d + 8 * b.payload.length then
      { b with payload := b.payload.set ((a - d) / 8) v } :: bs
    else b :: storeBlocks bs (d + blockExtent b) a v

/-- `PUT_WORD(p, val)`: write `val` at byte address `p`.  A write outside
every block (undefined behavior in C) leaves the model unchanged. -/
def storeWord (h : Heap) (a v : Nat) : Heap :=
  { h with blocks := storeBlocks h.blocks firstAddr a v }

/-! ## REDO_HEADERS (mlock.c lines 194-198)

`REDO_HEADERS(bp, size, alloc)` writes `PACK_HEADER(size, alloc)` into the
header slot `bp - 8` and then into `bp + size` (the boundary-tag position
that the freshly written header dictates).  On the block structure this is
a retiling of the region from `bp`'s header to `bp + size`: if `bp + size`
is the block's own tag slot the block is relabelled in place; if it is the
tag slot of a following block the blocks in between are coalesced into one
(their interior header/tag words become payload bytes whose stale values
remain readable); if it lands inside a payload, or exactly on a following block's header
slot, the block is cut there and the remainder becomes a separate block
whose header/tag hold the stale words found at those positions until a
subsequent `REDO_HEADERS` rewrites them (exactly the transient state the C
code goes through when it splits).  A `bp` that is not a block's data
address, or a tag position that is out of range, is heap corruption; the C
behavior is undefined and the model leaves the heap unchanged. -/

/-- Retiling scan past the first block: `acc` holds the payload words
absorbed so far, `t` the target tag address, `w` the packed word; `d` is
the data address of the first remaining block. -/
def retileGo (t w : Nat) (acc : List Nat) : List Block → Nat → Option (List Block)
  | [], _ => none
  | c :: rest, d =>
    if t = d - HEADER_SIZE then
      some (⟨w, acc, w⟩ :: ⟨c.payload.getD 0 0, c.payload.drop 1, c.tag⟩ :: rest)
    else if t < d - HEADER_SIZE then none
    else if t = d + 8 * c.payload.length then
      some (⟨w, acc ++ c.hdr :: c.payload, w⟩ :: rest)
    else if t < d + 8 * c.payload.length then
      let k := (t - d) / 8
      if k + 2 ≤ c.payload.length then
        some (⟨w, acc ++ c.hdr :: c.payload.take k, w⟩
          :: ⟨c.payload.getD (k + 1) 0, c.payload.drop (k + 2), c.tag⟩ :: rest)
      else none
    else retileGo t w (acc ++ c.hdr :: (c.payload ++ [c.tag])) rest (d + blockExtent c)

/-- Retiling at the found block `b` with data address `p`. -/
def retileHere (b : Block) (rest : List Block) (p size w : Nat) : Option (List Block) :=
  let t := p + size
  if t = p + 8 * b.payload.length then some (⟨w, b.payload, w⟩ :: rest)
  else if t < p + 8 * b.payload.length then
    let k := size / 8
    if k + 2 ≤ b.payload.length then
      some (⟨w, b.payload.take k, w⟩
        :: ⟨b.payload.getD (k + 1) 0, b.payload.drop (k + 2), b.tag⟩ :: rest)
    else none
  else retileGo t w (b.payload ++ [b.tag]) rest (p + blockExtent b)

/-- Locate the block whose data address is `p` and retile from there. -/
def retileList : List Block → Nat → Nat → Nat → Nat → Option (List Block)
  | [], _, _, _, _ => none
  | b :: bs, d, p, size, w =>
    if p = d then retileHere b bs p size w
    else (retileList bs (d + blockExtent b) p size w).map (fun bs' => b :: bs')

/-- `REDO_HEADERS(bp, size, alloc)`. -/
def REDO_HEADERS (h : Heap) (bp size alloc : Nat) : Heap :=
  match retileList h.blocks firstAddr bp size (pack size alloc) with
  | some bs => { h with blocks := bs }
  | none => h

/-! ## Pointer macros (mlock.c lines 97-179) -/

/-- `GET_SIZE(bp)`: size field of the header word before `bp`. -/
def GET_SIZE (h : Heap) (bp : Nat) : Nat :=
  GET_SIZE_FROM_HEADER (loadWord h (bp - HEADER_SIZE))

/-- `GET_ALLOC(bp)`: allocated bit of the header word before `bp`. -/
def GET_ALLOC (h : Heap) (bp : Nat) : Nat :=
  GET_ALLOC_FROM_HEADER (loadWord h (bp - HEADER_SIZE))

/-- `GET_PREV_SIZE(bp)`: size field of the previous block's boundary tag,
the word at `bp - HEADER_SIZE - BOUNDARY_SIZE`. -/
def GET_PREV_SIZE (h : Heap) (bp : Nat) : Nat :=
  GET_SIZE_FROM_HEADER (loadWord h (bp - HEADER_SIZE - BOUNDARY_SIZE))

/-- `GET_PREV_ALLOC(bp)`: allocated bit of the previous block's tag. -/
def GET_PREV_ALLOC (h : Heap) (bp : Nat) : Nat :=
  GET_ALLOC_FROM_HEADER (loadWord h (bp - HEADER_SIZE - BOUNDARY_SIZE))

/-- `GET_NEXT_HEADER(bp) = bp + GET_SIZE(bp) + BOUNDARY_SIZE`. -/
def GET_NEXT_HEADER (h : Heap) (bp : Nat) : Nat :=
  bp + GET_SIZE h bp + BOUNDARY_SIZE

/-- `GET_NEXT_BLOCK(bp) = bp + GET_SIZE(bp) + BOUNDARY_SIZE + HEADER_SIZE`. -/
def GET_NEXT_BLOCK (h : Heap) (bp : Nat) : Nat :=
  bp + GET_SIZE h bp + BOUNDARY_SIZE + HEADER_SIZE

/-- `GET_PREV_BLOCK(bp) = bp - HEADER_SIZE - BOUNDARY_SIZE - GET_PREV_SIZE(bp)`. -/
def GET_PREV_BLOCK (h : Heap) (bp : Nat) : Nat :=
  bp - HEADER_SIZE - BOUNDARY_SIZE - GET_PREV_SIZE h bp

/-- `GET_NEXT_FREE(fp)`: the first payload word of a free block. -/
def GET_NEXT_FREE (h : Heap) (fp : Nat) : Nat := loadWord h fp

/-- `GET_PREV_FREE(fp)`: the second payload word of a free block. -/
def GET_PREV_FREE (h : Heap) (fp : Nat) : Nat := loadWord h (fp + WORD_SIZE)

/-- `PUT_NEXT_FREE(fp, val)`. -/
def PUT_NEXT_FREE (h : Heap) (fp v : Nat) : Heap := storeWord h fp v

/-- `PUT_PREV_FREE(fp, val)`. -/
def PUT_PREV_FREE (h : Heap) (fp v : Nat) : Heap := storeWord h (fp + WORD_SIZE) v

/-- `LINK_FREE(fp1, fp2)` (mlock.c lines 205-215). -/
def LINK_FREE (h : Heap) (fp1 fp2 : Nat) : Heap :=
  if fp1 ≠ fp2 then
    let h' := if fp1 ≠ 0 then PUT_NEXT_FREE h fp1 fp2 else h
    if fp2 ≠ 0 then PUT_PREV_FREE h' fp2 fp1 else h'
  else h

/-! ## The allocator functions (mlock.c lines 259-534) -/

/-- `remove_free_block` (lines 445-457). -/
def remove_free_block (h : Heap) (fp : Nat) : Heap :=
  let next := GET_NEXT_FREE h fp
  let prev := GET_PREV_FREE h fp
  let h' := if fp = h.free_list then { h with free_list := next } else h
  LINK_FREE h' prev next

/-- `unlock` (lines 320-355): mark the block free, coalesce with a free
previous neighbor and then with a free next neighbor, and insert the
result at the head of the free list. -/
def unlock (h : Heap) (ptr : Nat) : Heap :=
  -- lines 324-325
  let size := GET_SIZE h ptr
  let h := REDO_HEADERS h ptr size FREE
  -- lines 327-335: coalesce with previous
  let s1 := if GET_PREV_ALLOC h ptr = FREE then
    let ptr' := GET_PREV_BLOCK h ptr
    let size' := size + GET_SIZE h ptr' + BOUNDARY_SIZE + HEADER_SIZE
    let h' := REDO_HEADERS h ptr' size' FREE
    (remove_free_block h' ptr', ptr', size')
  else (h, ptr, size)
  let h := s1.1
  let ptr := s1.2.1
  let size := s1.2.2
  -- lines 337-347: coalesce with next
  let next_header := GET_NEXT_HEADER h ptr
  let h := if GET_ALLOC_FROM_HEADER (loadWord h next_header) = FREE then
    let size' := size + GET_SIZE_FROM_HEADER (loadWord h next_header)
      + BOUNDARY_SIZE + HEADER_SIZE
    let h' := REDO_HEADERS h ptr size' FREE
    remove_free_block h' (next_header + HEADER_SIZE)
  else h
  -- lines 350-352: insert ptr before the current free list head
  let h := LINK_FREE h ptr h.free_list
  let h := PUT_PREV_FREE h ptr 0
  { h with free_list := ptr }

/-- Loop body of `find_fit` (lines 524-530).  The C loop terminates
because the free list is acyclic; the fuel (number of blocks plus one)
covers every acyclic list of free blocks. -/
def findGo (h : Heap) (size : Nat) : Nat → Nat → Nat
  | _, 0 => 0
  | 0, _ => 0
  | fuel + 1, fp => if size ≤ GET_SIZE h fp then fp
      else findGo h size fuel (GET_NEXT_FREE h fp)

/-- `find_fit` (lines 513-534). -/
def find_fit (h : Heap) (size : Nat) : Nat :=
  if h.free_list = 0 then 0
  else findGo h (ALIGN_BYTES size) (h.blocks.length + 1) h.free_list

/-- `extend_heap` (lines 459-478): grow the arena by `size + 16` bytes.
On success `sbrk` returns the old break `fp`; `REDO_HEADERS(fp, size,
FREE)` overwrites the old epilogue slot with the new header and writes the
tag at `fp + size`, and `PUT_WORD(GET_NEXT_HEADER(fp), PACK_HEADER(0,
ALLOCATED))` writes the new epilogue: the net effect is one new free block
appended at the end (its payload fresh zeroed pages), which `unlock` then
coalesces and inserts.  On failure (`(void * )-1`) nothing changes. -/
def extend_heap (h : Heap) (size : Nat) : Bool × Heap :=
  let size := ALIGN_BYTES size
  if brkAddr h + (size + BOUNDARY_SIZE + HEADER_SIZE) ≤ h.limit then
    let fp := brkAddr h
    let h' : Heap := { h with
      blocks := h.blocks ++ [⟨pack size FREE, List.replicate (size / 8) 0, pack size FREE⟩] }
    (true, unlock h' fp)
  else (false, h)

/-- `place` (lines 480-511). -/
def place (h : Heap) (fp size : Nat) : Heap :=
  let h := remove_free_block h fp
  let size := ALIGN_BYTES size
  let available_size := GET_SIZE h fp
  let difference := sub64 available_size size
  if difference = 0 then REDO_HEADERS h fp size ALLOCATED
  else if difference < MIN_BLOCK_SIZE then REDO_HEADERS h fp available_size ALLOCATED
  else
    let h := REDO_HEADERS h fp size ALLOCATED
    let new_fp := GET_NEXT_BLOCK h fp
    let h := REDO_HEADERS h new_fp (sub64 (sub64 difference HEADER_SIZE) BOUNDARY_SIZE) FREE
    unlock h new_fp

/-- `mlock` (lines 287-318): the public allocate. -/
def mlock (h : Heap) (size : Nat) : Nat × Heap :=
  if size ≤ 0 then (0, h)
  else
    let size := max (ALIGN_BYTES size) MIN_DATA_SIZE
    let fp := find_fit h size
    if fp ≠ 0 then (fp, place h fp size)
    else
      match extend_heap h (max size CHUNK_SIZE) with
      | (false, h') => (0, h')
      | (true, h') =>
        let fp := h'.free_list
        (fp, place h' fp size)

/-- `memcpy(dst, src, n)` with `n = 8 * words` bytes, word by word in
ascending order.  A null destination is undefined behavior in C (the
fallback path of `relock` reaches it when `mlock` fails); the model makes
it a no-op. -/
def memcpyWords (h : Heap) (dst src words : Nat) : Heap :=
  if dst = 0 then h
  else (List.range words).foldl
    (fun h' k => storeWord h' (dst + 8 * k) (loadWord h' (src + 8 * k))) h

/-- `relock` (lines 357-443): the public reallocate. -/
def relock (h : Heap) (ptr size : Nat) : Nat × Heap :=
  -- lines 361-364
  if ptr = 0 then mlock h size
  -- lines 366-370
  else if size ≤ 0 then (0, unlock h ptr)
  else
    -- lines 372-374
    let size := max (ALIGN_BYTES size) MIN_DATA_SIZE
    let current_size := GET_SIZE h ptr
    -- lines 376-379
    if size = current_size then (ptr, h)
    -- lines 381-398
    else if size < current_size then
      let leftover := sub64 current_size size
      if leftover < MIN_BLOCK_SIZE then (ptr, h)
      else
        let h := REDO_HEADERS h ptr size ALLOCATED
        let new_fp := GET_NEXT_BLOCK h ptr
        let h := REDO_HEADERS h new_fp
          (sub64 (sub64 leftover HEADER_SIZE) BOUNDARY_SIZE) FREE
        (ptr, unlock h new_fp)
    else
      -- lines 400-402
      let needed := sub64 size current_size
      let next_bp := GET_NEXT_BLOCK h ptr
      let gained_in_merge := BOUNDARY_SIZE + HEADER_SIZE + GET_SIZE h next_bp
      -- lines 404-414: fall back to allocate + copy + free
      if GET_ALLOC h next_bp = ALLOCATED ∨ gained_in_merge < needed then
        let r := mlock h size
        let new_ptr := r.1
        let h := memcpyWords r.2 new_ptr ptr (current_size / 8)
        let h := unlock h ptr
        (new_ptr, h)
      else
        -- lines 416-418
        let h := remove_free_block h next_bp
        let leftover := sub64 gained_in_merge needed
        -- lines 420-425
        if leftover = 0 then (ptr, REDO_HEADERS h ptr size ALLOCATED)
        -- lines 427-433
        else if leftover < MIN_BLOCK_SIZE then
          (ptr, REDO_HEADERS h ptr (current_size + gained_in_merge) ALLOCATED)
        else
          -- lines 435-442
          let h := REDO_HEADERS h ptr size ALLOCATED
          let new_fp := GET_NEXT_BLOCK h ptr
          let h := REDO_HEADERS h new_fp
            (sub64 (sub64 leftover HEADER_SIZE) BOUNDARY_SIZE) FREE
          (ptr, unlock h new_fp)

/-- `init_lock` (lines 259-285).  The first `sbrk` reserves 4 words (key,
prologue header, prologue boundary tag, epilogue header); these sentinels
are implicit in `loadWord`.  Note the C code compares the result of
`sbrk` against `NULL`, yet `sbrk` signals failure with `(void * )-1`, so
the branch at line 267 is never taken; when the initial `sbrk` fails, the
failure surfaces through `extend_heap` (whose own `sbrk` also fails,
since the break cannot have grown), after undefined writes through the
`(void * )-1` pointer that the model drops. -/
def init_lock (limit : Nat) : Nat × Heap :=
  let h : Heap := { blocks := [], free_list := 0, limit := limit }
  let heap_list := if BASE + WORD_SIZE * 4 ≤ limit then BASE else SBRK_FAIL
  let heap_start := (heap_list + 2 * WORD_SIZE) % MOD
  if heap_list = 0 then (0, h)
  else
    match extend_heap h CHUNK_SIZE with
    | (false, h') => (0, h')
    | (true, h') => (heap_start, h')

/-! ## The Reclaim Engine algorithm as the specification states it (§4.5) -/

/-- Step 1 of the specified deallocation: mark the block free (update
header and boundary tag, `allocated = false`), size unchanged so far. -/
def reclaimMarkFree (h : Heap) (p : Nat) : Heap × Nat :=
  (REDO_HEADERS h p (GET_SIZE h p) FREE, GET_SIZE h p)

/-- Step 2: inspect the immediately preceding block's boundary tag (found
directly before the current header); if it is free, move the block start
backward to that previous block, add that block's size plus one boundary
tag and one header to the cumulative size, rewrite header/tag at the moved
start with the combined size, and remove the previous block from the free
list. -/
def reclaimCoalescePrev (h : Heap) (p size : Nat) : Heap × Nat × Nat :=
  if GET_PREV_ALLOC h p = FREE then
    let p' := GET_PREV_BLOCK h p
    let size' := size + GET_SIZE h p' + BOUNDARY_SIZE + HEADER_SIZE
    (remove_free_block (REDO_HEADERS h p' size' FREE) p', p', size')
  else (h, p, size)

/-- Step 3: inspect the following block's header (found directly after the
current boundary tag); if it is free, add its size plus header and
boundary-tag overhead to the cumulative size, rewrite header/tag using the
(possibly moved) start address, and remove that neighbor from the free
list. -/
def reclaimCoalesceNext (h : Heap) (p size : Nat) : Heap :=
  let nh := GET_NEXT_HEADER h p
  if GET_ALLOC_FROM_HEADER (loadWord h nh) = FREE then
    let size' := size + GET_SIZE_FROM_HEADER (loadWord h nh)
      + BOUNDARY_SIZE + HEADER_SIZE
    remove_free_block (REDO_HEADERS h p size' FREE) (nh + HEADER_SIZE)
  else h

/-- Step 4: insert the resulting (possibly twice-merged) block at the
free-list head. -/
def reclaimInsertHead (h : Heap) (p : Nat) : Heap :=
  let h' := PUT_PREV_FREE (LINK_FREE h p h.free_list) p 0
  { h' with free_list := p }

/-- The fixed deallocation algorithm of §4.5: step 1, then the backward
merge, then the forward merge (both using the cumulative size computed so
far and, after step 2, the moved start address), then the head insertion. -/
def unlock_spec (h : Heap) (p : Nat) : Heap :=
  let s1 := reclaimMarkFree h p
  let s2 := reclaimCoalescePrev s1.1 p s1.2
  let h3 := reclaimCoalesceNext s2.1 s2.2.1 s2.2.2
  reclaimInsertHead h3 s2.2.1

/-! ## Concrete heaps used as test inputs -/

/-- A heap with a single free 16-byte block, growth exhausted. -/
def heap10 : Heap :=
  { blocks := [⟨pack 16 FREE, [0, 0], pack 16 FREE⟩], free_list := 64, limit := 0 }

/-- `heap10` after its block is allocated. -/
def heap10A : Heap :=
  { blocks := [⟨pack 16 ALLOCATED, [0, 0], pack 16 ALLOCATED⟩],
    free_list := 0, limit := 0 }

/-- Two adjacent allocated 16-byte blocks, growth exhausted. -/
def heapC5 : Heap :=
  { blocks := [⟨pack 16 ALLOCATED, [11, 12], pack 16 ALLOCATED⟩,
               ⟨pack 16 ALLOCATED, [21, 22], pack 16 ALLOCATED⟩],
    free_list := 0, limit := 0 }

/-- A well-formed arena with one allocated and one free block, used as the
concrete input of several witnesses. -/
def heapW : Heap :=
  { blocks := [⟨pack 16 ALLOCATED, [7, 8], pack 16 ALLOCATED⟩,
               ⟨pack 48 FREE, [0, 0, 0, 0, 0, 0], pack 48 FREE⟩],
    free_list := 96, limit := 160 }

/-- An arena holding a single allocated 48-byte block with six payload
words, used to exhibit the data-loss counterexample of the reallocation
claim. -/
def heapC7 : Heap :=
  { blocks := [⟨pack 48 ALLOCATED, [1, 2, 3, 4, 5, 6], pack 48 ALLOCATED⟩],
    free_list := 0, limit := 128 }

/-! ## Invariants -/

/-- Allocated bit recorded in a block's header. -/
def allocB (b : Block) : Nat := GET_ALLOC_FROM_HEADER b.hdr

/-- Well-formed block: boundary tag equals header, the header's reserved
low bits are clear apart from the allocated bit, the recorded size is the
physical payload extent, and the payload holds at least two words. -/
def WFb (b : Block) : Prop :=
  b.tag = b.hdr ∧ b.hdr % 8 ≤ 1 ∧ b.hdr / 8 = b.payload.length
    ∧ 2 ≤ b.payload.length

/-- Structural heap invariant: every block is well formed and the arena
fits below the `size_t` modulus. -/
def Inv (h : Heap) : Prop := (∀ b ∈ h.blocks, WFb b) ∧ brkAddr h < MOD

/-- At least one of two adjacent blocks is allocated. -/
def okPair (a b : Block) : Bool :=
  decide (allocB a = ALLOCATED) || decide (allocB b = ALLOCATED)

/-- No two physically adjacent blocks are both free. -/
def noAdjFreeB : List Block → Bool
  | a :: b :: rest => okPair a b && noAdjFreeB (b :: rest)
  | _ => true

/-- The no-adjacent-free invariant of the arena. -/
def NAF (h : Heap) : Prop := noAdjFreeB h.blocks = true

instance (b : Block) : Decidable (WFb b) := by
  unfold WFb
  exact inferInstance

instance (h : Heap) : Decidable (NAF h) := by
  unfold NAF
  exact inferInstance

/-- Data addresses of the free blocks, walking from address `d`. -/
def freeStartsFrom (d : Nat) : List Block → List Nat
  | [] => []
  | b :: bs =>
    if allocB b = FREE then d :: freeStartsFrom (d + blockExtent b) bs
    else freeStartsFrom (d + blockExtent b) bs

def freeStarts (h : Heap) : List Nat := freeStartsFrom firstAddr h.blocks

/-- Resolve a data address to its block, walking from address `d`. -/
def blockAtFrom : List Block → Nat → Nat → Option Block
  | [], _, _ => none
  | b :: bs, d, x => if x = d then some b else blockAtFrom bs (d + blockExtent b) x

/-- The block whose data starts at address `x`, if any. -/
def blockAt (h : Heap) (x : Nat) : Option Block := blockAtFrom h.blocks firstAddr x

/-- A chain segment: following the `next` links from `fp` visits exactly
the free-block addresses in `l` and then reaches the address `g`. -/
def chainSegB (h : Heap) : Nat → List Nat → Nat → Bool
  | fp, [], g => fp == g
  | fp, a :: l, g =>
    fp == a && decide (a ∈ freeStarts h) && chainSegB h (GET_NEXT_FREE h a) l g

/-- The free list as a chain: `chainB h fp l` holds when following the
`next` links from `fp` visits exactly the free-block addresses in `l` and
ends at `NULL`. -/
def chainB (h : Heap) (fp : Nat) (l : List Nat) : Bool := chainSegB h fp l 0

/-- Backward links: each chain member's `prev` word names its predecessor
(`pv` for the head). -/
def prevsB (h : Heap) : Nat → List Nat → Bool
  | _, [] => true
  | pv, a :: l => GET_PREV_FREE h a == pv && prevsB h a l

/-- The free-list invariant relative to an explicit chain `l` and a set
`E` of excused addresses: the chain starts at `free_list`, is doubly
linked and duplicate-free, and every free block is on it except possibly
members of `E` (freshly carved free blocks not yet inserted). -/
def FLx (h : Heap) (l E : List Nat) : Prop :=
  chainB h h.free_list l = true ∧ prevsB h 0 l = true ∧ l.Nodup
    ∧ (∀ x ∈ freeStarts h, x ∈ l ∨ x ∈ E)

/-- The free-list invariant: chain `l` accounts for every free block. -/
def FL (h : Heap) (l : List Nat) : Prop := FLx h l []


/-- The i-th block (defaulting outside range). -/
def blkD (h : Heap) (i : Nat) : Block := h.blocks.getD i default

/-- Data address of the i-th block. -/
def addrI (h : Heap) (i : Nat) : Nat := dA (h.blocks.take i)

/-- Mid-state description used while verifying `unlock`: after the
coalescing phase the original block range `[lo, hi]` (which contains the
freed block `i`) has collapsed into a single free block at index `lo`, the
rest of the heap is shifted accordingly, and the pending free chain `lC`
(a sub-chain of the original chain `l`) does not yet contain the
coalesced block. -/
def MidBundle (h hC : Heap) (l lC : List Nat) (i lo hi : Nat) : Prop :=
  lo ≤ i ∧ i ≤ hi ∧ hi < h.blocks.length ∧ lo < hC.blocks.length
  ∧ hC.blocks.length + (hi - lo) = h.blocks.length
  ∧ (∀ j, j < lo → (blkD hC j).hdr = (blkD h j).hdr
      ∧ (blkD hC j).tag = (blkD h j).tag
      ∧ (blkD hC j).payload.length = (blkD h j).payload.length)
  ∧ (∀ j, j < lo → addrI h j ∉ l → blkD hC j = blkD h j)
  ∧ (∀ j, lo < j → (blkD hC j).hdr = (blkD h (j + (hi - lo))).hdr
      ∧ (blkD hC j).tag = (blkD h (j + (hi - lo))).tag
      ∧ (blkD hC j).payload.length = (blkD h (j + (hi - lo))).payload.length)
  ∧ (∀ j, lo < j → addrI h (j + (hi - lo)) ∉ l → blkD hC j = blkD h (j + (hi - lo)))
  ∧ (∀ j, j ≤ lo → addrI hC j = addrI h j)
  ∧ (∀ j, lo < j → addrI hC j = addrI h (j + (hi - lo)))
  ∧ WFb (blkD hC lo) ∧ allocB (blkD hC lo) = FREE
  ∧ (blkD h i).payload.length ≤ (blkD hC lo).payload.length
  ∧ chainSegB hC hC.free_list lC 0 = true ∧ prevsB hC 0 lC = true ∧ lC.Nodup
  ∧ (∀ z, z ∈ lC → z ∈ l) ∧ addrI h lo ∉ lC
  ∧ (∀ x, x ∈ freeStarts hC → x ∈ lC ∨ x = addrI h lo)
  ∧ (∀ j, j < hC.blocks.length → WFb (blkD hC j))
  ∧ (∀ j, lo ≤ j → j ≤ hi → j ≠ i → allocB (blkD h j) = FREE)
  ∧ brkAddr hC = brkAddr h ∧ hC.limit = h.limit

/-- The tail of `unlock` from line 337 on (forward coalescing and head
insertion), factored out of the source term for case analysis. -/
def unlockForward (h : Heap) (ptr size : Nat) : Heap :=
  let next_header := GET_NEXT_HEADER h ptr
  let h := if GET_ALLOC_FROM_HEADER (loadWord h next_header) = FREE then
    let size2 := size + GET_SIZE_FROM_HEADER (loadWord h next_header)
      + BOUNDARY_SIZE + HEADER_SIZE
    let h2 := REDO_HEADERS h ptr size2 FREE
    remove_free_block h2 (next_header + HEADER_SIZE)
  else h
  let hx := LINK_FREE h ptr h.free_list
  let hy := PUT_PREV_FREE hx ptr 0
  { hy with free_list := ptr }

/-- The allocator invariants that hold between public operations: every
block well formed, no two adjacent free blocks, the free list a complete
doubly-linked chain, and the arena below the `size_t` modulus. -/
def GoodHeap (h : Heap) : Prop :=
  (∀ j, j < h.blocks.length → WFb (blkD h j))
  ∧ NAF h
  ∧ (∃ l, FL h l)
  ∧ brkAddr h < MOD ∧ h.limit < MOD

/-- What `mlock` guarantees: invariants restored, limit unchanged, arena
below the modulus, every previously allocated block intact at its address,
and on success a fresh allocated block (distinct from every previously
allocated block) of at least the aligned-and-floored request size. -/
def MlockPost (h : Heap) (size : Nat) (res : Nat × Heap) : Prop :=
  (∀ j, j < res.2.blocks.length → WFb (blkD res.2 j))
  ∧ NAF res.2
  ∧ (∃ lR, FL res.2 lR)
  ∧ res.2.limit = h.limit
  ∧ brkAddr res.2 < MOD
  ∧ (∀ j, j < h.blocks.length → allocB (blkD h j) = ALLOCATED →
      ∃ j2, j2 < res.2.blocks.length ∧ addrI res.2 j2 = addrI h j
        ∧ blkD res.2 j2 = blkD h j)
  ∧ (res.1 ≠ 0 → (∃ j2, j2 < res.2.blocks.length ∧ res.1 = addrI res.2 j2
      ∧ allocB (blkD res.2 j2) = ALLOCATED
      ∧ max (ALIGN_BYTES size) MIN_DATA_SIZE ≤ 8 * (blkD res.2 j2).payload.length)
      ∧ (∀ q, q < h.blocks.length → allocB (blkD h q) = ALLOCATED →
          res.1 ≠ addrI h q))
  ∧ (res.1 = 0 → res.2 = h)

/-- What `relock` guarantees on a valid allocated block `i`: invariants
restored, limit unchanged, arena below the modulus, and on success the
returned pointer is an allocated block whose payload agrees with the old
block's on the first `min(oldPayload, newSize)` words, where `newSize` is
the aligned-and-floored request. -/
def RelockPost (h : Heap) (i size : Nat) (res : Nat × Heap) : Prop :=
  (∀ j, j < res.2.blocks.length → WFb (blkD res.2 j))
  ∧ NAF res.2
  ∧ (∃ lR, FL res.2 lR)
  ∧ res.2.limit = h.limit
  ∧ brkAddr res.2 < MOD
  ∧ (res.1 ≠ 0 → ∃ j2, j2 < res.2.blocks.length ∧ res.1 = addrI res.2 j2
      ∧ allocB (blkD res.2 j2) = ALLOCATED
      ∧ (blkD res.2 j2).payload.take
          (min (blkD h i).payload.length (max (ALIGN_BYTES size) MIN_DATA_SIZE / 8))
        = (blkD h i).payload.take
          (min (blkD h i).payload.length (max (ALIGN_BYTES size) MIN_DATA_SIZE / 8)))

/-- What the carve-allocate-free-remainder sequence guarantees (the
splitting branch of `place` and the shrinking branch of `relock`): block
`kS` becomes an allocated block of exactly `size` bytes holding the first
`size / 8` payload words it held before, the remainder is a free block on
the free list, and all invariants and other allocated blocks survive. -/
def SplitPost (hS res : Heap) (kS size : Nat) : Prop :=
  (∀ j, j < res.blocks.length → WFb (blkD res j))
  ∧ NAF res
  ∧ (∃ lR, FL res lR)
  ∧ brkAddr res = brkAddr hS ∧ res.limit = hS.limit
  ∧ (∀ j, j < hS.blocks.length → j ≠ kS → allocB (blkD hS j) = ALLOCATED →
      ∃ j2, j2 < res.blocks.length ∧ addrI res j2 = addrI hS j ∧ blkD res j2 = blkD hS j)
  ∧ (∃ j2, j2 < res.blocks.length ∧ addrI res j2 = addrI hS kS
      ∧ allocB (blkD res j2) = ALLOCATED
      ∧ (blkD res j2).payload.length = size / 8
      ∧ (blkD res j2).payload = (blkD hS kS).payload.take (size / 8))

/-- What `place` guarantees: invariants restored, arena and other
allocated blocks untouched, and an allocated block of at least `size`
bytes at the requested address. -/
def PlacePost (h res : Heap) (kf size : Nat) : Prop :=
  (∀ j, j < res.blocks.length → WFb (blkD res j))
  ∧ NAF res
  ∧ (∃ lR, FL res lR)
  ∧ brkAddr res = brkAddr h ∧ res.limit = h.limit
  ∧ (∀ j, j < h.blocks.length → allocB (blkD h j) = ALLOCATED →
      ∃ j2, j2 < res.blocks.length ∧ addrI res j2 = addrI h j ∧ blkD res j2 = blkD h j)
  ∧ (∃ j2, j2 < res.blocks.length ∧ addrI res j2 = addrI h kf
      ∧ allocB (blkD res j2) = ALLOCATED
      ∧ size ≤ 8 * (blkD res j2).payload.length)

/-- What `unlock` guarantees: all blocks stay well formed, no two adjacent
blocks are free, the free list is a complete doubly-linked chain, the
arena extent and growth limit are unchanged, every allocated block other
than the freed one survives at its address with identical contents, and
the new free-list head is a free block at least as large as the freed
block. -/
def UnlockPost (h hres : Heap) (i : Nat) : Prop :=
  (∀ j, j < hres.blocks.length → WFb (blkD hres j))
  ∧ NAF hres
  ∧ (∃ lR, chainSegB hres hres.free_list lR 0 = true ∧ prevsB hres 0 lR = true
      ∧ lR.Nodup ∧ (∀ x, x ∈ freeStarts hres → x ∈ lR))
  ∧ brkAddr hres = brkAddr h ∧ hres.limit = h.limit
  ∧ hres.blocks.length ≤ h.blocks.length
  ∧ (∀ j, j < h.blocks.length → j ≠ i → allocB (blkD h j) = ALLOCATED →
      ∃ j2, j2 < hres.blocks.length ∧ addrI hres j2 = addrI h j
        ∧ blkD hres j2 = blkD h j)
  ∧ (∃ kR, kR < hres.blocks.length ∧ hres.free_list = addrI hres kR
      ∧ allocB (blkD hres kR) = FREE
      ∧ (blkD h i).payload.length ≤ (blkD hres kR).payload.length)

/-! ## Header codec lemmas -/

theorem lor_eight_mul_one (k : Nat) : Nat.lor (8 * k) 1 = 8 * k + 1 := by
  have h8 : (8 * k) = Nat.bit false (4 * k) := by simp [Nat.bit]; ring
  have h1 : (1 : Nat) = Nat.bit true 0 := by simp [Nat.bit]
  have key : Nat.bit false (4 * k) ||| Nat.bit true 0
      = Nat.bit (false || true) ((4 * k) ||| 0) := Nat.lor_bit false (4 * k) true 0
  show (8 * k) ||| 1 = 8 * k + 1
  rw [h8, h1, key]
  simp [Nat.bit]

/-- Packing an 8-aligned size with a one-bit flag is an addition. -/
theorem pack_eq_add {s a : Nat} (hs : 8 ∣ s) (ha : a ≤ 1) : pack s a = s + a := by
  obtain ⟨k, rfl⟩ := hs
  interval_cases a
  · show (8 * k) ||| 0 = 8 * k + 0
    simp
  · exact lor_eight_mul_one k

theorem size_pack {s a : Nat} (hs : 8 ∣ s) (ha : a ≤ 1) :
    GET_SIZE_FROM_HEADER (pack s a) = s := by
  rw [pack_eq_add hs ha]
  obtain ⟨k, rfl⟩ := hs
  unfold GET_SIZE_FROM_HEADER
  omega

theorem alloc_pack {s a : Nat} (hs : 8 ∣ s) (ha : a ≤ 1) :
    GET_ALLOC_FROM_HEADER (pack s a) = a := by
  rw [pack_eq_add hs ha]
  obtain ⟨k, rfl⟩ := hs
  unfold GET_ALLOC_FROM_HEADER
  omega

theorem size_from_header_dvd (w : Nat) : 8 ∣ GET_SIZE_FROM_HEADER w :=
  ⟨w / 8, Nat.mul_comm (w / 8) 8⟩

theorem align_dvd (n : Nat) : 8 ∣ ALIGN_BYTES n := by
  unfold ALIGN_BYTES
  split
  · omega
  · have hm : (8 : Nat) ∣ MOD := by unfold MOD; decide
    exact (Nat.dvd_mod_iff hm).mpr (Dvd.intro _ rfl)

theorem align_of_dvd {n : Nat} (hn : 8 ∣ n) : ALIGN_BYTES n = n := by
  unfold ALIGN_BYTES
  rw [if_pos (by omega)]

/-- `size_t` subtraction agrees with truncated subtraction in range. -/
theorem sub64_eq {a b : Nat} (hba : b ≤ a) (ha : a < MOD) : sub64 a b = a - b := by
  unfold sub64 MOD at *
  omega

/-! ## Small constant facts -/

theorem WORD_SIZE_eq : WORD_SIZE = 8 := rfl
theorem HEADER_SIZE_eq : HEADER_SIZE = 8 := rfl
theorem BOUNDARY_SIZE_eq : BOUNDARY_SIZE = 8 := rfl
theorem MIN_DATA_SIZE_eq : MIN_DATA_SIZE = 16 := rfl
theorem MIN_BLOCK_SIZE_eq : MIN_BLOCK_SIZE = 32 := rfl
theorem BASE_eq : BASE = 32 := rfl
theorem firstAddr_eq : firstAddr = 64 := rfl
theorem FREE_eq : FREE = 0 := rfl
theorem ALLOCATED_eq : ALLOCATED = 1 := rfl
theorem CHUNK_SIZE_eq : CHUNK_SIZE = 4096 := rfl

theorem blockExtent_def (b : Block) : blockExtent b = 8 * b.payload.length + 16 := rfl

theorem sumExt_nil : sumExt [] = 0 := rfl

theorem sumExt_cons (b : Block) (bs : List Block) :
    sumExt (b :: bs) = blockExtent b + sumExt bs := rfl

theorem sumExt_append (xs ys : List Block) :
    sumExt (xs ++ ys) = sumExt xs + sumExt ys := by
  induction xs with
  | nil => simp [sumExt_nil, sumExt]
  | cons b xs ih => simp [sumExt_cons, ih]; omega

/-! ## Claim C2: the deallocation algorithm -/

/-- C2: `unlock` follows the fixed algorithm of §4.5 exactly: it first
marks the block free at its current size; then checks the previous
neighbor's boundary tag and, if free, moves the block start backward,
adds that block's size plus one header and one boundary tag to the
cumulative size, rewrites the header/tag at the moved start, and removes
the previous block from the free list; then checks the next neighbor's
header and, if free, absorbs it the same way; and finally inserts the
resulting block at the free-list head — with every header/tag write after
the backward merge using the moved start address. -/
theorem C2_unlock_follows_reclaim_spec :
    ∀ (h : Heap) (p : Nat), unlock h p = unlock_spec h p :=
  fun _ _ => rfl

/-! ## Claim C5: growth-failure behavior -/

/-- C5 counterexample: the claim fails for `reallocate`.  On `heapC5`,
`relock 64 24` takes the allocate-copy-free fallback, `mlock` fails
because growth is exhausted, and `relock` returns the failure indicator
`NULL` — but the allocator state has been modified (the original block
was freed), contradicting "the allocator state … is left unmodified". -/
theorem C5_counterexample :
    (relock heapC5 64 24).1 = 0 ∧ (relock heapC5 64 24).2 ≠ heapC5 := by
  decide

/-- C5 amended: when `sbrk` fails during `mlock`, the call returns the
failure indicator immediately, never retries, and leaves the allocator
state — epilogue and free list included — unmodified (the result heap is
the input heap).  When growth fails inside `relock`'s fallback path,
however, `relock` returns the failure indicator but the original block
has already been freed: on `heapC5` the block at 64 is free afterwards
and sits at the free-list head. -/
theorem C5_amended_growth_failure (h : Heap) (n : Nat) (hn : 0 < n)
    (hfit : find_fit h (max (ALIGN_BYTES n) MIN_DATA_SIZE) = 0)
    (hsbrk : h.limit < brkAddr h
      + (ALIGN_BYTES (max (max (ALIGN_BYTES n) MIN_DATA_SIZE) CHUNK_SIZE)
         + BOUNDARY_SIZE + HEADER_SIZE)) :
    mlock h n = (0, h)
      ∧ ((relock heapC5 64 24).1 = 0
         ∧ GET_ALLOC (relock heapC5 64 24).2 64 = FREE
         ∧ (relock heapC5 64 24).2.free_list = 64) := by
  constructor
  · simp only [mlock, hfit]
    rw [if_neg (by omega)]
    rw [if_neg (by simp)]
    simp only [extend_heap]
    rw [if_neg (by omega)]
  · decide

/-- C5 witness: the amended theorem applied to `heapC5` and request 24. -/
theorem C5_witness :
    mlock heapC5 24 = (0, heapC5)
      ∧ ((relock heapC5 64 24).1 = 0
         ∧ GET_ALLOC (relock heapC5 64 24).2 64 = FREE
         ∧ (relock heapC5 64 24).2.free_list = 64) :=
  C5_amended_growth_failure heapC5 24 (by decide) (by decide) (by decide)

/-! ## Claim C6: init failure behavior -/

/-- C6 counterexample: with growth limit 64 the sentinel allocation (4
words from `BASE = 32`) succeeds, yet `init_lock` returns the failure
indicator because the subsequent chunk growth fails — so "otherwise
returns a handle to the first usable heap address" does not hold. -/
theorem C6_counterexample :
    BASE + WORD_SIZE * 4 ≤ 64 ∧ (init_lock 64).1 = 0 := by
  decide

/-- C6 amended: `init_lock` returns the handle `BASE + 16` (the word
after the prologue header) exactly when the growth primitive can satisfy
both the sentinel allocation and the initial chunk growth
(`firstAddr + CHUNK_SIZE + 16` bytes in total); in every other case —
including when the sentinel allocation succeeds but the chunk growth
fails — it returns the failure indicator. -/
theorem C6_amended_init_result (limit : Nat) :
    (init_lock limit).1
      = if firstAddr + CHUNK_SIZE + BOUNDARY_SIZE + HEADER_SIZE ≤ limit
        then BASE + 2 * WORD_SIZE else 0 := by
  have ha : ALIGN_BYTES CHUNK_SIZE = CHUNK_SIZE := by decide
  simp only [init_lock, extend_heap, ha, brkAddr, sumExt, List.foldr]
  by_cases hc : firstAddr + CHUNK_SIZE + BOUNDARY_SIZE + HEADER_SIZE ≤ limit
  · have hb : BASE + WORD_SIZE * 4 ≤ limit := by
      unfold firstAddr BASE CHUNK_SIZE BOUNDARY_SIZE HEADER_SIZE WORD_SIZE at *
      omega
    rw [if_pos hb, if_pos hc]
    rw [if_neg (by unfold BASE; omega)]
    rw [if_pos (by
      show firstAddr + 0 + (CHUNK_SIZE + BOUNDARY_SIZE + HEADER_SIZE) ≤ limit
      omega)]
    rfl
  · rw [if_neg hc]
    by_cases hb : BASE + WORD_SIZE * 4 ≤ limit
    · rw [if_pos hb, if_neg (by unfold BASE; omega)]
      rw [if_neg (by
        show ¬ (firstAddr + 0 + (CHUNK_SIZE + BOUNDARY_SIZE + HEADER_SIZE) ≤ limit)
        omega)]
    · rw [if_neg hb, if_neg (by unfold SBRK_FAIL MOD; omega)]
      rw [if_neg (by
        show ¬ (firstAddr + 0 + (CHUNK_SIZE + BOUNDARY_SIZE + HEADER_SIZE) ≤ limit)
        omega)]

/-! ## Claim C8: reallocate to the current size is a no-op -/

/-- C8: for an allocated pointer `p`, `relock p (currentPayloadSize p)`
returns `p` itself and the entire allocator state — headers, boundary
tags, payload contents, free list — unchanged.  The size hypotheses are
the block-format invariants (payload sizes are 8-aligned and at least
`MIN_DATA_SIZE`). -/
theorem C8_relock_current_size_noop (h : Heap) (p : Nat) (hp : p ≠ 0)
    (halloc : GET_ALLOC h p = ALLOCATED)
    (hdvd : 8 ∣ GET_SIZE h p) (hmin : MIN_DATA_SIZE ≤ GET_SIZE h p) :
    relock h p (GET_SIZE h p) = (p, h) := by
  unfold relock
  rw [if_neg hp, if_neg (by unfold MIN_DATA_SIZE WORD_SIZE at hmin; omega)]
  rw [align_of_dvd hdvd, max_eq_left hmin, if_pos rfl]

/-- C8 witness: the no-op on the allocated block at 64 of `heapC5`. -/
theorem C8_witness : relock heapC5 64 (GET_SIZE heapC5 64) = (64, heapC5) :=
  C8_relock_current_size_noop heapC5 64 (by decide) (by decide) (by decide)
    (by decide)

/-! ## Claim C9: reallocate of null is allocate -/

/-- C9: `relock NULL n` returns the same result and produces the same
allocator state as `mlock n` on the same starting heap, for every heap
and every size. -/
theorem C9_relock_null_equals_mlock :
    ∀ (h : Heap) (n : Nat), relock h 0 n = mlock h n :=
  fun _ _ => rfl

/-! ## Claim C10: size alignment wraps modulo the word width -/

/-- C10: for any requested size greater than `2^64 - 8`, `ALIGN_BYTES`
wraps to 0 in `size_t` arithmetic, the minimum-payload floor raises the
size to 16, and `mlock` — instead of failing — returns a block whose
recorded payload size is 16 bytes, smaller than the request (shown on
`heap10`, which holds one free 16-byte block). -/
theorem C10_align_wrap (n : Nat) (h1 : 2 ^ 64 - 8 < n) (h2 : n < 2 ^ 64) :
    ALIGN_BYTES n = 0
      ∧ max (ALIGN_BYTES n) MIN_DATA_SIZE = 16
      ∧ mlock heap10 n = (64, heap10A)
      ∧ GET_SIZE heap10A 64 = 16
      ∧ 16 < n := by
  have hA : ALIGN_BYTES n = 0 := by
    unfold ALIGN_BYTES MOD
    rw [if_neg (by omega)]
    have hd : n / 8 + 1 = 2 ^ 61 := by omega
    rw [hd]
    decide
  refine ⟨hA, by rw [hA]; decide, ?_, by decide, by omega⟩
  unfold mlock
  rw [if_neg (by omega), hA]
  decide

/-- C10 witness: the wrap at `SIZE_MAX`. -/
theorem C10_witness :
    ALIGN_BYTES (2 ^ 64 - 1) = 0
      ∧ max (ALIGN_BYTES (2 ^ 64 - 1)) MIN_DATA_SIZE = 16
      ∧ mlock heap10 (2 ^ 64 - 1) = (64, heap10A)
      ∧ GET_SIZE heap10A 64 = 16
      ∧ 16 < 2 ^ 64 - 1 :=
  C10_align_wrap (2 ^ 64 - 1) (by decide) (by decide)

/-! ## Access-layer lemmas: reads, writes and retilings at block boundaries -/

theorem loadBlocks_skip (pre bs : List Block) (d0 a : Nat)
    (ha : d0 + sumExt pre ≤ a + 8) :
    loadBlocks (pre ++ bs) d0 a = loadBlocks bs (d0 + sumExt pre) a := by
  induction pre generalizing d0 with
  | nil => simp [sumExt_nil]
  | cons b pre ih =>
    rw [sumExt_cons, blockExtent_def] at ha
    have hext : blockExtent b = 8 * b.payload.length + 16 := rfl
    rw [List.cons_append, loadBlocks]
    rw [if_neg (by unfold HEADER_SIZE WORD_SIZE; omega),
        if_neg (by omega),
        if_neg (by omega)]
    rw [ih (d0 + blockExtent b) (by rw [hext]; omega)]
    rw [sumExt_cons]
    ring_nf

theorem loadBlocks_hdr (b : Block) (post : List Block) (d : Nat) (hd : 8 ≤ d) :
    loadBlocks (b :: post) d (d - 8) = b.hdr := by
  rw [loadBlocks, if_pos (by unfold HEADER_SIZE WORD_SIZE; omega)]

theorem loadBlocks_tag (b : Block) (post : List Block) (d : Nat) (hd : 8 ≤ d) :
    loadBlocks (b :: post) d (d + 8 * b.payload.length) = b.tag := by
  rw [loadBlocks, if_neg (by unfold HEADER_SIZE WORD_SIZE; omega), if_pos rfl]

theorem loadBlocks_pay (b : Block) (post : List Block) (d k : Nat)
    (hk : k < b.payload.length) (hd : 8 ≤ d) :
    loadBlocks (b :: post) d (d + 8 * k) = b.payload.getD k 0 := by
  rw [loadBlocks, if_neg (by unfold HEADER_SIZE WORD_SIZE; omega),
      if_neg (by omega), if_pos (by omega)]
  congr 1
  omega

end Mlock

namespace Mlock

theorem dA_ge (pre : List Block) : 64 ≤ dA pre := by
  unfold dA firstAddr BASE
  omega

theorem dA_append (pre : List Block) (b : Block) :
    dA (pre ++ [b]) = dA pre + blockExtent b := by
  unfold dA
  rw [sumExt_append, sumExt_cons, sumExt_nil]
  omega

theorem sumExt_split (h : Heap) (pre : List Block) (b : Block) (post : List Block)
    (hsplit : h.blocks = pre ++ b :: post) :
    sumExt h.blocks = sumExt pre + blockExtent b + sumExt post := by
  rw [hsplit, sumExt_append, sumExt_cons]
  omega

theorem load_hdr (h : Heap) (pre : List Block) (b : Block) (post : List Block)
    (hsplit : h.blocks = pre ++ b :: post) :
    loadWord h (dA pre - 8) = b.hdr := by
  have hsum := sumExt_split h pre b post hsplit
  have hepi : epilogueAddr h = firstAddr + sumExt h.blocks - 8 := rfl
  have hext : blockExtent b = 8 * b.payload.length + 16 := rfl
  have hdA : dA pre = 64 + sumExt pre := rfl
  unfold loadWord
  rw [if_neg (by rw [hdA]; unfold BASE; omega),
      if_neg (by rw [hdA]; unfold BASE; omega),
      if_neg (by rw [hdA, hepi, hsum]; unfold firstAddr BASE; omega)]
  rw [hsplit, loadBlocks_skip pre (b :: post) firstAddr _ (by rw [hdA]; unfold firstAddr BASE; omega)]
  have h2 : (firstAddr + sumExt pre) = dA pre := rfl
  rw [h2, loadBlocks_hdr b post (dA pre) (by rw [hdA]; omega)]

theorem load_tag (h : Heap) (pre : List Block) (b : Block) (post : List Block)
    (hsplit : h.blocks = pre ++ b :: post) :
    loadWord h (dA pre + 8 * b.payload.length) = b.tag := by
  have hsum := sumExt_split h pre b post hsplit
  have hepi : epilogueAddr h = firstAddr + sumExt h.blocks - 8 := rfl
  have hext : blockExtent b = 8 * b.payload.length + 16 := rfl
  have hdA : dA pre = 64 + sumExt pre := rfl
  unfold loadWord
  rw [if_neg (by rw [hdA]; unfold BASE; omega),
      if_neg (by rw [hdA]; unfold BASE; omega),
      if_neg (by rw [hdA, hepi, hsum]; unfold firstAddr BASE; omega)]
  rw [hsplit, loadBlocks_skip pre (b :: post) firstAddr _ (by rw [hdA]; unfold firstAddr BASE; omega)]
  have h2 : (firstAddr + sumExt pre) = dA pre := rfl
  rw [h2, loadBlocks_tag b post (dA pre) (by rw [hdA]; omega)]

theorem load_pay (h : Heap) (pre : List Block) (b : Block) (post : List Block) (k : Nat)
    (hsplit : h.blocks = pre ++ b :: post) (hk : k < b.payload.length) :
    loadWord h (dA pre + 8 * k) = b.payload.getD k 0 := by
  have hsum := sumExt_split h pre b post hsplit
  have hepi : epilogueAddr h = firstAddr + sumExt h.blocks - 8 := rfl
  have hext : blockExtent b = 8 * b.payload.length + 16 := rfl
  have hdA : dA pre = 64 + sumExt pre := rfl
  unfold loadWord
  rw [if_neg (by rw [hdA]; unfold BASE; omega),
      if_neg (by rw [hdA]; unfold BASE; omega),
      if_neg (by rw [hdA, hepi, hsum]; unfold firstAddr BASE; omega)]
  rw [hsplit, loadBlocks_skip pre (b :: post) firstAddr _ (by rw [hdA]; unfold firstAddr BASE; omega)]
  have h2 : (firstAddr + sumExt pre) = dA pre := rfl
  rw [h2, loadBlocks_pay b post (dA pre) k hk (by rw [hdA]; omega)]

theorem load_epilogue (h : Heap) : loadWord h (epilogueAddr h) = pack 0 ALLOCATED := by
  unfold loadWord epilogueAddr firstAddr BASE
  rw [if_neg (by omega), if_neg (by omega), if_pos rfl]

theorem load_prologue_tag (h : Heap) : loadWord h 48 = pack 0 ALLOCATED := by
  unfold loadWord BASE
  rw [if_neg (by omega), if_pos (by omega)]

theorem storeBlocks_skip (pre bs : List Block) (d0 a v : Nat)
    (ha : d0 + sumExt pre ≤ a + 8) :
    storeBlocks (pre ++ bs) d0 a v = pre ++ storeBlocks bs (d0 + sumExt pre) a v := by
  induction pre generalizing d0 with
  | nil => simp [sumExt_nil]
  | cons b pre ih =>
    rw [sumExt_cons, blockExtent_def] at ha
    have hext : blockExtent b = 8 * b.payload.length + 16 := rfl
    rw [List.cons_append, storeBlocks]
    rw [if_neg (by unfold HEADER_SIZE WORD_SIZE; omega),
        if_neg (by omega),
        if_neg (by omega)]
    rw [List.cons_append, ih (d0 + blockExtent b) (by rw [hext]; omega)]
    rw [sumExt_cons]
    ring_nf

theorem storeBlocks_pay (b : Block) (post : List Block) (d k v : Nat)
    (hk : k < b.payload.length) (hd : 8 ≤ d) :
    storeBlocks (b :: post) d (d + 8 * k) v
      = { b with payload := b.payload.set k v } :: post := by
  rw [storeBlocks, if_neg (by unfold HEADER_SIZE WORD_SIZE; omega),
      if_neg (by omega), if_pos (by omega)]
  congr 3
  omega

theorem store_pay (h : Heap) (pre : List Block) (b : Block) (post : List Block) (k v : Nat)
    (hsplit : h.blocks = pre ++ b :: post) (hk : k < b.payload.length) :
    storeWord h (dA pre + 8 * k) v
      = { h with blocks := pre ++ { b with payload := b.payload.set k v } :: post } := by
  have hdA : dA pre = 64 + sumExt pre := rfl
  unfold storeWord
  rw [hsplit, storeBlocks_skip pre (b :: post) firstAddr _ v
        (by rw [hdA]; unfold firstAddr BASE; omega)]
  have h2 : (firstAddr + sumExt pre) = dA pre := rfl
  rw [h2, storeBlocks_pay b post (dA pre) k v hk (by rw [hdA]; omega)]

theorem retileList_skip (pre bs : List Block) (d0 size w : Nat) :
    retileList (pre ++ bs) d0 (d0 + sumExt pre) size w
      = (retileList bs (d0 + sumExt pre) (d0 + sumExt pre) size w).map
          (fun x => pre ++ x) := by
  induction pre generalizing d0 with
  | nil =>
    simp only [List.nil_append, sumExt_nil, Nat.add_zero]
    cases retileList bs d0 d0 size w <;> simp
  | cons b pre ih =>
    have hext : blockExtent b = 8 * b.payload.length + 16 := rfl
    rw [List.cons_append, retileList]
    rw [if_neg (by rw [sumExt_cons]; omega)]
    have harg : d0 + sumExt (b :: pre) = (d0 + blockExtent b) + sumExt pre := by
      rw [sumExt_cons]; omega
    rw [harg, ih (d0 + blockExtent b)]
    cases retileList bs (d0 + blockExtent b + sumExt pre)
        (d0 + blockExtent b + sumExt pre) size w <;> simp

theorem retileHere_same (b : Block) (rest : List Block) (p w : Nat) :
    retileHere b rest p (8 * b.payload.length) w = some (⟨w, b.payload, w⟩ :: rest) := by
  simp [retileHere]

theorem retileHere_split (b : Block) (rest : List Block) (p k w : Nat)
    (hk2 : k + 2 ≤ b.payload.length) :
    retileHere b rest p (8 * k) w
      = some (⟨w, b.payload.take k, w⟩
          :: ⟨b.payload.getD (k + 1) 0, b.payload.drop (k + 2), b.tag⟩ :: rest) := by
  have hdiv : 8 * k / 8 = k := by omega
  simp only [retileHere, hdiv]
  rw [if_neg (by omega), if_pos (by omega), if_pos hk2]

theorem retileHere_merge2 (b c : Block) (rest : List Block) (p w : Nat) :
    retileHere b (c :: rest) p (8 * b.payload.length + 16 + 8 * c.payload.length) w
      = some (⟨w, b.payload ++ b.tag :: c.hdr :: c.payload, w⟩ :: rest) := by
  have hext : blockExtent b = 8 * b.payload.length + 16 := rfl
  simp only [retileHere]
  rw [if_neg (by omega), if_neg (by omega)]
  simp only [retileGo, hext]
  rw [if_neg (by unfold HEADER_SIZE WORD_SIZE; omega),
      if_neg (by unfold HEADER_SIZE WORD_SIZE; omega), if_pos (by omega)]
  simp

theorem retileHere_mergesplit (b c : Block) (rest : List Block) (p k w : Nat)
    (hk2 : k + 2 ≤ c.payload.length) :
    retileHere b (c :: rest) p (8 * b.payload.length + 16 + 8 * k) w
      = some (⟨w, b.payload ++ b.tag :: c.hdr :: c.payload.take k, w⟩
          :: ⟨c.payload.getD (k + 1) 0, c.payload.drop (k + 2), c.tag⟩ :: rest) := by
  have hext : blockExtent b = 8 * b.payload.length + 16 := rfl
  simp only [retileHere]
  rw [if_neg (by omega), if_neg (by omega)]
  simp only [retileGo, hext]
  rw [if_neg (by unfold HEADER_SIZE WORD_SIZE; omega),
      if_neg (by unfold HEADER_SIZE WORD_SIZE; omega), if_neg (by omega),
      if_pos (by omega)]
  have hdiv : (p + (8 * b.payload.length + 16 + 8 * k) - (p + (8 * b.payload.length + 16))) / 8 = k := by
    omega
  rw [if_pos (by rw [hdiv]; omega)]
  simp [hdiv]

theorem retileHere_mergehdr (b c : Block) (rest : List Block) (p w : Nat) :
    retileHere b (c :: rest) p (8 * b.payload.length + 8) w
      = some (⟨w, b.payload ++ [b.tag], w⟩
          :: ⟨c.payload.getD 0 0, c.payload.drop 1, c.tag⟩ :: rest) := by
  have hext : blockExtent b = 8 * b.payload.length + 16 := rfl
  simp only [retileHere]
  rw [if_neg (by omega), if_neg (by omega)]
  simp only [retileGo, hext]
  rw [if_pos (by unfold HEADER_SIZE WORD_SIZE; omega)]

theorem REDO_at (h : Heap) (pre : List Block) (b : Block) (post : List Block)
    (size a : Nat) (hsplit : h.blocks = pre ++ b :: post) :
    REDO_HEADERS h (dA pre) size a
      = match retileHere b post (dA pre) size (pack size a) with
        | some bs => { h with blocks := pre ++ bs }
        | none => h := by
  unfold REDO_HEADERS
  rw [hsplit]
  have hdA : dA pre = firstAddr + sumExt pre := rfl
  rw [hdA, retileList_skip pre (b :: post) firstAddr size (pack size a)]
  rw [retileList, if_pos rfl, ← hdA]
  cases retileHere b post (dA pre) size (pack size a) <;> simp [Option.map, hsplit]

theorem REDO_same (h : Heap) (pre : List Block) (b : Block) (post : List Block)
    (size a : Nat) (hsplit : h.blocks = pre ++ b :: post)
    (hsize : size = 8 * b.payload.length) :
    REDO_HEADERS h (dA pre) size a
      = { h with blocks := pre ++ ⟨pack size a, b.payload, pack size a⟩ :: post } := by
  rw [REDO_at h pre b post size a hsplit, hsize, retileHere_same]

theorem REDO_split (h : Heap) (pre : List Block) (b : Block) (post : List Block)
    (k a : Nat) (hsplit : h.blocks = pre ++ b :: post)
    (hk2 : k + 2 ≤ b.payload.length) :
    REDO_HEADERS h (dA pre) (8 * k) a
      = { h with blocks := pre
            ++ ⟨pack (8 * k) a, b.payload.take k, pack (8 * k) a⟩
            :: ⟨b.payload.getD (k + 1) 0, b.payload.drop (k + 2), b.tag⟩ :: post } := by
  rw [REDO_at h pre b post (8 * k) a hsplit, retileHere_split b post (dA pre) k _ hk2]

theorem REDO_merge2 (h : Heap) (pre : List Block) (b c : Block) (post : List Block)
    (a : Nat) (hsplit : h.blocks = pre ++ b :: c :: post) :
    REDO_HEADERS h (dA pre) (8 * b.payload.length + 16 + 8 * c.payload.length) a
      = { h with blocks := pre
            ++ ⟨pack (8 * b.payload.length + 16 + 8 * c.payload.length) a,
                b.payload ++ b.tag :: c.hdr :: c.payload,
                pack (8 * b.payload.length + 16 + 8 * c.payload.length) a⟩ :: post } := by
  rw [REDO_at h pre b (c :: post) _ a hsplit, retileHere_merge2]

theorem REDO_mergesplit (h : Heap) (pre : List Block) (b c : Block) (post : List Block)
    (k a : Nat) (hsplit : h.blocks = pre ++ b :: c :: post)
    (hk2 : k + 2 ≤ c.payload.length) :
    REDO_HEADERS h (dA pre) (8 * b.payload.length + 16 + 8 * k) a
      = { h with blocks := pre
            ++ ⟨pack (8 * b.payload.length + 16 + 8 * k) a,
                b.payload ++ b.tag :: c.hdr :: c.payload.take k,
                pack (8 * b.payload.length + 16 + 8 * k) a⟩
            :: ⟨c.payload.getD (k + 1) 0, c.payload.drop (k + 2), c.tag⟩ :: post } := by
  rw [REDO_at h pre b (c :: post) _ a hsplit, retileHere_mergesplit b c post (dA pre) k _ hk2]

theorem REDO_mergehdr (h : Heap) (pre : List Block) (b c : Block) (post : List Block)
    (a : Nat) (hsplit : h.blocks = pre ++ b :: c :: post) :
    REDO_HEADERS h (dA pre) (8 * b.payload.length + 8) a
      = { h with blocks := pre
            ++ ⟨pack (8 * b.payload.length + 8) a, b.payload ++ [b.tag],
                pack (8 * b.payload.length + 8) a⟩
            :: ⟨c.payload.getD 0 0, c.payload.drop 1, c.tag⟩ :: post } := by
  rw [REDO_at h pre b (c :: post) _ a hsplit, retileHere_mergehdr b c post (dA pre)]

/-! ## Index-view lemmas -/


theorem split_at_i (h : Heap) (i : Nat) (hi : i < h.blocks.length) :
    h.blocks = h.blocks.take i ++ blkD h i :: h.blocks.drop (i + 1) := by
  unfold blkD
  rw [List.getD_eq_getElem h.blocks default hi]
  rw [← List.drop_eq_getElem_cons hi, List.take_append_drop]

theorem take_len (h : Heap) (i : Nat) (hi : i < h.blocks.length) :
    (h.blocks.take i).length = i := by
  simp [List.length_take]
  omega

theorem load_hdr_i (h : Heap) (i : Nat) (hi : i < h.blocks.length) :
    loadWord h (addrI h i - 8) = (blkD h i).hdr :=
  load_hdr h _ _ _ (split_at_i h i hi)

theorem load_tag_i (h : Heap) (i : Nat) (hi : i < h.blocks.length) :
    loadWord h (addrI h i + 8 * (blkD h i).payload.length) = (blkD h i).tag :=
  load_tag h _ _ _ (split_at_i h i hi)

theorem load_pay_i (h : Heap) (i k : Nat) (hi : i < h.blocks.length)
    (hk : k < (blkD h i).payload.length) :
    loadWord h (addrI h i + 8 * k) = (blkD h i).payload.getD k 0 :=
  load_pay h _ _ _ k (split_at_i h i hi) hk

theorem store_pay_i (h : Heap) (i k v : Nat) (hi : i < h.blocks.length)
    (hk : k < (blkD h i).payload.length) :
    storeWord h (addrI h i + 8 * k) v
      = { h with blocks :=
            h.blocks.set i ({ blkD h i with payload := (blkD h i).payload.set k v }) } := by
  unfold addrI
  rw [store_pay h _ _ _ k v (split_at_i h i hi) hk]
  congr 1
  rw [List.set_eq_take_cons_drop _ hi]

theorem addrI_zero (h : Heap) : addrI h 0 = 64 := rfl

theorem addrI_succ (h : Heap) (i : Nat) (hi : i < h.blocks.length) :
    addrI h (i + 1) = addrI h i + blockExtent (blkD h i) := by
  unfold addrI
  have : h.blocks.take (i + 1) = h.blocks.take i ++ [blkD h i] := by
    unfold blkD
    rw [List.getD_eq_getElem h.blocks default hi]
    rw [List.take_succ, List.getElem?_eq_getElem hi]
    rfl
  rw [this, dA_append]

theorem addrI_ge (h : Heap) (i : Nat) : 64 ≤ addrI h i := dA_ge _

theorem addrI_lt_succ (h : Heap) (i : Nat) (hi : i < h.blocks.length) :
    addrI h i + 16 ≤ addrI h (i + 1) := by
  rw [addrI_succ h i hi, blockExtent_def]
  omega

theorem addrI_mono (h : Heap) (i j : Nat) (hij : i < j) (hj : j ≤ h.blocks.length) :
    addrI h i < addrI h j := by
  induction j with
  | zero => omega
  | succ j ih =>
    have hj' : j < h.blocks.length := by omega
    rcases Nat.lt_or_ge i j with hlt | hge
    · have := ih (by omega) (by omega)
      have := addrI_lt_succ h j hj'
      omega
    · have : i = j := by omega
      subst this
      have := addrI_lt_succ h i hj'
      omega

theorem blkD_set_ne (h : Heap) (i j : Nat) (u : Block) (hij : j ≠ i) :
    ({ h with blocks := h.blocks.set i u } : Heap).blocks.getD j default
      = h.blocks.getD j default := by
  simp [List.getD, List.getElem?_set_ne (by omega : i ≠ j)]

theorem blkD_set_eq (h : Heap) (i : Nat) (u : Block) (hi : i < h.blocks.length) :
    ({ h with blocks := h.blocks.set i u } : Heap).blocks.getD i default = u := by
  simp [List.getD, List.getElem?_set_self' , List.getElem?_eq_getElem, hi]

theorem sumExt_take_set (bs : List Block) (i j : Nat) (u : Block)
    (hext : blockExtent u = blockExtent (bs.getD i default)) :
    sumExt ((bs.set i u).take j) = sumExt (bs.take j) := by
  induction bs generalizing i j with
  | nil => simp
  | cons b bs ih =>
    cases i with
    | zero =>
      cases j with
      | zero => simp
      | succ j =>
        simp only [List.set]
        rw [List.take_succ_cons, List.take_succ_cons, sumExt_cons, sumExt_cons]
        simp only [List.getD, List.getElem?_cons_zero] at hext
        simp at hext
        rw [hext]
    | succ i =>
      cases j with
      | zero => simp
      | succ j =>
        simp only [List.set]
        rw [List.take_succ_cons, List.take_succ_cons, sumExt_cons, sumExt_cons]
        simp only [List.getD, List.getElem?_cons_succ] at hext
        rw [ih i j hext]

/-- Setting a block without changing its extent keeps every address. -/
theorem addrI_set (h : Heap) (i j : Nat) (u : Block)
    (hext : blockExtent u = blockExtent (blkD h i)) :
    addrI { h with blocks := h.blocks.set i u } j = addrI h j := by
  unfold addrI dA
  simp only []
  rw [sumExt_take_set h.blocks i j u hext]

theorem length_set_heap (h : Heap) (i : Nat) (u : Block) :
    ({ h with blocks := h.blocks.set i u } : Heap).blocks.length = h.blocks.length := by
  simp

theorem mem_freeStartsFrom (bs : List Block) (d x : Nat) :
    x ∈ freeStartsFrom d bs
      ↔ ∃ i, i < bs.length ∧ x = d + sumExt (bs.take i)
          ∧ allocB (bs.getD i default) = FREE := by
  induction bs generalizing d with
  | nil => simp [freeStartsFrom]
  | cons b bs ih =>
    rw [freeStartsFrom]
    constructor
    · intro hx
      by_cases hb : allocB b = FREE
      · rw [if_pos hb] at hx
        rcases List.mem_cons.mp hx with rfl | hx'
        · exact ⟨0, by simp, by simp [sumExt_nil], by simpa using hb⟩
        · rcases (ih (d + blockExtent b)).mp hx' with ⟨i, hi, hxi, hfree⟩
          refine ⟨i + 1, by simp; omega, ?_, by simpa using hfree⟩
          rw [List.take_succ_cons, sumExt_cons, hxi]
          omega
      · rw [if_neg hb] at hx
        rcases (ih (d + blockExtent b)).mp hx with ⟨i, hi, hxi, hfree⟩
        refine ⟨i + 1, by simp; omega, ?_, by simpa using hfree⟩
        rw [List.take_succ_cons, sumExt_cons, hxi]
        omega
    · rintro ⟨i, hi, hxi, hfree⟩
      cases i with
      | zero =>
        simp only [List.getD, List.getElem?_cons_zero] at hfree
        simp at hfree
        rw [if_pos hfree]
        simp [sumExt_nil] at hxi
        simp [hxi]
      | succ i =>
        have hx' : x ∈ freeStartsFrom (d + blockExtent b) bs := by
          apply (ih (d + blockExtent b)).mpr
          refine ⟨i, by simp at hi; omega, ?_, by simpa using hfree⟩
          rw [List.take_succ_cons, sumExt_cons] at hxi
          omega
        by_cases hb : allocB b = FREE
        · rw [if_pos hb]
          exact List.mem_cons_of_mem _ hx'
        · rw [if_neg hb]
          exact hx'

theorem mem_freeStarts (h : Heap) (x : Nat) :
    x ∈ freeStarts h
      ↔ ∃ i, i < h.blocks.length ∧ x = addrI h i ∧ allocB (blkD h i) = FREE := by
  unfold freeStarts blkD addrI dA
  rw [mem_freeStartsFrom]

theorem split_at_i2 (h : Heap) (i : Nat) (hi : i + 1 < h.blocks.length) :
    h.blocks = h.blocks.take i
      ++ blkD h i :: blkD h (i + 1) :: h.blocks.drop (i + 2) := by
  have h2 : h.blocks.drop (i + 1) = blkD h (i + 1) :: h.blocks.drop (i + 2) := by
    unfold blkD
    rw [List.getD_eq_getElem h.blocks default hi]
    exact List.drop_eq_getElem_cons hi
  have h1 := split_at_i h i (by omega)
  rw [h2] at h1
  exact h1

theorem GET_SIZE_i (h : Heap) (i : Nat) (hi : i < h.blocks.length)
    (hWF : WFb (blkD h i)) :
    GET_SIZE h (addrI h i) = 8 * (blkD h i).payload.length := by
  unfold GET_SIZE
  rw [HEADER_SIZE_eq, load_hdr_i h i hi]
  obtain ⟨-, h8, hlen, -⟩ := hWF
  unfold GET_SIZE_FROM_HEADER
  omega

theorem GET_ALLOC_i (h : Heap) (i : Nat) (hi : i < h.blocks.length) :
    GET_ALLOC h (addrI h i) = allocB (blkD h i) := by
  unfold GET_ALLOC allocB
  rw [HEADER_SIZE_eq, load_hdr_i h i hi]

theorem GET_NEXT_FREE_i (h : Heap) (i : Nat) (hi : i < h.blocks.length)
    (hlen : 0 < (blkD h i).payload.length) :
    GET_NEXT_FREE h (addrI h i) = (blkD h i).payload.getD 0 0 := by
  unfold GET_NEXT_FREE
  have := load_pay_i h i 0 hi hlen
  simpa using this

theorem GET_PREV_FREE_i (h : Heap) (i : Nat) (hi : i < h.blocks.length)
    (hlen : 1 < (blkD h i).payload.length) :
    GET_PREV_FREE h (addrI h i) = (blkD h i).payload.getD 1 0 := by
  unfold GET_PREV_FREE
  rw [WORD_SIZE_eq]
  have := load_pay_i h i 1 hi hlen
  simpa using this

theorem load_prev_tag_zero (h : Heap) : loadWord h (addrI h 0 - 16) = pack 0 ALLOCATED := by
  rw [addrI_zero]
  exact load_prologue_tag h

theorem load_prev_tag_succ (h : Heap) (i : Nat) (hi : i + 1 < h.blocks.length) :
    loadWord h (addrI h (i + 1) - 16) = (blkD h i).tag := by
  have hs := addrI_succ h i (by omega)
  have hge := addrI_ge h i
  have harg : addrI h (i + 1) - 16 = addrI h i + 8 * (blkD h i).payload.length := by
    rw [hs, blockExtent_def]
    omega
  rw [harg]
  exact load_tag_i h i (by omega)

theorem load_next_hdr_mid (h : Heap) (i : Nat) (hi : i + 1 < h.blocks.length) :
    loadWord h (addrI h i + 8 * (blkD h i).payload.length + 16 - 8)
      = (blkD h (i + 1)).hdr := by
  have hs := addrI_succ h i (by omega)
  have hge := addrI_ge h i
  have harg : addrI h i + 8 * (blkD h i).payload.length + 16 - 8 = addrI h (i + 1) - 8 := by
    rw [hs, blockExtent_def]
    omega
  rw [harg]
  exact load_hdr_i h (i + 1) hi

theorem addrI_length (h : Heap) : addrI h h.blocks.length = brkAddr h := by
  unfold addrI dA brkAddr
  rw [List.take_of_length_le (by omega)]

theorem load_next_hdr_last (h : Heap) (i : Nat) (hi : i + 1 = h.blocks.length) :
    loadWord h (addrI h i + 8 * (blkD h i).payload.length + 16 - 8)
      = pack 0 ALLOCATED := by
  have hs := addrI_succ h i (by omega)
  have hge := addrI_ge h i
  have harg : addrI h i + 8 * (blkD h i).payload.length + 16 - 8 = epilogueAddr h := by
    have h2 : addrI h (i + 1) = brkAddr h := by rw [hi, addrI_length]
    have hepi : epilogueAddr h = brkAddr h - 8 := rfl
    rw [hepi, ← h2, hs, blockExtent_def]
    omega
  rw [harg]
  exact load_epilogue h

theorem REDO_same_i (h : Heap) (i size a : Nat) (hi : i < h.blocks.length)
    (hsize : size = 8 * (blkD h i).payload.length) :
    REDO_HEADERS h (addrI h i) size a
      = { h with blocks :=
            h.blocks.set i ⟨pack size a, (blkD h i).payload, pack size a⟩ } := by
  have := REDO_same h (h.blocks.take i) (blkD h i) (h.blocks.drop (i + 1)) size a
    (split_at_i h i hi) hsize
  rw [show dA (h.blocks.take i) = addrI h i from rfl] at this
  rw [this]
  congr 1
  rw [List.set_eq_take_cons_drop _ hi]

theorem REDO_split_i (h : Heap) (i k a : Nat) (hi : i < h.blocks.length)
    (hk2 : k + 2 ≤ (blkD h i).payload.length) :
    REDO_HEADERS h (addrI h i) (8 * k) a
      = { h with blocks := h.blocks.take i
            ++ ⟨pack (8 * k) a, (blkD h i).payload.take k, pack (8 * k) a⟩
            :: ⟨(blkD h i).payload.getD (k + 1) 0, (blkD h i).payload.drop (k + 2),
                (blkD h i).tag⟩
            :: h.blocks.drop (i + 1) } := by
  have := REDO_split h (h.blocks.take i) (blkD h i) (h.blocks.drop (i + 1)) k a
    (split_at_i h i hi) hk2
  rw [show dA (h.blocks.take i) = addrI h i from rfl] at this
  rw [this]

theorem REDO_merge2_i (h : Heap) (i a : Nat) (hi : i + 1 < h.blocks.length) :
    REDO_HEADERS h (addrI h i)
        (8 * (blkD h i).payload.length + 16 + 8 * (blkD h (i + 1)).payload.length) a
      = { h with blocks := h.blocks.take i
            ++ ⟨pack (8 * (blkD h i).payload.length + 16
                  + 8 * (blkD h (i + 1)).payload.length) a,
                (blkD h i).payload ++ (blkD h i).tag :: (blkD h (i + 1)).hdr
                  :: (blkD h (i + 1)).payload,
                pack (8 * (blkD h i).payload.length + 16
                  + 8 * (blkD h (i + 1)).payload.length) a⟩
            :: h.blocks.drop (i + 2) } := by
  have := REDO_merge2 h (h.blocks.take i) (blkD h i) (blkD h (i + 1))
    (h.blocks.drop (i + 2)) a (split_at_i2 h i hi)
  rw [show dA (h.blocks.take i) = addrI h i from rfl] at this
  rw [this]

theorem REDO_mergesplit_i (h : Heap) (i k a : Nat) (hi : i + 1 < h.blocks.length)
    (hk2 : k + 2 ≤ (blkD h (i + 1)).payload.length) :
    REDO_HEADERS h (addrI h i) (8 * (blkD h i).payload.length + 16 + 8 * k) a
      = { h with blocks := h.blocks.take i
            ++ ⟨pack (8 * (blkD h i).payload.length + 16 + 8 * k) a,
                (blkD h i).payload ++ (blkD h i).tag :: (blkD h (i + 1)).hdr
                  :: (blkD h (i + 1)).payload.take k,
                pack (8 * (blkD h i).payload.length + 16 + 8 * k) a⟩
            :: ⟨(blkD h (i + 1)).payload.getD (k + 1) 0,
                (blkD h (i + 1)).payload.drop (k + 2), (blkD h (i + 1)).tag⟩
            :: h.blocks.drop (i + 2) } := by
  have := REDO_mergesplit h (h.blocks.take i) (blkD h i) (blkD h (i + 1))
    (h.blocks.drop (i + 2)) k a (split_at_i2 h i hi) hk2
  rw [show dA (h.blocks.take i) = addrI h i from rfl] at this
  rw [this]


theorem REDO_mergehdr_i (h : Heap) (i a : Nat) (hi : i + 1 < h.blocks.length) :
    REDO_HEADERS h (addrI h i) (8 * (blkD h i).payload.length + 8) a
      = { h with blocks := h.blocks.take i
            ++ ⟨pack (8 * (blkD h i).payload.length + 8) a,
                (blkD h i).payload ++ [(blkD h i).tag],
                pack (8 * (blkD h i).payload.length + 8) a⟩
            :: ⟨(blkD h (i + 1)).payload.getD 0 0, (blkD h (i + 1)).payload.drop 1,
                (blkD h (i + 1)).tag⟩
            :: h.blocks.drop (i + 2) } := by
  have := REDO_mergehdr h (h.blocks.take i) (blkD h i) (blkD h (i + 1))
    (h.blocks.drop (i + 2)) a (split_at_i2 h i hi)
  rw [show dA (h.blocks.take i) = addrI h i from rfl] at this
  rw [this]

/-- A list whose first `p` entries agree pointwise with a length-`p` list
has it as its `take p` prefix. -/
theorem take_eq_of_getD (L P : List Nat) (p : Nat) (hp : p ≤ L.length)
    (hlen : P.length = p) (hgd : ∀ t, t < p → L.getD t 0 = P.getD t 0) :
    L.take p = P := by
  apply List.ext_getElem
  · simp
    omega
  · intro t ht1 ht2
    have htp : t < p := by
      simp at ht1
      omega
    have e1 : (L.take p)[t] = L.getD t 0 := by
      rw [List.getElem_take]
      rw [List.getD_eq_getElem L 0 (by omega)]
    have e2 : P[t] = P.getD t 0 := by
      rw [List.getD_eq_getElem P 0 (by omega)]
    rw [e1, e2]
    exact hgd t htp

/-! Frame lemmas for extent-preserving single-block updates. -/

theorem blkD_of_set (h : Heap) (i j : Nat) (u : Block) :
    blkD { h with blocks := h.blocks.set i u } j
      = if j = i ∧ i < h.blocks.length then u else blkD h j := by
  by_cases hj : j = i ∧ i < h.blocks.length
  · rw [if_pos hj]
    obtain ⟨rfl, hi⟩ := hj
    exact blkD_set_eq h j u hi
  · rw [if_neg hj]
    by_cases hji : j = i
    · subst hji
      have hi : ¬ j < h.blocks.length := fun hlt => hj ⟨rfl, hlt⟩
      unfold blkD
      simp only []
      rw [List.set_eq_of_length_le (by omega)]
    · exact blkD_set_ne h i j u hji

theorem freeStarts_congr (h h' : Heap)
    (hlen : h'.blocks.length = h.blocks.length)
    (haddr : ∀ j, addrI h' j = addrI h j)
    (hflag : ∀ j, j < h.blocks.length → allocB (blkD h' j) = allocB (blkD h j)) :
    ∀ x, x ∈ freeStarts h' ↔ x ∈ freeStarts h := by
  intro x
  rw [mem_freeStarts, mem_freeStarts]
  constructor
  · rintro ⟨i, hi, hx, hf⟩
    exact ⟨i, by omega, by rw [← haddr i]; exact hx,
      by rw [← hflag i (by omega)]; exact hf⟩
  · rintro ⟨i, hi, hx, hf⟩
    exact ⟨i, by omega, by rw [haddr i]; exact hx, by rw [hflag i hi]; exact hf⟩

theorem chainSegB_congr (h h' : Heap) (l : List Nat)
    (hfs : ∀ x, x ∈ freeStarts h' ↔ x ∈ freeStarts h)
    (hnext : ∀ y ∈ l, GET_NEXT_FREE h' y = GET_NEXT_FREE h y) :
    ∀ f g, chainSegB h' f l g = chainSegB h f l g := by
  induction l with
  | nil => intro f g; rfl
  | cons a l ih =>
    intro f g
    rw [chainSegB, chainSegB]
    have h1 : decide (a ∈ freeStarts h') = decide (a ∈ freeStarts h) := by
      simp [hfs a]
    rw [h1, hnext a (List.mem_cons_self a l)]
    by_cases hfa : f == a
    · rw [ih (fun y hy => hnext y (List.mem_cons_of_mem a hy))]
    · simp [hfa]

theorem prevsB_congr (h h' : Heap) (l : List Nat)
    (hprev : ∀ y ∈ l, GET_PREV_FREE h' y = GET_PREV_FREE h y) :
    ∀ pv, prevsB h' pv l = prevsB h pv l := by
  induction l with
  | nil => intro pv; rfl
  | cons a l ih =>
    intro pv
    rw [prevsB, prevsB, hprev a (List.mem_cons_self a l)]
    rw [ih (fun y hy => hprev y (List.mem_cons_of_mem a hy))]

theorem chainSegB_append_intro (h : Heap) (l1 l2 : List Nat) (f m g : Nat)
    (h1 : chainSegB h f l1 m = true) (h2 : chainSegB h m l2 g = true) :
    chainSegB h f (l1 ++ l2) g = true := by
  induction l1 generalizing f with
  | nil =>
    rw [chainSegB] at h1
    simp only [List.nil_append]
    simp at h1
    subst h1
    simpa using h2
  | cons a l1 ih =>
    rw [chainSegB] at h1
    rw [List.cons_append, chainSegB]
    simp only [Bool.and_eq_true] at h1 ⊢
    exact ⟨h1.1, ih _ h1.2⟩

theorem chainSegB_split (h : Heap) (l1 l2 : List Nat) (f x g : Nat)
    (hc : chainSegB h f (l1 ++ x :: l2) g = true) :
    chainSegB h f l1 x = true ∧ x ∈ freeStarts h
      ∧ chainSegB h (GET_NEXT_FREE h x) l2 g = true := by
  induction l1 generalizing f with
  | nil =>
    rw [List.nil_append, chainSegB] at hc
    simp only [Bool.and_eq_true] at hc
    obtain ⟨⟨hfx, hmem⟩, hrest⟩ := hc
    refine ⟨?_, by simpa using hmem, hrest⟩
    rw [chainSegB]
    exact hfx
  | cons a l1 ih =>
    rw [List.cons_append, chainSegB] at hc
    simp only [Bool.and_eq_true] at hc
    obtain ⟨⟨hfa, hmem⟩, hrest⟩ := hc
    obtain ⟨hseg, hx, hnext⟩ := ih _ hrest
    refine ⟨?_, hx, hnext⟩
    rw [chainSegB]
    simp only [Bool.and_eq_true]
    exact ⟨⟨hfa, hmem⟩, hseg⟩

theorem chainSegB_headD (h : Heap) (l : List Nat) (f g : Nat)
    (hc : chainSegB h f l g = true) : f = l.headD g := by
  cases l with
  | nil => rw [chainSegB] at hc; simpa using hc
  | cons a l =>
    rw [chainSegB] at hc
    simp only [Bool.and_eq_true] at hc
    simpa using hc.1.1

theorem prevsB_split (h : Heap) (l1 l2 : List Nat) (x : Nat) :
    ∀ pv, prevsB h pv (l1 ++ x :: l2) = true →
      prevsB h pv l1 = true ∧ GET_PREV_FREE h x = l1.getLastD pv
        ∧ prevsB h x l2 = true := by
  induction l1 with
  | nil =>
    intro pv hp
    rw [List.nil_append, prevsB] at hp
    simp only [Bool.and_eq_true] at hp
    exact ⟨rfl, by simpa using hp.1, hp.2⟩
  | cons a l1 ih =>
    intro pv hp
    rw [List.cons_append, prevsB] at hp
    simp only [Bool.and_eq_true] at hp
    obtain ⟨hseg, hlast, htail⟩ := ih a hp.2
    refine ⟨?_, ?_, htail⟩
    · rw [prevsB]
      simp only [Bool.and_eq_true]
      exact ⟨hp.1, hseg⟩
    · rw [hlast, List.getLastD_cons]

theorem prevsB_append_intro (h : Heap) (l1 l2 : List Nat) :
    ∀ pv, prevsB h pv l1 = true → prevsB h (l1.getLastD pv) l2 = true →
      prevsB h pv (l1 ++ l2) = true := by
  induction l1 with
  | nil => intro pv h1 h2; simpa using h2
  | cons a l1 ih =>
    intro pv h1 h2
    rw [prevsB] at h1
    simp only [Bool.and_eq_true] at h1
    rw [List.cons_append, prevsB]
    simp only [Bool.and_eq_true]
    rw [List.getLastD_cons] at h2
    exact ⟨h1.1, ih a h1.2 h2⟩

theorem chainSegB_concat_retarget (h h2 : Heap) (l1' : List Nat) (p m m' : Nat)
    (hmem : ∀ y ∈ l1' ++ [p], y ∈ freeStarts h2 ↔ y ∈ freeStarts h)
    (hnexts : ∀ y ∈ l1', GET_NEXT_FREE h2 y = GET_NEXT_FREE h y)
    (hnewp : GET_NEXT_FREE h2 p = m') :
    ∀ f, chainSegB h f (l1' ++ [p]) m = true → chainSegB h2 f (l1' ++ [p]) m' = true := by
  induction l1' with
  | nil =>
    intro f hc
    rw [List.nil_append, chainSegB] at hc ⊢
    simp only [Bool.and_eq_true] at hc ⊢
    refine ⟨⟨hc.1.1, ?_⟩, ?_⟩
    · have := (hmem p (by simp)).mpr (by simpa using hc.1.2)
      simpa using this
    · rw [hnewp, chainSegB]
      simp
  | cons a l1' ih =>
    intro f hc
    rw [List.cons_append, chainSegB] at hc ⊢
    simp only [Bool.and_eq_true] at hc ⊢
    obtain ⟨⟨hfa, hma⟩, hrest⟩ := hc
    refine ⟨⟨hfa, ?_⟩, ?_⟩
    · have := (hmem a (by simp)).mpr (by simpa using hma)
      simpa using this
    · rw [hnexts a (by simp)]
      exact ih (fun y hy => hmem y (by simp at hy ⊢; tauto))
        (fun y hy => hnexts y (by simp [hy])) _ hrest

theorem getD_set_self (l : List Nat) (i : Nat) (v : Nat) (hi : i < l.length) :
    (l.set i v).getD i 0 = v := by
  rw [List.getD_eq_getElem (l.set i v) 0 (by simpa using hi)]
  simp [List.getElem_set_self]

theorem getD_set_ne (l : List Nat) (i j : Nat) (v : Nat) (hij : i ≠ j) :
    (l.set i v).getD j 0 = l.getD j 0 := by
  by_cases hj : j < l.length
  · rw [List.getD_eq_getElem (l.set i v) 0 (by simpa using hj),
        List.getD_eq_getElem l 0 hj]
    exact List.getElem_set_ne hij _
  · rw [List.getD_eq_default (l.set i v) 0 (by simpa using hj),
        List.getD_eq_default l 0 (by omega)]

theorem Inv_WFb (h : Heap) (hInv : Inv h) (i : Nat) (hi : i < h.blocks.length) :
    WFb (blkD h i) := by
  apply hInv.1
  unfold blkD
  rw [List.getD_eq_getElem h.blocks default hi]
  exact List.getElem_mem hi

theorem mem_freeStarts_pos (h : Heap) (x : Nat) (hx : x ∈ freeStarts h) : 64 ≤ x := by
  rw [mem_freeStarts] at hx
  obtain ⟨i, -, rfl, -⟩ := hx
  exact addrI_ge h i

/-- Effect of writing one of the two link words of a free block: the
shape of the heap, every address, every header and tag, every other
block, and the link words of every other free block are untouched. -/
theorem store_slot_spec (h h' : Heap) (u s v : Nat) (hu : u ∈ freeStarts h)
    (hlen2 : ∀ i, i < h.blocks.length → 2 ≤ (blkD h i).payload.length)
    (hs : s < 2) (hdef : h' = storeWord h (u + 8 * s) v) :
    h'.blocks.length = h.blocks.length
    ∧ (∀ j, (blkD h' j).hdr = (blkD h j).hdr ∧ (blkD h' j).tag = (blkD h j).tag
        ∧ (blkD h' j).payload.length = (blkD h j).payload.length)
    ∧ (∀ j, addrI h' j = addrI h j)
    ∧ (∀ j, j < h.blocks.length → addrI h j ≠ u → blkD h' j = blkD h j)
    ∧ (∀ y, y ∈ freeStarts h' ↔ y ∈ freeStarts h)
    ∧ h'.free_list = h.free_list ∧ h'.limit = h.limit
    ∧ (s = 0 → GET_NEXT_FREE h' u = v
        ∧ GET_PREV_FREE h' u = GET_PREV_FREE h u)
    ∧ (s = 1 → GET_PREV_FREE h' u = v
        ∧ GET_NEXT_FREE h' u = GET_NEXT_FREE h u)
    ∧ (∀ y, y ∈ freeStarts h → y ≠ u →
        GET_NEXT_FREE h' y = GET_NEXT_FREE h y
        ∧ GET_PREV_FREE h' y = GET_PREV_FREE h y) := by
  obtain ⟨i, hi, hui, hfree⟩ := (mem_freeStarts h u).mp hu
  have hpl : 2 ≤ (blkD h i).payload.length := hlen2 i hi
  have hstore :
      h' = { h with blocks :=
        h.blocks.set i ({ blkD h i with payload := (blkD h i).payload.set s v }) } := by
    rw [hdef, hui, store_pay_i h i s v hi (by omega)]
  have hext : blockExtent ({ blkD h i with
      payload := (blkD h i).payload.set s v }) = blockExtent (blkD h i) := by
    rw [blockExtent_def, blockExtent_def]
    simp
  have hlen : h'.blocks.length = h.blocks.length := by rw [hstore]; simp
  have hblk : ∀ j, blkD h' j = if j = i ∧ i < h.blocks.length
      then { blkD h i with payload := (blkD h i).payload.set s v }
      else blkD h j := by
    intro j
    rw [hstore]
    exact blkD_of_set h i j _
  have hshape : ∀ j, (blkD h' j).hdr = (blkD h j).hdr
      ∧ (blkD h' j).tag = (blkD h j).tag
      ∧ (blkD h' j).payload.length = (blkD h j).payload.length := by
    intro j
    rw [hblk j]
    by_cases hj : j = i ∧ i < h.blocks.length
    · rw [if_pos hj]
      obtain ⟨rfl, -⟩ := hj
      simp
    · rw [if_neg hj]
      exact ⟨rfl, rfl, rfl⟩
  have haddr : ∀ j, addrI h' j = addrI h j := by
    intro j
    rw [hstore]
    exact addrI_set h i j _ hext
  have hframe : ∀ j, j < h.blocks.length → addrI h j ≠ u → blkD h' j = blkD h j := by
    intro j hj hne
    rw [hblk j]
    by_cases hji : j = i ∧ i < h.blocks.length
    · obtain ⟨rfl, -⟩ := hji
      exact absurd hui.symm hne
    · rw [if_neg hji]
  have hfs : ∀ y, y ∈ freeStarts h' ↔ y ∈ freeStarts h := by
    apply freeStarts_congr h h' hlen haddr
    intro j hj
    unfold allocB
    rw [(hshape j).1]
  have hfl : h'.free_list = h.free_list := by rw [hstore]
  have hlim : h'.limit = h.limit := by rw [hstore]
  have hblki : blkD h' i = { blkD h i with payload := (blkD h i).payload.set s v } := by
    rw [hblk i, if_pos ⟨rfl, hi⟩]
  have hnext_u : GET_NEXT_FREE h' u = ((blkD h i).payload.set s v).getD 0 0 := by
    rw [hui, ← haddr i]
    rw [GET_NEXT_FREE_i h' i (by omega) (by rw [(hshape i).2.2]; omega)]
    rw [hblki]
  have hprev_u : GET_PREV_FREE h' u = ((blkD h i).payload.set s v).getD 1 0 := by
    rw [hui, ← haddr i]
    rw [GET_PREV_FREE_i h' i (by omega) (by rw [(hshape i).2.2]; omega)]
    rw [hblki]
  have hnext_u0 : GET_NEXT_FREE h u = (blkD h i).payload.getD 0 0 := by
    rw [hui]; exact GET_NEXT_FREE_i h i hi (by omega)
  have hprev_u0 : GET_PREV_FREE h u = (blkD h i).payload.getD 1 0 := by
    rw [hui]; exact GET_PREV_FREE_i h i hi (by omega)
  refine ⟨hlen, hshape, haddr, hframe, hfs, hfl, hlim, ?_, ?_, ?_⟩
  · rintro rfl
    constructor
    · rw [hnext_u, getD_set_self _ _ _ (by omega)]
    · rw [hprev_u, hprev_u0, getD_set_ne _ _ _ _ (by omega)]
  · rintro rfl
    constructor
    · rw [hprev_u, getD_set_self _ _ _ (by omega)]
    · rw [hnext_u, hnext_u0, getD_set_ne _ _ _ _ (by omega)]
  · intro y hy hyu
    obtain ⟨jy, hjy, hyj, hyfree⟩ := (mem_freeStarts h y).mp hy
    have hji : jy ≠ i := by
      rintro rfl
      exact hyu (hyj ▸ hui ▸ rfl)
    have hbj : blkD h' jy = blkD h jy := by
      rw [hblk jy, if_neg (by tauto)]
    have hlen0 : 2 ≤ (blkD h jy).payload.length := hlen2 jy hjy
    have e1 : GET_NEXT_FREE h' y = (blkD h' jy).payload.getD 0 0 := by
      rw [hyj, ← haddr jy]
      exact GET_NEXT_FREE_i h' jy (by omega) (by rw [(hshape jy).2.2]; omega)
    have e2 : GET_NEXT_FREE h y = (blkD h jy).payload.getD 0 0 := by
      rw [hyj]
      exact GET_NEXT_FREE_i h jy hjy (by omega)
    have e3 : GET_PREV_FREE h' y = (blkD h' jy).payload.getD 1 0 := by
      rw [hyj, ← haddr jy]
      exact GET_PREV_FREE_i h' jy (by omega) (by rw [(hshape jy).2.2]; omega)
    have e4 : GET_PREV_FREE h y = (blkD h jy).payload.getD 1 0 := by
      rw [hyj]
      exact GET_PREV_FREE_i h jy hjy (by omega)
    exact ⟨by rw [e1, e2, hbj], by rw [e3, e4, hbj]⟩

theorem chainSegB_mem (h : Heap) (l : List Nat) :
    ∀ f g, chainSegB h f l g = true → ∀ y ∈ l, y ∈ freeStarts h := by
  induction l with
  | nil => intro f g hc y hy; simp at hy
  | cons a l ih =>
    intro f g hc y hy
    rw [chainSegB] at hc
    simp only [Bool.and_eq_true] at hc
    rcases List.mem_cons.mp hy with rfl | hy'
    · simpa using hc.1.2
    · exact ih _ _ hc.2 y hy'

theorem chainSegB_fl (h : Heap) (v : Nat) (l : List Nat) (f g : Nat) :
    chainSegB { h with free_list := v } f l g = chainSegB h f l g :=
  chainSegB_congr h { h with free_list := v } l (fun _ => Iff.rfl)
    (fun _ _ => rfl) f g

theorem prevsB_fl (h : Heap) (v : Nat) (l : List Nat) (pv : Nat) :
    prevsB { h with free_list := v } pv l = prevsB h pv l :=
  prevsB_congr h { h with free_list := v } l (fun _ _ => rfl) pv

theorem headD_mem (l : List Nat) (d : Nat) (hl : l ≠ []) : l.headD d ∈ l := by
  cases l with
  | nil => exact absurd rfl hl
  | cons a l => simp

/-- Master lemma for `remove_free_block`: removing the node `x` from a
well-linked free list leaves the block structure untouched (only the two
link words of `x`'s chain neighbors change) and yields the stitched
chain.  `l1` and `l2` are the chain segments before and after `x`; the
links of `x` itself are given by `hnext`/`hprev`, so the lemma applies
both when `x` is still a block start and when the block at `x` has just
been absorbed by a coalescing `REDO_HEADERS` (its link words then live
inside the merged payload). -/
theorem remove_master (h : Heap) (x : Nat) (l1 l2 : List Nat)
    (hlen2 : ∀ i, i < h.blocks.length → 2 ≤ (blkD h i).payload.length)
    (hnext : GET_NEXT_FREE h x = l2.headD 0)
    (hprev : GET_PREV_FREE h x = l1.getLastD 0)
    (hchain1 : chainSegB h h.free_list l1 x = true)
    (hchain2 : chainSegB h (l2.headD 0) l2 0 = true)
    (hprevs1 : prevsB h 0 l1 = true)
    (hprevs2 : prevsB h x l2 = true)
    (hnd : (l1 ++ x :: l2).Nodup) :
    (remove_free_block h x).blocks.length = h.blocks.length
    ∧ (∀ j, (blkD (remove_free_block h x) j).hdr = (blkD h j).hdr
        ∧ (blkD (remove_free_block h x) j).tag = (blkD h j).tag
        ∧ (blkD (remove_free_block h x) j).payload.length
            = (blkD h j).payload.length)
    ∧ (∀ j, addrI (remove_free_block h x) j = addrI h j)
    ∧ (∀ j, j < h.blocks.length → addrI h j ∉ l1 → addrI h j ∉ l2 →
        blkD (remove_free_block h x) j = blkD h j)
    ∧ (∀ y, y ∈ freeStarts (remove_free_block h x) ↔ y ∈ freeStarts h)
    ∧ chainSegB (remove_free_block h x) (remove_free_block h x).free_list
        (l1 ++ l2) 0 = true
    ∧ prevsB (remove_free_block h x) 0 (l1 ++ l2) = true
    ∧ (remove_free_block h x).limit = h.limit := by
  have hndf : x ∉ l1 ∧ x ∉ l2 ∧ l1.Nodup ∧ l2.Nodup ∧ ∀ y ∈ l1, y ∉ l2 := by
    simp [List.nodup_append, List.nodup_cons, List.disjoint_left] at hnd
    obtain ⟨h1, ⟨h2a, h2b⟩, h4⟩ := hnd
    exact ⟨fun hx => (h4 hx).1 rfl, h2a, h1, h2b, fun y hy hyl2 => (h4 hy).2 hyl2⟩
  obtain ⟨hxl1, hxl2, hnd1, hnd2, hdisj⟩ := hndf
  have hm1 : ∀ y ∈ l1, y ∈ freeStarts h := chainSegB_mem h l1 _ _ hchain1
  have hm2 : ∀ y ∈ l2, y ∈ freeStarts h := chainSegB_mem h l2 _ _ hchain2
  have hfl : h.free_list = l1.headD x := chainSegB_headD h l1 _ _ hchain1
  have hl1cases : l1 = [] ∨ ∃ L b, l1 = L ++ [b] := by
    rcases List.eq_nil_or_concat l1 with hc | ⟨L, b, hc⟩
    · exact Or.inl hc
    · exact Or.inr ⟨L, b, by simpa [List.concat_eq_append] using hc⟩
  rcases hl1cases with rfl | ⟨l1p, p, rfl⟩
  · -- the removed node is the head of the free list
    have hflx : h.free_list = x := by simpa using hfl
    cases l2 with
    | nil =>
      have hres : remove_free_block h x = { h with free_list := 0 } := by
        have e1 : GET_NEXT_FREE h x = 0 := by rw [hnext]; simp
        have e2 : GET_PREV_FREE h x = 0 := by rw [hprev]; simp
        simp only [remove_free_block, e1, e2]
        rw [if_pos hflx.symm]
        unfold LINK_FREE
        simp
      rw [hres]
      refine ⟨rfl, fun j => ⟨rfl, rfl, rfl⟩, fun j => rfl, fun j hj h1 h2 => rfl,
        fun y => Iff.rfl, ?_, ?_, rfl⟩
      · simp [chainSegB]
      · simp [prevsB]
    | cons y l2p =>
      have hy_mem : y ∈ freeStarts h := hm2 y (by simp)
      have hy_pos : 64 ≤ y := mem_freeStarts_pos h y hy_mem
      have hres : remove_free_block h x
          = PUT_PREV_FREE { h with free_list := y } y 0 := by
        have e1 : GET_NEXT_FREE h x = y := by rw [hnext]; simp
        have e2 : GET_PREV_FREE h x = 0 := by rw [hprev]; simp
        simp only [remove_free_block, e1, e2]
        rw [if_pos hflx.symm]
        unfold LINK_FREE
        split_ifs <;> first | rfl | omega
      set h1 : Heap := { h with free_list := y } with hh1
      have hfs1 : ∀ z, z ∈ freeStarts h1 ↔ z ∈ freeStarts h := fun z => Iff.rfl
      have hstep : PUT_PREV_FREE h1 y 0 = storeWord h1 (y + 8 * 1) 0 := by
        unfold PUT_PREV_FREE
        rw [WORD_SIZE_eq]
      obtain ⟨slen, sshape, saddr, sframe, sfs, sfl, slim, -, hs1, hother⟩ :=
        store_slot_spec h1 (PUT_PREV_FREE h1 y 0) y 1 0 ((hfs1 y).mpr hy_mem)
          (fun i hi => hlen2 i hi) (by omega) hstep
      obtain ⟨hprev_y, hnext_y⟩ := hs1 rfl
      rw [hres]
      refine ⟨slen, sshape, saddr, ?_, fun z => (sfs z).trans (hfs1 z), ?_, ?_, slim⟩
      · intro j hj hj1 hj2
        exact sframe j hj (by intro he; exact hj2 (he ▸ List.mem_cons_self y l2p))
      · have hflres : (PUT_PREV_FREE h1 y 0).free_list = y := sfl
        rw [List.nil_append, hflres]
        have hcongr : chainSegB (PUT_PREV_FREE h1 y 0) y (y :: l2p) 0
            = chainSegB h y (y :: l2p) 0 := by
          apply chainSegB_congr
          · intro z
            exact (sfs z).trans (hfs1 z)
          · intro z hz
            rcases List.mem_cons.mp hz with rfl | hz'
            · exact hnext_y
            · exact (hother z (hm2 z (List.mem_cons_of_mem y hz'))
                (by intro he; subst he; exact (List.nodup_cons.mp hnd2).1 hz')).1
        rw [hcongr]
        simpa using hchain2
      · rw [List.nil_append, prevsB]
        simp only [Bool.and_eq_true]
        constructor
        · simp [hprev_y]
        · have htail : prevsB h y l2p = true := by
            rw [prevsB] at hprevs2
            simp only [Bool.and_eq_true] at hprevs2
            exact hprevs2.2
          have hcongr : prevsB (PUT_PREV_FREE h1 y 0) y l2p = prevsB h y l2p := by
            apply prevsB_congr
            intro z hz
            exact (hother z (hm2 z (List.mem_cons_of_mem y hz))
              (by intro he; subst he; exact (List.nodup_cons.mp hnd2).1 hz)).2
          rw [hcongr, htail]
  · -- l1 = l1p ++ [p]: the removed node has a predecessor p
    have hp_mem_l1 : p ∈ l1p ++ [p] := by simp
    have hp_mem : p ∈ freeStarts h := hm1 p hp_mem_l1
    have hp_pos : 64 ≤ p := mem_freeStarts_pos h p hp_mem
    have hfl_ne : h.free_list ≠ x := by
      rw [hfl]
      intro he
      exact hxl1 (he ▸ headD_mem _ x (by simp))
    have hp_not_l1p : p ∉ l1p := by
      have hd := (List.nodup_append.mp hnd1).2.2
      intro hp
      exact hd hp (by simp)
    cases l2 with
    | nil =>
      have hres : remove_free_block h x = PUT_NEXT_FREE h p 0 := by
        have e1 : GET_NEXT_FREE h x = 0 := by rw [hnext]; simp
        have e2 : GET_PREV_FREE h x = p := by rw [hprev]; simp
        simp only [remove_free_block, e1, e2]
        rw [if_neg (fun he => hfl_ne he.symm)]
        unfold LINK_FREE
        split_ifs <;> first | rfl | omega
      have hstep : PUT_NEXT_FREE h p 0 = storeWord h (p + 8 * 0) 0 := by
        unfold PUT_NEXT_FREE
        norm_num
      obtain ⟨slen, sshape, saddr, sframe, sfs, sfl, slim, hs0, -, hother⟩ :=
        store_slot_spec h (PUT_NEXT_FREE h p 0) p 0 0 hp_mem hlen2 (by omega) hstep
      obtain ⟨hnext_p, hprev_p2⟩ := hs0 rfl
      rw [hres]
      refine ⟨slen, sshape, saddr, ?_, sfs, ?_, ?_, slim⟩
      · intro j hj hj1 hj2
        exact sframe j hj (fun he => hj1 (he ▸ hp_mem_l1))
      · rw [List.append_nil, sfl]
        apply chainSegB_concat_retarget h (PUT_NEXT_FREE h p 0) l1p p x 0 (fun z hz => sfs z)
        · intro z hz
          exact (hother z (hm1 z (by simp [hz]))
            (fun he => hp_not_l1p (he ▸ hz))).1
        · exact hnext_p
        · exact hchain1
      · rw [List.append_nil]
        have hcongr : prevsB (PUT_NEXT_FREE h p 0) 0 (l1p ++ [p])
            = prevsB h 0 (l1p ++ [p]) := by
          apply prevsB_congr
          intro z hz
          by_cases hzp : z = p
          · subst hzp
            exact hprev_p2
          · exact (hother z (hm1 z hz) hzp).2
        rw [hcongr, hprevs1]
    | cons y l2p =>
      have hy_mem : y ∈ freeStarts h := hm2 y (by simp)
      have hy_pos : 64 ≤ y := mem_freeStarts_pos h y hy_mem
      have hpy : p ≠ y := fun he => hdisj p hp_mem_l1 (he ▸ List.mem_cons_self y l2p)
      have hres : remove_free_block h x
          = PUT_PREV_FREE (PUT_NEXT_FREE h p y) y p := by
        have e1 : GET_NEXT_FREE h x = y := by rw [hnext]; simp
        have e2 : GET_PREV_FREE h x = p := by rw [hprev]; simp
        simp only [remove_free_block, e1, e2]
        rw [if_neg (fun he => hfl_ne he.symm)]
        unfold LINK_FREE
        split_ifs <;> first | rfl | omega
      set h2 : Heap := PUT_NEXT_FREE h p y with hh2
      have hstep1 : h2 = storeWord h (p + 8 * 0) y := by
        rw [hh2]
        unfold PUT_NEXT_FREE
        norm_num
      obtain ⟨slen1, sshape1, saddr1, sframe1, sfs1, sfl1, slim1, hs01, -, hother1⟩ :=
        store_slot_spec h h2 p 0 y hp_mem hlen2 (by omega) hstep1
      obtain ⟨hnext_p, hprev_p2⟩ := hs01 rfl
      have hlen2h2 : ∀ i, i < h2.blocks.length → 2 ≤ (blkD h2 i).payload.length := by
        intro i hi
        rw [(sshape1 i).2.2]
        exact hlen2 i (by omega)
      have hstep2 : PUT_PREV_FREE h2 y p = storeWord h2 (y + 8 * 1) p := by
        unfold PUT_PREV_FREE
        rw [WORD_SIZE_eq]
      obtain ⟨slen2, sshape2, saddr2, sframe2, sfs2, sfl2, slim2, -, hs12, hother2⟩ :=
        store_slot_spec h2 (PUT_PREV_FREE h2 y p) y 1 p ((sfs1 y).mpr hy_mem)
          hlen2h2 (by omega) hstep2
      obtain ⟨hprev_y, hnext_y⟩ := hs12 rfl
      rw [hres]
      set h3 : Heap := PUT_PREV_FREE h2 y p
      have hfs : ∀ z, z ∈ freeStarts h3 ↔ z ∈ freeStarts h :=
        fun z => (sfs2 z).trans (sfs1 z)
      have hnext_trans : ∀ z, z ∈ freeStarts h → z ≠ p → z ≠ y →
          GET_NEXT_FREE h3 z = GET_NEXT_FREE h z := by
        intro z hz hzp hzy
        rw [(hother2 z ((sfs1 z).mpr hz) hzy).1, (hother1 z hz hzp).1]
      have hprev_trans : ∀ z, z ∈ freeStarts h → z ≠ p → z ≠ y →
          GET_PREV_FREE h3 z = GET_PREV_FREE h z := by
        intro z hz hzp hzy
        rw [(hother2 z ((sfs1 z).mpr hz) hzy).2, (hother1 z hz hzp).2]
      have hnext3_p : GET_NEXT_FREE h3 p = y := by
        rw [(hother2 p ((sfs1 p).mpr hp_mem) hpy).1, hnext_p]
      refine ⟨by rw [slen2, slen1],
        fun j => ⟨by rw [(sshape2 j).1, (sshape1 j).1],
          by rw [(sshape2 j).2.1, (sshape1 j).2.1],
          by rw [(sshape2 j).2.2, (sshape1 j).2.2]⟩,
        fun j => by rw [saddr2 j, saddr1 j], ?_, hfs, ?_, ?_, by rw [slim2, slim1]⟩
      · intro j hj hj1 hj2
        rw [sframe2 j (by omega)
            (by rw [saddr1 j]; intro he; exact hj2 (he ▸ List.mem_cons_self y l2p)),
          sframe1 j hj (fun he => hj1 (he ▸ hp_mem_l1))]
      · have hfl3 : h3.free_list = h.free_list := by rw [sfl2, sfl1]
        rw [hfl3]
        apply chainSegB_append_intro h3 (l1p ++ [p]) (y :: l2p) h.free_list y 0
        · apply chainSegB_concat_retarget h h3 l1p p x y (fun z hz => hfs z)
          · intro z hz
            exact hnext_trans z (hm1 z (by simp [hz]))
              (fun he => hp_not_l1p (he ▸ hz))
              (fun he => hdisj z (by simp [hz]) (he ▸ List.mem_cons_self y l2p))
          · exact hnext3_p
          · exact hchain1
        · have hcongr : chainSegB h3 y (y :: l2p) 0 = chainSegB h y (y :: l2p) 0 := by
            apply chainSegB_congr _ _ _ hfs
            intro z hz
            rcases List.mem_cons.mp hz with rfl | hz'
            · rw [hnext_y, (hother1 z hy_mem (fun he => hpy he.symm)).1]
            · exact hnext_trans z (hm2 z (List.mem_cons_of_mem y hz'))
                (fun he => hdisj z (he ▸ hp_mem_l1) (List.mem_cons_of_mem y hz'))
                (fun he => (List.nodup_cons.mp hnd2).1 (he ▸ hz'))
          rw [hcongr]
          simpa using hchain2
      · apply prevsB_append_intro h3 (l1p ++ [p]) (y :: l2p) 0
        · have hcongr : prevsB h3 0 (l1p ++ [p]) = prevsB h 0 (l1p ++ [p]) := by
            apply prevsB_congr
            intro z hz
            by_cases hzp : z = p
            · subst hzp
              rw [(hother2 z ((sfs1 z).mpr hp_mem) hpy).2, hprev_p2]
            · exact hprev_trans z (hm1 z hz) hzp
                (fun he => hdisj z (he ▸ hz) (he ▸ List.mem_cons_self y l2p))
          rw [hcongr, hprevs1]
        · rw [List.getLastD_concat, prevsB]
          simp only [Bool.and_eq_true]
          refine ⟨by simp [hprev_y], ?_⟩
          have htail : prevsB h y l2p = true := by
            rw [prevsB] at hprevs2
            simp only [Bool.and_eq_true] at hprevs2
            exact hprevs2.2
          have hcongr : prevsB h3 y l2p = prevsB h y l2p := by
            apply prevsB_congr
            intro z hz
            exact hprev_trans z (hm2 z (List.mem_cons_of_mem y hz))
              (fun he => hdisj z (he ▸ hp_mem_l1) (List.mem_cons_of_mem y hz))
              (fun he => (List.nodup_cons.mp hnd2).1 (he ▸ hz))
          rw [hcongr, htail]

end Mlock

namespace Mlock

theorem chainSegB_congr_mem (h h' : Heap) (l : List Nat)
    (hfs : ∀ y ∈ l, y ∈ freeStarts h' ↔ y ∈ freeStarts h)
    (hnext : ∀ y ∈ l, GET_NEXT_FREE h' y = GET_NEXT_FREE h y) :
    ∀ f g, chainSegB h' f l g = chainSegB h f l g := by
  induction l with
  | nil => intro f g; rfl
  | cons a l ih =>
    intro f g
    rw [chainSegB, chainSegB]
    have h1 : decide (a ∈ freeStarts h') = decide (a ∈ freeStarts h) := by
      simp [hfs a (List.mem_cons_self a l)]
    rw [h1, hnext a (List.mem_cons_self a l)]
    by_cases hfa : f == a
    · rw [ih (fun y hy => hfs y (List.mem_cons_of_mem a hy))
          (fun y hy => hnext y (List.mem_cons_of_mem a hy))]
    · simp [hfa]

theorem chainSegB_mono (h h' : Heap) (l : List Nat)
    (hfs : ∀ y ∈ l, y ∈ freeStarts h → y ∈ freeStarts h')
    (hnext : ∀ y ∈ l, GET_NEXT_FREE h' y = GET_NEXT_FREE h y) :
    ∀ f g, chainSegB h f l g = true → chainSegB h' f l g = true := by
  induction l with
  | nil => intro f g hc; exact hc
  | cons a l ih =>
    intro f g hc
    rw [chainSegB] at hc ⊢
    simp only [Bool.and_eq_true] at hc ⊢
    obtain ⟨⟨hfa, hma⟩, hrest⟩ := hc
    refine ⟨⟨hfa, ?_⟩, ?_⟩
    · have := hfs a (List.mem_cons_self a l) (by simpa using hma)
      simpa using this
    · rw [hnext a (List.mem_cons_self a l)]
      exact ih (fun y hy => hfs y (List.mem_cons_of_mem a hy))
        (fun y hy => hnext y (List.mem_cons_of_mem a hy)) _ _ hrest

theorem noAdj_iff (bs : List Block) :
    noAdjFreeB bs = true
      ↔ ∀ j, j + 1 < bs.length →
          allocB (bs.getD j default) = ALLOCATED
            ∨ allocB (bs.getD (j + 1) default) = ALLOCATED := by
  induction bs with
  | nil => simp [noAdjFreeB]
  | cons a bs ih =>
    cases bs with
    | nil => simp [noAdjFreeB]
    | cons b bs2 =>
      rw [noAdjFreeB]
      simp only [Bool.and_eq_true]
      rw [ih]
      constructor
      · rintro ⟨hok, hrest⟩ j hj
        cases j with
        | zero =>
          unfold okPair at hok
          simp only [Bool.or_eq_true, decide_eq_true_eq] at hok
          simpa using hok
        | succ j =>
          have := hrest j (by simpa using hj)
          simpa using this
      · intro hall
        constructor
        · have := hall 0 (by simp)
          unfold okPair
          simp only [Bool.or_eq_true, decide_eq_true_eq]
          simpa using this
        · intro j hj
          have := hall (j + 1) (by simpa using hj)
          simpa using this

theorem getD_take_blk (bs : List Block) (k j : Nat) (hj : j < k) :
    (bs.take k).getD j default = bs.getD j default := by
  unfold List.getD
  rw [List.get?_eq_getElem?, List.get?_eq_getElem?, List.getElem?_take, if_pos hj]

theorem getD_drop_blk (bs : List Block) (n j : Nat) :
    (bs.drop n).getD j default = bs.getD (n + j) default := by
  unfold List.getD
  rw [List.get?_eq_getElem?, List.get?_eq_getElem?, List.getElem?_drop]

theorem addrI_append (h : Heap) (pre rest : List Block)
    (hsplit : h.blocks = pre ++ rest) (m : Nat) :
    addrI h (pre.length + m) = dA pre + sumExt (rest.take m) := by
  unfold addrI dA
  rw [hsplit, List.take_append_eq_append_take,
      List.take_of_length_le (by omega),
      show pre.length + m - pre.length = m from by omega, sumExt_append]
  omega

theorem addrI_take_pre (h : Heap) (pre rest : List Block)
    (hsplit : h.blocks = pre ++ rest) (j : Nat) (hj : j ≤ pre.length) :
    addrI h j = 64 + sumExt (pre.take j) := by
  unfold addrI dA
  rw [hsplit, List.take_append_eq_append_take,
      show j - pre.length = 0 from by omega]
  simp only [List.take_zero, List.append_nil]
  rw [firstAddr_eq]

theorem blkD_concat_lt (h2 : Heap) (pre rest : List Block)
    (hsplit : h2.blocks = pre ++ rest) (j : Nat) (hj : j < pre.length) :
    blkD h2 j = pre.getD j default := by
  unfold blkD
  rw [hsplit, List.getD_append pre rest default j hj]

theorem blkD_concat_ge (h2 : Heap) (pre rest : List Block)
    (hsplit : h2.blocks = pre ++ rest) (j : Nat) (hj : pre.length ≤ j) :
    blkD h2 j = rest.getD (j - pre.length) default := by
  unfold blkD
  rw [hsplit, List.getD_append_right pre rest default j hj]

/-- Shape of the heap after replacing two adjacent blocks `k`, `k+1` by a
single block `M` of the same total extent. -/
theorem merge2_shape (h H2 : Heap) (k : Nat) (M : Block)
    (hk : k + 1 < h.blocks.length)
    (hext : blockExtent M = blockExtent (blkD h k) + blockExtent (blkD h (k + 1)))
    (hdef : H2 = { h with blocks := h.blocks.take k ++ M :: h.blocks.drop (k + 2) }) :
    H2.blocks.length + 1 = h.blocks.length
    ∧ (∀ j, j < k → blkD H2 j = blkD h j)
    ∧ blkD H2 k = M
    ∧ (∀ j, k < j → blkD H2 j = blkD h (j + 1))
    ∧ (∀ j, j ≤ k → addrI H2 j = addrI h j)
    ∧ (∀ j, k < j → addrI H2 j = addrI h (j + 1))
    ∧ brkAddr H2 = brkAddr h
    ∧ H2.free_list = h.free_list ∧ H2.limit = h.limit := by
  have htk : (h.blocks.take k).length = k := by
    rw [List.length_take]
    omega
  have hsplit : H2.blocks = h.blocks.take k ++ M :: h.blocks.drop (k + 2) := by
    rw [hdef]
  have hsplit0 : h.blocks = h.blocks.take k
      ++ blkD h k :: blkD h (k + 1) :: h.blocks.drop (k + 2) := split_at_i2 h k hk
  have hlen : H2.blocks.length + 1 = h.blocks.length := by
    rw [hsplit]
    conv_rhs => rw [hsplit0]
    simp
    omega
  have hlt : ∀ j, j < k → blkD H2 j = blkD h j := by
    intro j hj
    rw [blkD_concat_lt H2 (h.blocks.take k) (M :: h.blocks.drop (k + 2)) hsplit j
      (by omega), getD_take_blk h.blocks k j hj]
    rfl
  have hatk : blkD H2 k = M := by
    rw [blkD_concat_ge H2 (h.blocks.take k) (M :: h.blocks.drop (k + 2)) hsplit k
      (by omega)]
    rw [htk]
    simp
  have hgt : ∀ j, k < j → blkD H2 j = blkD h (j + 1) := by
    intro j hj
    rw [blkD_concat_ge H2 (h.blocks.take k) (M :: h.blocks.drop (k + 2)) hsplit j
      (by omega), htk]
    rw [show j - k = (j - k - 1) + 1 from by omega]
    show (h.blocks.drop (k + 2)).getD (j - k - 1) default = _
    rw [getD_drop_blk]
    show _ = h.blocks.getD (j + 1) default
    congr 1
    omega
  have hale : ∀ j, j ≤ k → addrI H2 j = addrI h j := by
    intro j hj
    rw [addrI_take_pre H2 (h.blocks.take k) (M :: h.blocks.drop (k + 2)) hsplit j
      (by omega)]
    rw [addrI_take_pre h (h.blocks.take k)
      (blkD h k :: blkD h (k + 1) :: h.blocks.drop (k + 2)) hsplit0 j (by omega)]
  have hagt : ∀ j, k < j → addrI H2 j = addrI h (j + 1) := by
    intro j hj
    have e1 : addrI H2 j = dA (h.blocks.take k)
        + sumExt ((M :: h.blocks.drop (k + 2)).take (j - k)) := by
      have := addrI_append H2 (h.blocks.take k) (M :: h.blocks.drop (k + 2))
        hsplit (j - k)
      rw [htk] at this
      rw [show k + (j - k) = j from by omega] at this
      exact this
    have e2 : addrI h (j + 1) = dA (h.blocks.take k)
        + sumExt ((blkD h k :: blkD h (k + 1) :: h.blocks.drop (k + 2)).take
          (j + 1 - k)) := by
      have := addrI_append h (h.blocks.take k)
        (blkD h k :: blkD h (k + 1) :: h.blocks.drop (k + 2)) hsplit0 (j + 1 - k)
      rw [htk] at this
      rw [show k + (j + 1 - k) = j + 1 from by omega] at this
      exact this
    rw [e1, e2]
    rw [show j - k = (j - k - 1) + 1 from by omega,
        show j + 1 - k = (j - k - 1) + 2 from by omega]
    rw [List.take_succ_cons, List.take_succ_cons, List.take_succ_cons,
        sumExt_cons, sumExt_cons, sumExt_cons, hext]
    omega
  have hbrk : brkAddr H2 = brkAddr h := by
    unfold brkAddr
    rw [hsplit]
    conv_rhs => rw [hsplit0]
    rw [sumExt_append, sumExt_append, sumExt_cons, sumExt_cons, sumExt_cons, hext]
    omega
  exact ⟨hlen, hlt, hatk, hgt, hale, hagt, hbrk, by rw [hdef], by rw [hdef]⟩

/-- Shape of the heap after replacing block `k` by two blocks `A`, `B` of
the same total extent. -/
theorem split2_shape (h H2 : Heap) (k : Nat) (A B : Block)
    (hk : k < h.blocks.length)
    (hext : blockExtent A + blockExtent B = blockExtent (blkD h k))
    (hdef : H2
      = { h with blocks := h.blocks.take k ++ A :: B :: h.blocks.drop (k + 1) }) :
    H2.blocks.length = h.blocks.length + 1
    ∧ (∀ j, j < k → blkD H2 j = blkD h j)
    ∧ blkD H2 k = A
    ∧ blkD H2 (k + 1) = B
    ∧ (∀ j, k + 1 < j → blkD H2 j = blkD h (j - 1))
    ∧ (∀ j, j ≤ k → addrI H2 j = addrI h j)
    ∧ addrI H2 (k + 1) = addrI h k + blockExtent A
    ∧ (∀ j, k + 1 < j → addrI H2 j = addrI h (j - 1))
    ∧ brkAddr H2 = brkAddr h
    ∧ H2.free_list = h.free_list ∧ H2.limit = h.limit := by
  have htk : (h.blocks.take k).length = k := by
    rw [List.length_take]
    omega
  have hsplit : H2.blocks = h.blocks.take k ++ A :: B :: h.blocks.drop (k + 1) := by
    rw [hdef]
  have hsplit0 : h.blocks = h.blocks.take k
      ++ blkD h k :: h.blocks.drop (k + 1) := split_at_i h k hk
  have hlen : H2.blocks.length = h.blocks.length + 1 := by
    rw [hsplit]
    conv_rhs => rw [hsplit0]
    simp
    omega
  have hlt : ∀ j, j < k → blkD H2 j = blkD h j := by
    intro j hj
    rw [blkD_concat_lt H2 (h.blocks.take k) (A :: B :: h.blocks.drop (k + 1)) hsplit
      j (by omega), getD_take_blk h.blocks k j hj]
    rfl
  have hatk : blkD H2 k = A := by
    rw [blkD_concat_ge H2 (h.blocks.take k) (A :: B :: h.blocks.drop (k + 1)) hsplit
      k (by omega), htk]
    simp
  have hatk1 : blkD H2 (k + 1) = B := by
    rw [blkD_concat_ge H2 (h.blocks.take k) (A :: B :: h.blocks.drop (k + 1)) hsplit
      (k + 1) (by omega), htk]
    rw [show k + 1 - k = 1 from by omega]
    simp
  have hgt : ∀ j, k + 1 < j → blkD H2 j = blkD h (j - 1) := by
    intro j hj
    rw [blkD_concat_ge H2 (h.blocks.take k) (A :: B :: h.blocks.drop (k + 1)) hsplit
      j (by omega), htk]
    rw [show j - k = (j - k - 2) + 2 from by omega]
    show (h.blocks.drop (k + 1)).getD (j - k - 2) default = _
    rw [getD_drop_blk]
    show _ = h.blocks.getD (j - 1) default
    congr 1
    omega
  have hale : ∀ j, j ≤ k → addrI H2 j = addrI h j := by
    intro j hj
    rw [addrI_take_pre H2 (h.blocks.take k) (A :: B :: h.blocks.drop (k + 1)) hsplit j
      (by omega)]
    rw [addrI_take_pre h (h.blocks.take k) (blkD h k :: h.blocks.drop (k + 1)) hsplit0
      j (by omega)]
  have hak1 : addrI H2 (k + 1) = addrI h k + blockExtent A := by
    have e1 : addrI H2 (k + 1) = dA (h.blocks.take k)
        + sumExt ((A :: B :: h.blocks.drop (k + 1)).take 1) := by
      have := addrI_append H2 (h.blocks.take k) (A :: B :: h.blocks.drop (k + 1))
        hsplit 1
      rw [htk] at this
      exact this
    have e2 : addrI h k = dA (h.blocks.take k) := by
      rw [addrI_take_pre h (h.blocks.take k) (blkD h k :: h.blocks.drop (k + 1))
        hsplit0 k (by omega)]
      rw [List.take_of_length_le (by omega)]
      rfl
    rw [e1, e2]
    rw [List.take_succ_cons, List.take_zero, sumExt_cons, sumExt_nil]
    omega
  have hagt : ∀ j, k + 1 < j → addrI H2 j = addrI h (j - 1) := by
    intro j hj
    have e1 : addrI H2 j = dA (h.blocks.take k)
        + sumExt ((A :: B :: h.blocks.drop (k + 1)).take (j - k)) := by
      have := addrI_append H2 (h.blocks.take k) (A :: B :: h.blocks.drop (k + 1))
        hsplit (j - k)
      rw [htk, show k + (j - k) = j from by omega] at this
      exact this
    have e2 : addrI h (j - 1) = dA (h.blocks.take k)
        + sumExt ((blkD h k :: h.blocks.drop (k + 1)).take (j - 1 - k)) := by
      have := addrI_append h (h.blocks.take k) (blkD h k :: h.blocks.drop (k + 1))
        hsplit0 (j - 1 - k)
      rw [htk, show k + (j - 1 - k) = j - 1 from by omega] at this
      exact this
    rw [e1, e2]
    rw [show j - k = (j - k - 2) + 2 from by omega,
        show j - 1 - k = (j - k - 2) + 1 from by omega]
    rw [List.take_succ_cons, List.take_succ_cons, List.take_succ_cons,
        sumExt_cons, sumExt_cons, sumExt_cons]
    omega
  have hbrk : brkAddr H2 = brkAddr h := by
    unfold brkAddr
    rw [hsplit]
    conv_rhs => rw [hsplit0]
    rw [sumExt_append, sumExt_append, sumExt_cons, sumExt_cons, sumExt_cons]
    omega
  exact ⟨hlen, hlt, hatk, hatk1, hgt, hale, hak1, hagt, hbrk,
    by rw [hdef], by rw [hdef]⟩

/-- Effect of the head insertion at the end of `unlock` (lines 350-352):
link the freed block before the current head and make it the new head. -/
theorem insert_head_spec (h3 : Heap) (p2 : Nat) (l3 : List Nat)
    (hlen2 : ∀ i, i < h3.blocks.length → 2 ≤ (blkD h3 i).payload.length)
    (hp2 : p2 ∈ freeStarts h3)
    (hchain : chainSegB h3 h3.free_list l3 0 = true)
    (hprevs : prevsB h3 0 l3 = true)
    (hnd : l3.Nodup)
    (hp2l : p2 ∉ l3) :
    ∀ hres, hres
        = { PUT_PREV_FREE (LINK_FREE h3 p2 h3.free_list) p2 0 with free_list := p2 } →
    hres.blocks.length = h3.blocks.length
    ∧ (∀ j, (blkD hres j).hdr = (blkD h3 j).hdr
        ∧ (blkD hres j).tag = (blkD h3 j).tag
        ∧ (blkD hres j).payload.length = (blkD h3 j).payload.length)
    ∧ (∀ j, addrI hres j = addrI h3 j)
    ∧ (∀ j, j < h3.blocks.length → addrI h3 j ≠ p2 → addrI h3 j ∉ l3 →
        blkD hres j = blkD h3 j)
    ∧ (∀ y, y ∈ freeStarts hres ↔ y ∈ freeStarts h3)
    ∧ chainSegB hres p2 (p2 :: l3) 0 = true
    ∧ prevsB hres 0 (p2 :: l3) = true
    ∧ hres.free_list = p2
    ∧ hres.limit = h3.limit := by
  intro hres hdefres
  have hp2_pos : 64 ≤ p2 := mem_freeStarts_pos h3 p2 hp2
  have hfl3 : h3.free_list = l3.headD 0 := chainSegB_headD h3 l3 _ _ hchain
  cases l3 with
  | nil =>
    have hfl0 : h3.free_list = 0 := by simpa using hfl3
    have hlink : LINK_FREE h3 p2 h3.free_list = PUT_NEXT_FREE h3 p2 0 := by
      rw [hfl0]
      unfold LINK_FREE
      split_ifs <;> first | rfl | omega
    have hstep1 : PUT_NEXT_FREE h3 p2 0 = storeWord h3 (p2 + 8 * 0) 0 := by
      unfold PUT_NEXT_FREE
      norm_num
    obtain ⟨slen1, sshape1, saddr1, sframe1, sfs1, sfl1, slim1, hs01, -, hother1⟩ :=
      store_slot_spec h3 (PUT_NEXT_FREE h3 p2 0) p2 0 0 hp2 hlen2 (by omega) hstep1
    obtain ⟨hnext1, hprev1⟩ := hs01 rfl
    set h4 : Heap := PUT_NEXT_FREE h3 p2 0 with hh4
    have hlen2h4 : ∀ i, i < h4.blocks.length → 2 ≤ (blkD h4 i).payload.length := by
      intro i hi
      rw [(sshape1 i).2.2]
      exact hlen2 i (by omega)
    have hstep2 : PUT_PREV_FREE h4 p2 0 = storeWord h4 (p2 + 8 * 1) 0 := by
      unfold PUT_PREV_FREE
      rw [WORD_SIZE_eq]
    obtain ⟨slen2, sshape2, saddr2, sframe2, sfs2, sfl2, slim2, -, hs12, hother2⟩ :=
      store_slot_spec h4 (PUT_PREV_FREE h4 p2 0) p2 1 0 ((sfs1 p2).mpr hp2)
        hlen2h4 (by omega) hstep2
    obtain ⟨hprev2, hnext2⟩ := hs12 rfl
    have hresb : hres = { PUT_PREV_FREE h4 p2 0 with free_list := p2 } := by
      rw [hdefres, hlink]
    refine ⟨?_, ?_, ?_, ?_, ?_, ?_, ?_, by rw [hresb], ?_⟩
    · rw [hresb]
      show (PUT_PREV_FREE h4 p2 0).blocks.length = _
      rw [slen2, slen1]
    · intro j
      rw [hresb]
      refine ⟨?_, ?_, ?_⟩
      · show (blkD (PUT_PREV_FREE h4 p2 0) j).hdr = _
        rw [(sshape2 j).1, (sshape1 j).1]
      · show (blkD (PUT_PREV_FREE h4 p2 0) j).tag = _
        rw [(sshape2 j).2.1, (sshape1 j).2.1]
      · show (blkD (PUT_PREV_FREE h4 p2 0) j).payload.length = _
        rw [(sshape2 j).2.2, (sshape1 j).2.2]
    · intro j
      rw [hresb]
      show addrI (PUT_PREV_FREE h4 p2 0) j = _
      rw [saddr2 j, saddr1 j]
    · intro j hj hjp hjl
      rw [hresb]
      show blkD (PUT_PREV_FREE h4 p2 0) j = _
      rw [sframe2 j (by omega) (by rw [saddr1 j]; exact hjp), sframe1 j hj hjp]
    · intro y
      rw [hresb]
      show y ∈ freeStarts (PUT_PREV_FREE h4 p2 0) ↔ _
      exact (sfs2 y).trans (sfs1 y)
    · rw [hresb]
      show chainSegB { PUT_PREV_FREE h4 p2 0 with free_list := p2 } p2 [p2] 0 = true
      rw [chainSegB_fl, chainSegB]
      simp only [Bool.and_eq_true]
      refine ⟨⟨by simp, ?_⟩, ?_⟩
      · simp only [decide_eq_true_eq]
        exact (sfs2 p2).mpr ((sfs1 p2).mpr hp2)
      · have hnx : GET_NEXT_FREE (PUT_PREV_FREE h4 p2 0) p2 = 0 := by
          rw [hnext2, hnext1]
        rw [hnx, chainSegB]
        simp
    · rw [hresb]
      show prevsB { PUT_PREV_FREE h4 p2 0 with free_list := p2 } 0 [p2] = true
      rw [prevsB_fl, prevsB]
      simp only [Bool.and_eq_true]
      exact ⟨by simp [hprev2], by rw [prevsB]⟩
    · rw [hresb]
      show (PUT_PREV_FREE h4 p2 0).limit = _
      rw [slim2, slim1]
  | cons y l3p =>
    have hy : h3.free_list = y := by simpa using hfl3
    have hy_mem : y ∈ freeStarts h3 := by
      rw [chainSegB] at hchain
      simp only [Bool.and_eq_true] at hchain
      simpa using hchain.1.2
    have hy_pos : 64 ≤ y := mem_freeStarts_pos h3 y hy_mem
    have hp2y : p2 ≠ y := fun he => hp2l (he ▸ List.mem_cons_self y l3p)
    have hlink : LINK_FREE h3 p2 h3.free_list
        = PUT_PREV_FREE (PUT_NEXT_FREE h3 p2 y) y p2 := by
      rw [hy]
      unfold LINK_FREE
      split_ifs <;> first | rfl | omega
    have hstep1 : PUT_NEXT_FREE h3 p2 y = storeWord h3 (p2 + 8 * 0) y := by
      unfold PUT_NEXT_FREE
      norm_num
    obtain ⟨slen1, sshape1, saddr1, sframe1, sfs1, sfl1, slim1, hs01, -, hother1⟩ :=
      store_slot_spec h3 (PUT_NEXT_FREE h3 p2 y) p2 0 y hp2 hlen2 (by omega) hstep1
    obtain ⟨hnext1, hprev1⟩ := hs01 rfl
    set h4 : Heap := PUT_NEXT_FREE h3 p2 y with hh4
    have hlen2h4 : ∀ i, i < h4.blocks.length → 2 ≤ (blkD h4 i).payload.length := by
      intro i hi
      rw [(sshape1 i).2.2]
      exact hlen2 i (by omega)
    have hstep2 : PUT_PREV_FREE h4 y p2 = storeWord h4 (y + 8 * 1) p2 := by
      unfold PUT_PREV_FREE
      rw [WORD_SIZE_eq]
    obtain ⟨slen2, sshape2, saddr2, sframe2, sfs2, sfl2, slim2, -, hs12, hother2⟩ :=
      store_slot_spec h4 (PUT_PREV_FREE h4 y p2) y 1 p2 ((sfs1 y).mpr hy_mem)
        hlen2h4 (by omega) hstep2
    obtain ⟨hprev2, hnext2⟩ := hs12 rfl
    set h5 : Heap := PUT_PREV_FREE h4 y p2 with hh5
    have hlen2h5 : ∀ i, i < h5.blocks.length → 2 ≤ (blkD h5 i).payload.length := by
      intro i hi
      rw [(sshape2 i).2.2, (sshape1 i).2.2]
      exact hlen2 i (by omega)
    have hstep3 : PUT_PREV_FREE h5 p2 0 = storeWord h5 (p2 + 8 * 1) 0 := by
      unfold PUT_PREV_FREE
      rw [WORD_SIZE_eq]
    obtain ⟨slen3, sshape3, saddr3, sframe3, sfs3, sfl3, slim3, -, hs13, hother3⟩ :=
      store_slot_spec h5 (PUT_PREV_FREE h5 p2 0) p2 1 0
        ((sfs2 p2).mpr ((sfs1 p2).mpr hp2)) hlen2h5 (by omega) hstep3
    obtain ⟨hprev3, hnext3⟩ := hs13 rfl
    have hresb : hres = { PUT_PREV_FREE h5 p2 0 with free_list := p2 } := by
      rw [hdefres, hlink]
    have hfsall : ∀ z, z ∈ freeStarts (PUT_PREV_FREE h5 p2 0) ↔ z ∈ freeStarts h3 :=
      fun z => ((sfs3 z).trans (sfs2 z)).trans (sfs1 z)
    have hmem_l3 : ∀ z ∈ y :: l3p, z ∈ freeStarts h3 :=
      chainSegB_mem h3 (y :: l3p) _ _ (hy ▸ hchain)
    have hnext_p2 : GET_NEXT_FREE (PUT_PREV_FREE h5 p2 0) p2 = y := by
      rw [hnext3, (hother2 p2 ((sfs1 p2).mpr hp2) hp2y).1, hnext1]
    have hnext_mem : ∀ z, z ∈ freeStarts h3 → z ≠ p2 → z ≠ y →
        GET_NEXT_FREE (PUT_PREV_FREE h5 p2 0) z = GET_NEXT_FREE h3 z := by
      intro z hz hzp hzy
      rw [(hother3 z ((sfs2 z).mpr ((sfs1 z).mpr hz)) hzp).1,
          (hother2 z ((sfs1 z).mpr hz) hzy).1, (hother1 z hz hzp).1]
    have hnext_y : GET_NEXT_FREE (PUT_PREV_FREE h5 p2 0) y = GET_NEXT_FREE h3 y := by
      rw [(hother3 y ((sfs2 y).mpr ((sfs1 y).mpr hy_mem)) (fun he => hp2y he.symm)).1,
          hnext2, (hother1 y hy_mem (fun he => hp2y he.symm)).1]
    have hprev_mem : ∀ z, z ∈ freeStarts h3 → z ≠ p2 → z ≠ y →
        GET_PREV_FREE (PUT_PREV_FREE h5 p2 0) z = GET_PREV_FREE h3 z := by
      intro z hz hzp hzy
      rw [(hother3 z ((sfs2 z).mpr ((sfs1 z).mpr hz)) hzp).2,
          (hother2 z ((sfs1 z).mpr hz) hzy).2, (hother1 z hz hzp).2]
    have hprev_y : GET_PREV_FREE (PUT_PREV_FREE h5 p2 0) y = p2 := by
      rw [(hother3 y ((sfs2 y).mpr ((sfs1 y).mpr hy_mem)) (fun he => hp2y he.symm)).2,
          hprev2]
    refine ⟨?_, ?_, ?_, ?_, ?_, ?_, ?_, by rw [hresb], ?_⟩
    · rw [hresb]
      show (PUT_PREV_FREE h5 p2 0).blocks.length = _
      rw [slen3, slen2, slen1]
    · intro j
      rw [hresb]
      refine ⟨?_, ?_, ?_⟩
      · show (blkD (PUT_PREV_FREE h5 p2 0) j).hdr = _
        rw [(sshape3 j).1, (sshape2 j).1, (sshape1 j).1]
      · show (blkD (PUT_PREV_FREE h5 p2 0) j).tag = _
        rw [(sshape3 j).2.1, (sshape2 j).2.1, (sshape1 j).2.1]
      · show (blkD (PUT_PREV_FREE h5 p2 0) j).payload.length = _
        rw [(sshape3 j).2.2, (sshape2 j).2.2, (sshape1 j).2.2]
    · intro j
      rw [hresb]
      show addrI (PUT_PREV_FREE h5 p2 0) j = _
      rw [saddr3 j, saddr2 j, saddr1 j]
    · intro j hj hjp hjl
      have hjy : addrI h3 j ≠ y := fun he => hjl (he ▸ List.mem_cons_self y l3p)
      rw [hresb]
      show blkD (PUT_PREV_FREE h5 p2 0) j = _
      rw [sframe3 j (by omega) (by rw [saddr2 j, saddr1 j]; exact hjp),
          sframe2 j (by omega) (by rw [saddr1 j]; exact hjy),
          sframe1 j hj hjp]
    · intro z
      rw [hresb]
      show z ∈ freeStarts (PUT_PREV_FREE h5 p2 0) ↔ _
      exact hfsall z
    · rw [hresb]
      show chainSegB { PUT_PREV_FREE h5 p2 0 with free_list := p2 } p2
        (p2 :: y :: l3p) 0 = true
      rw [chainSegB_fl, chainSegB]
      simp only [Bool.and_eq_true]
      refine ⟨⟨by simp, ?_⟩, ?_⟩
      · simp only [decide_eq_true_eq]
        exact (hfsall p2).mpr hp2
      rw [hnext_p2]
      have hcongr : chainSegB (PUT_PREV_FREE h5 p2 0) y (y :: l3p) 0
          = chainSegB h3 y (y :: l3p) 0 := by
        apply chainSegB_congr_mem
        · intro z hz
          exact hfsall z
        · intro z hz
          rcases List.mem_cons.mp hz with rfl | hzp
          · exact hnext_y
          · exact hnext_mem z (hmem_l3 z hz)
              (fun he => hp2l (he ▸ hz))
              (fun he => (List.nodup_cons.mp hnd).1 (he ▸ hzp))
      rw [hcongr]
      exact hy ▸ hchain
    · rw [hresb]
      show prevsB { PUT_PREV_FREE h5 p2 0 with free_list := p2 } 0
        (p2 :: y :: l3p) = true
      rw [prevsB_fl, prevsB]
      simp only [Bool.and_eq_true]
      refine ⟨by simp [hprev3], ?_⟩
      rw [prevsB]
      simp only [Bool.and_eq_true]
      refine ⟨by simp [hprev_y], ?_⟩
      have htail : prevsB h3 y l3p = true := by
        rw [prevsB] at hprevs
        simp only [Bool.and_eq_true] at hprevs
        exact hprevs.2
      have hcongr : prevsB (PUT_PREV_FREE h5 p2 0) y l3p = prevsB h3 y l3p := by
        apply prevsB_congr
        intro z hz
        exact hprev_mem z (hmem_l3 z (List.mem_cons_of_mem y hz))
          (fun he => hp2l (he ▸ List.mem_cons_of_mem y hz))
          (fun he => (List.nodup_cons.mp hnd).1 (he ▸ hz))
      rw [hcongr, htail]
    · rw [hresb]
      show (PUT_PREV_FREE h5 p2 0).limit = _
      rw [slim3, slim2, slim1]

/-- Effect of the first step of `unlock` (line 325): rewriting the block's
header and boundary tag with its own size and the FREE flag. -/
theorem mark_free_spec (h : Heap) (i : Nat) (hi : i < h.blocks.length)
    (hWF : WFb (blkD h i)) :
    ∀ h1, h1 = REDO_HEADERS h (addrI h i) (GET_SIZE h (addrI h i)) FREE →
    h1.blocks.length = h.blocks.length
    ∧ (∀ j, j ≠ i → blkD h1 j = blkD h j)
    ∧ blkD h1 i = ⟨8 * (blkD h i).payload.length, (blkD h i).payload,
        8 * (blkD h i).payload.length⟩
    ∧ (∀ j, addrI h1 j = addrI h j)
    ∧ (∀ j, (blkD h1 j).payload = (blkD h j).payload)
    ∧ (∀ x, x ∈ freeStarts h1 ↔ x ∈ freeStarts h ∨ x = addrI h i)
    ∧ h1.free_list = h.free_list ∧ h1.limit = h.limit := by
  intro h1 hdef
  have hsize : GET_SIZE h (addrI h i) = 8 * (blkD h i).payload.length :=
    GET_SIZE_i h i hi hWF
  have hpk : pack (8 * (blkD h i).payload.length) FREE
      = 8 * (blkD h i).payload.length := by
    rw [pack_eq_add (dvd_mul_right 8 _) (by decide), FREE_eq]
    omega
  set B : Block := ⟨8 * (blkD h i).payload.length, (blkD h i).payload, 8 * (blkD h i).payload.length⟩ with hB
  have hBB : (⟨pack (8 * (blkD h i).payload.length) FREE, (blkD h i).payload, pack (8 * (blkD h i).payload.length) FREE⟩ : Block) = B := by
    rw [hpk]
  have hset : h1 = { h with blocks := h.blocks.set i B } := by
    rw [hdef, hsize, REDO_same_i h i _ FREE hi rfl, hBB]
  have hext : blockExtent B = blockExtent (blkD h i) := rfl
  have hblk : ∀ j, blkD h1 j = if j = i ∧ i < h.blocks.length
      then B
      else blkD h j := by
    intro j
    rw [hset]
    exact blkD_of_set h i j _
  have hlen : h1.blocks.length = h.blocks.length := by
    rw [hset]
    simp
  have hne : ∀ j, j ≠ i → blkD h1 j = blkD h j := by
    intro j hj
    rw [hblk j, if_neg (fun hc => hj hc.1)]
  have hati : blkD h1 i = B := by
    rw [hblk i, if_pos ⟨rfl, hi⟩]
  have haddr : ∀ j, addrI h1 j = addrI h j := by
    intro j
    rw [hset]
    exact addrI_set h i j _ hext
  have hpay : ∀ j, (blkD h1 j).payload = (blkD h j).payload := by
    intro j
    by_cases hj : j = i
    · subst hj
      rw [hati]
    · rw [hne j hj]
  have hfree_i : allocB (blkD h1 i) = FREE := by
    rw [hati, hB]
    show 8 * (blkD h i).payload.length % 2 = 0
    omega
  refine ⟨hlen, hne, hati, haddr, hpay, ?_, by rw [hset], by rw [hset]⟩
  intro x
  rw [mem_freeStarts, mem_freeStarts]
  constructor
  · rintro ⟨j, hj, hx, hf⟩
    by_cases hji : j = i
    · subst hji
      exact Or.inr (by rw [hx, haddr j])
    · exact Or.inl ⟨j, by omega, by rw [hx, haddr j], by rw [← hne j hji]; exact hf⟩
  · rintro (⟨j, hj, hx, hf⟩ | hx)
    · by_cases hji : j = i
      · subst hji
        exact ⟨j, by omega, by rw [hx, haddr j], hfree_i⟩
      · exact ⟨j, by omega, by rw [hx, haddr j], by rw [hne j hji]; exact hf⟩
    · exact ⟨i, by omega, by rw [hx, haddr i], hfree_i⟩

/-- Effect of a two-block coalescing `REDO_HEADERS` call (lines 333 and
344): blocks `k` and `k+1` become one free block whose payload absorbs the
old interior tag and header words, preserving every payload word of both
blocks (in particular the stale free-list links of the absorbed block). -/
theorem merge_step_spec (h : Heap) (k a : Nat) (ha : a ≤ 1)
    (hk : k + 1 < h.blocks.length)
    (hWFk : WFb (blkD h k)) (hWFk1 : WFb (blkD h (k + 1))) :
    ∀ hm, hm = REDO_HEADERS h (addrI h k)
        (8 * (blkD h k).payload.length + 16 + 8 * (blkD h (k + 1)).payload.length)
        a →
    hm.blocks.length + 1 = h.blocks.length
    ∧ (∀ j, j < k → blkD hm j = blkD h j)
    ∧ (∀ j, k < j → blkD hm j = blkD h (j + 1))
    ∧ (∀ j, j ≤ k → addrI hm j = addrI h j)
    ∧ (∀ j, k < j → addrI hm j = addrI h (j + 1))
    ∧ WFb (blkD hm k) ∧ allocB (blkD hm k) = a
    ∧ (blkD hm k).payload.length
        = (blkD h k).payload.length + 2 + (blkD h (k + 1)).payload.length
    ∧ (∀ t, t < (blkD h k).payload.length →
        (blkD hm k).payload.getD t 0 = (blkD h k).payload.getD t 0)
    ∧ (∀ t, (blkD hm k).payload.getD ((blkD h k).payload.length + 2 + t) 0
        = (blkD h (k + 1)).payload.getD t 0)
    ∧ GET_NEXT_FREE hm (addrI h k) = (blkD h k).payload.getD 0 0
    ∧ GET_PREV_FREE hm (addrI h k) = (blkD h k).payload.getD 1 0
    ∧ GET_NEXT_FREE hm (addrI h (k + 1)) = (blkD h (k + 1)).payload.getD 0 0
    ∧ GET_PREV_FREE hm (addrI h (k + 1)) = (blkD h (k + 1)).payload.getD 1 0
    ∧ (∀ x, x ∈ freeStarts hm ↔ (a = FREE ∧ x = addrI h k)
        ∨ (x ∈ freeStarts h ∧ x ≠ addrI h k ∧ x ≠ addrI h (k + 1)))
    ∧ brkAddr hm = brkAddr h ∧ hm.free_list = h.free_list ∧ hm.limit = h.limit
    ∧ blkD hm k = ⟨8 * (blkD h k).payload.length + 16
          + 8 * (blkD h (k + 1)).payload.length + a,
        (blkD h k).payload ++ (blkD h k).tag :: (blkD h (k + 1)).hdr
          :: (blkD h (k + 1)).payload,
        8 * (blkD h k).payload.length + 16
          + 8 * (blkD h (k + 1)).payload.length + a⟩ := by
  intro hm hdef
  obtain ⟨-, -, -, hp2k⟩ := hWFk
  obtain ⟨-, -, -, hp2k1⟩ := hWFk1
  have hpk : pack (8 * (blkD h k).payload.length + 16
      + 8 * (blkD h (k + 1)).payload.length) a
      = 8 * (blkD h k).payload.length + 16
        + 8 * (blkD h (k + 1)).payload.length + a :=
    pack_eq_add (by omega) ha
  set M : Block := ⟨8 * (blkD h k).payload.length + 16 + 8 * (blkD h (k + 1)).payload.length + a, (blkD h k).payload ++ (blkD h k).tag :: (blkD h (k + 1)).hdr :: (blkD h (k + 1)).payload, 8 * (blkD h k).payload.length + 16 + 8 * (blkD h (k + 1)).payload.length + a⟩ with hM
  have hMM : (⟨pack (8 * (blkD h k).payload.length + 16 + 8 * (blkD h (k + 1)).payload.length) a, (blkD h k).payload ++ (blkD h k).tag :: (blkD h (k + 1)).hdr :: (blkD h (k + 1)).payload, pack (8 * (blkD h k).payload.length + 16 + 8 * (blkD h (k + 1)).payload.length) a⟩ : Block) = M := by
    rw [hpk]
  have hMdef : hm = { h with blocks := h.blocks.take k ++ M :: h.blocks.drop (k + 2) } := by
    rw [hdef, REDO_merge2_i h k a hk, hMM]
  have hextM : blockExtent M = blockExtent (blkD h k) + blockExtent (blkD h (k + 1)) := by
    rw [hM, blockExtent_def, blockExtent_def, blockExtent_def]
    simp only [List.length_append, List.length_cons]
    omega
  obtain ⟨hlen, hlt, hatk, hgt, hale, hagt, hbrk, hfl, hlim⟩ :=
    merge2_shape h hm k M hk hextM hMdef
  have hplenM : (blkD hm k).payload.length
      = (blkD h k).payload.length + 2 + (blkD h (k + 1)).payload.length := by
    rw [hatk, hM]
    simp only [List.length_append, List.length_cons]
    omega
  have hWFM : WFb (blkD hm k) := by
    rw [hatk, hM]
    refine ⟨rfl, ?_, ?_, ?_⟩
    · show (8 * (blkD h k).payload.length + 16
          + 8 * (blkD h (k + 1)).payload.length + a) % 8 ≤ 1
      omega
    · show (8 * (blkD h k).payload.length + 16
          + 8 * (blkD h (k + 1)).payload.length + a) / 8
        = ((blkD h k).payload ++ (blkD h k).tag :: (blkD h (k + 1)).hdr
            :: (blkD h (k + 1)).payload).length
      simp only [List.length_append, List.length_cons]
      omega
    · show 2 ≤ ((blkD h k).payload ++ (blkD h k).tag :: (blkD h (k + 1)).hdr
          :: (blkD h (k + 1)).payload).length
      simp only [List.length_append, List.length_cons]
      omega
  have hfreeM : allocB (blkD hm k) = a := by
    rw [hatk, hM]
    show (8 * (blkD h k).payload.length + 16
        + 8 * (blkD h (k + 1)).payload.length + a) % 2 = a
    omega
  have hgetlo : ∀ t, t < (blkD h k).payload.length →
      (blkD hm k).payload.getD t 0 = (blkD h k).payload.getD t 0 := by
    intro t ht
    rw [hatk, hM]
    exact List.getD_append _ _ 0 t ht
  have hgethi : ∀ t, (blkD hm k).payload.getD
      ((blkD h k).payload.length + 2 + t) 0
      = (blkD h (k + 1)).payload.getD t 0 := by
    intro t
    rw [hatk, hM]
    show ((blkD h k).payload ++ (blkD h k).tag :: (blkD h (k + 1)).hdr
        :: (blkD h (k + 1)).payload).getD ((blkD h k).payload.length + 2 + t) 0 = _
    rw [List.getD_append_right _ _ 0 _ (by omega)]
    rw [show (blkD h k).payload.length + 2 + t - (blkD h k).payload.length
        = t + 2 from by omega]
    rfl
  have hkm : k < hm.blocks.length := by omega
  have haddr_k1 : addrI h (k + 1) = addrI hm k + 8 * ((blkD h k).payload.length + 2) := by
    rw [hale k (by omega), addrI_succ h k (by omega), blockExtent_def]
    omega
  have hnfk : GET_NEXT_FREE hm (addrI h k) = (blkD h k).payload.getD 0 0 := by
    unfold GET_NEXT_FREE
    have := load_pay_i hm k 0 hkm (by omega)
    rw [hale k (by omega)] at this
    simp only [Nat.mul_zero, Nat.add_zero] at this
    rw [this]
    exact hgetlo 0 (by omega)
  have hpfk : GET_PREV_FREE hm (addrI h k) = (blkD h k).payload.getD 1 0 := by
    unfold GET_PREV_FREE
    rw [WORD_SIZE_eq]
    have := load_pay_i hm k 1 hkm (by omega)
    rw [hale k (by omega)] at this
    rw [show addrI h k + 8 = addrI h k + 8 * 1 from by omega, this]
    exact hgetlo 1 (by omega)
  have hnfk1 : GET_NEXT_FREE hm (addrI h (k + 1))
      = (blkD h (k + 1)).payload.getD 0 0 := by
    unfold GET_NEXT_FREE
    have := load_pay_i hm k ((blkD h k).payload.length + 2) hkm (by omega)
    rw [hale k (by omega)] at this
    rw [haddr_k1, hale k (by omega), this]
    have := hgethi 0
    rw [show (blkD h k).payload.length + 2 + 0
        = (blkD h k).payload.length + 2 from by omega] at this
    exact this
  have hpfk1 : GET_PREV_FREE hm (addrI h (k + 1))
      = (blkD h (k + 1)).payload.getD 1 0 := by
    unfold GET_PREV_FREE
    rw [WORD_SIZE_eq]
    have := load_pay_i hm k ((blkD h k).payload.length + 2 + 1) hkm (by omega)
    rw [hale k (by omega)] at this
    rw [haddr_k1, hale k (by omega),
        show addrI h k + 8 * ((blkD h k).payload.length + 2) + 8
          = addrI h k + 8 * ((blkD h k).payload.length + 2 + 1) from by omega, this]
    exact hgethi 1
  refine ⟨hlen, hlt, hgt, hale, hagt, hWFM, hfreeM, hplenM, hgetlo, hgethi,
    hnfk, hpfk, hnfk1, hpfk1, ?_, hbrk, hfl, hlim, hatk.trans hM⟩
  intro x
  rw [mem_freeStarts, mem_freeStarts]
  constructor
  · rintro ⟨j, hj, hx, hf⟩
    rcases Nat.lt_trichotomy j k with hjk | heq | hjk
    · refine Or.inr ⟨⟨j, by omega, by rw [hx, hale j (by omega)],
        by rw [← hlt j hjk]; exact hf⟩, ?_, ?_⟩
      · rw [hx, hale j (by omega)]
        intro he
        exact absurd (addrI_mono h j k hjk (by omega)) (by omega)
      · rw [hx, hale j (by omega)]
        intro he
        exact absurd (addrI_mono h j (k + 1) (by omega) (by omega)) (by omega)
    · refine Or.inl ⟨?_, by rw [hx, heq, hale k (by omega)]⟩
      rw [← hfreeM, ← heq]
      exact hf
    · refine Or.inr ⟨⟨j + 1, by omega, by rw [hx, hagt j hjk],
        by rw [← hgt j hjk]; exact hf⟩, ?_, ?_⟩
      · rw [hx, hagt j hjk]
        intro he
        exact absurd (addrI_mono h k (j + 1) (by omega) (by omega)) (by omega)
      · rw [hx, hagt j hjk]
        intro he
        exact absurd (addrI_mono h (k + 1) (j + 1) (by omega) (by omega)) (by omega)
  · rintro (⟨haF, hx⟩ | ⟨⟨j, hj, hx, hf⟩, hxk, hxk1⟩)
    · exact ⟨k, by omega, by rw [hx, hale k (by omega)], by rw [hfreeM]; exact haF⟩
    · rcases Nat.lt_trichotomy j k with hjk | heq | hjk
      · exact ⟨j, by omega, by rw [hx, hale j (by omega)],
          by rw [hlt j hjk]; exact hf⟩
      · exact absurd (by rw [hx, heq]) hxk
      · have hjk1 : k + 1 ≤ j := hjk
        rcases Nat.eq_or_lt_of_le hjk1 with rfl | hjk2
        · exact absurd hx hxk1
        · refine ⟨j - 1, by omega, ?_, ?_⟩
          · rw [hx, hagt (j - 1) (by omega), show j - 1 + 1 = j from by omega]
          · rw [hgt (j - 1) (by omega), show j - 1 + 1 = j from by omega]
            exact hf
    
/-- Well-formedness depends only on the header, tag and payload length. -/
theorem WFb_transport (b c : Block) (h1 : c.hdr = b.hdr) (h2 : c.tag = b.tag)
    (h3 : c.payload.length = b.payload.length) (hw : WFb b) : WFb c := by
  obtain ⟨w1, w2, w3, w4⟩ := hw
  refine ⟨by rw [h2, h1]; exact w1, by rw [h1]; exact w2, ?_, by rw [h3]; exact w4⟩
  rw [h1, h3]
  exact w3

/-- The allocated bit depends only on the header. -/
theorem allocB_transport (b c : Block) (h1 : c.hdr = b.hdr) :
    allocB c = allocB b := by
  unfold allocB GET_ALLOC_FROM_HEADER
  rw [h1]

/-- Every block's allocated bit is FREE or ALLOCATED. -/
theorem alloc_dichotomy (b : Block) : allocB b = FREE ∨ allocB b = ALLOCATED := by
  unfold allocB GET_ALLOC_FROM_HEADER FREE ALLOCATED
  omega

/-- A coalescing `REDO_HEADERS` followed by `remove_free_block` of one of
the two merged blocks (the backward merge, lines 330-334, removes the
previous block; the forward merge, lines 340-346, removes the following
block, reading its stale links from inside the merged payload). -/
theorem merge_remove_spec (hA : Heap) (k r q : Nat) (lA : List Nat)
    (hk1 : k + 1 < hA.blocks.length)
    (hWF : ∀ j, j < hA.blocks.length → WFb (blkD hA j))
    (hrq : (r = k ∧ q = k + 1) ∨ (r = k + 1 ∧ q = k))
    (hchain : chainSegB hA hA.free_list lA 0 = true)
    (hprevs : prevsB hA 0 lA = true)
    (hnd : lA.Nodup)
    (hmem_r : addrI hA r ∈ lA)
    (hq_notin : addrI hA q ∉ lA) :
    ∀ h5, h5 = remove_free_block
        (REDO_HEADERS hA (addrI hA k)
          (8 * (blkD hA k).payload.length + 16 + 8 * (blkD hA (k + 1)).payload.length)
          FREE)
        (addrI hA r) →
    h5.blocks.length + 1 = hA.blocks.length
    ∧ (∀ j, j ≤ k → addrI h5 j = addrI hA j)
    ∧ (∀ j, k < j → addrI h5 j = addrI hA (j + 1))
    ∧ (∀ j, j < k → (blkD h5 j).hdr = (blkD hA j).hdr
        ∧ (blkD h5 j).tag = (blkD hA j).tag
        ∧ (blkD h5 j).payload.length = (blkD hA j).payload.length)
    ∧ (∀ j, k < j → (blkD h5 j).hdr = (blkD hA (j + 1)).hdr
        ∧ (blkD h5 j).tag = (blkD hA (j + 1)).tag
        ∧ (blkD h5 j).payload.length = (blkD hA (j + 1)).payload.length)
    ∧ WFb (blkD h5 k) ∧ allocB (blkD h5 k) = FREE
    ∧ (blkD h5 k).payload.length
        = (blkD hA k).payload.length + 2 + (blkD hA (k + 1)).payload.length
    ∧ (∀ t, t < (blkD hA k).payload.length →
        (blkD h5 k).payload.getD t 0 = (blkD hA k).payload.getD t 0)
    ∧ (∀ t, (blkD h5 k).payload.getD ((blkD hA k).payload.length + 2 + t) 0
        = (blkD hA (k + 1)).payload.getD t 0)
    ∧ (∀ j, j < k → addrI hA j ∉ lA → blkD h5 j = blkD hA j)
    ∧ (∀ j, k < j → addrI hA (j + 1) ∉ lA → blkD h5 j = blkD hA (j + 1))
    ∧ (∀ x, x ∈ freeStarts h5 ↔ x = addrI hA k
        ∨ (x ∈ freeStarts hA ∧ x ≠ addrI hA k ∧ x ≠ addrI hA (k + 1)))
    ∧ (∃ l1 l2, lA = l1 ++ addrI hA r :: l2
        ∧ chainSegB h5 h5.free_list (l1 ++ l2) 0 = true
        ∧ prevsB h5 0 (l1 ++ l2) = true
        ∧ (l1 ++ l2).Nodup
        ∧ (∀ z ∈ lA, z ≠ addrI hA r → z ∈ l1 ++ l2))
    ∧ brkAddr h5 = brkAddr hA ∧ h5.limit = hA.limit := by
  intro h5 hdef5
  have hrlen : r < hA.blocks.length := by rcases hrq with ⟨rfl, rfl⟩ | ⟨rfl, rfl⟩ <;> omega
  have hWFr := hWF r hrlen
  have hakk1 : addrI hA k ≠ addrI hA (k + 1) :=
    Nat.ne_of_lt (addrI_mono hA k (k + 1) (by omega) (by omega))
  set h4 : Heap := REDO_HEADERS hA (addrI hA k) (8 * (blkD hA k).payload.length + 16 + 8 * (blkD hA (k + 1)).payload.length) FREE with hh4
  obtain ⟨mlen, mlt, mgt, male, magt, mWF, mfree, mplen, mgetlo, mgethi,
      mnfk, mpfk, mnfk1, mpfk1, mfs, mbrk, mfl, mlim, -⟩ :=
    merge_step_spec hA k FREE (by decide) hk1 (hWF k (by omega)) (hWF (k + 1) (by omega)) h4 hh4
  set x := addrI hA r with hx
  have hrem : h5 = remove_free_block h4 x := hdef5
  obtain ⟨l1, l2, hsplit⟩ := List.append_of_mem hmem_r
  have hndf : x ∉ l1 ∧ x ∉ l2 ∧ l1.Nodup ∧ l2.Nodup ∧ ∀ y ∈ l1, y ∉ l2 := by
    rw [hsplit] at hnd
    simp [List.nodup_append, List.nodup_cons, List.disjoint_left] at hnd
    obtain ⟨h1, ⟨h2a, h2b⟩, h4x⟩ := hnd
    exact ⟨fun hxm => (h4x hxm).1 rfl, h2a, h1, h2b, fun y hy hyl2 => (h4x hy).2 hyl2⟩
  obtain ⟨hxl1, hxl2, hnd1, hnd2, hdisj⟩ := hndf
  obtain ⟨hc1, hxfs, hc2⟩ := chainSegB_split hA l1 l2 hA.free_list x 0
    (by rw [← hsplit]; exact hchain)
  have hnx : GET_NEXT_FREE hA x = l2.headD 0 := chainSegB_headD hA l2 _ 0 hc2
  obtain ⟨hp1, hpx, hp2⟩ := prevsB_split hA l1 l2 x 0 (by rw [← hsplit]; exact hprevs)
  have hm1 : ∀ y ∈ l1, y ∈ freeStarts hA := chainSegB_mem hA l1 _ _ hc1
  have hm2 : ∀ y ∈ l2, y ∈ freeStarts hA := chainSegB_mem hA l2 _ _ hc2
  -- the stale links of the removed node agree with its links before the merge
  have hWFq := hWF q (by rcases hrq with ⟨rfl, rfl⟩ | ⟨rfl, rfl⟩ <;> omega)
  have hnx4 : GET_NEXT_FREE h4 x = GET_NEXT_FREE hA x := by
    rcases hrq with ⟨hr, hq⟩ | ⟨hr, hq⟩
    · rw [hx, hr, mnfk, GET_NEXT_FREE_i hA k (by omega) (by obtain ⟨-, -, -, w4⟩ := hWF k (by omega); omega)]
    · rw [hx, hr, mnfk1, GET_NEXT_FREE_i hA (k + 1) (by omega) (by obtain ⟨-, -, -, w4⟩ := hWF (k + 1) (by omega); omega)]
  have hpx4 : GET_PREV_FREE h4 x = GET_PREV_FREE hA x := by
    rcases hrq with ⟨hr, hq⟩ | ⟨hr, hq⟩
    · rw [hx, hr, mpfk, GET_PREV_FREE_i hA k (by omega) (by obtain ⟨-, -, -, w4⟩ := hWF k (by omega); omega)]
    · rw [hx, hr, mpfk1, GET_PREV_FREE_i hA (k + 1) (by omega) (by obtain ⟨-, -, -, w4⟩ := hWF (k + 1) (by omega); omega)]
  -- links of every other free block are untouched by the merge
  have hlink_other : ∀ y, y ∈ freeStarts hA → y ≠ addrI hA k → y ≠ addrI hA (k + 1) →
      GET_NEXT_FREE h4 y = GET_NEXT_FREE hA y
        ∧ GET_PREV_FREE h4 y = GET_PREV_FREE hA y := by
    intro y hy hyk hyk1
    obtain ⟨jy, hjy, hyx, hyf⟩ := (mem_freeStarts hA y).mp hy
    obtain ⟨-, -, -, wp⟩ := hWF jy hjy
    have hjk : jy ≠ k := fun he => hyk (by rw [hyx, he])
    have hjk1 : jy ≠ k + 1 := fun he => hyk1 (by rw [hyx, he])
    rcases Nat.lt_or_ge jy k with hlt | hge
    · have e1 : GET_NEXT_FREE h4 y = (blkD h4 jy).payload.getD 0 0 := by
        rw [hyx, ← male jy (by omega)]
        exact GET_NEXT_FREE_i h4 jy (by omega) (by rw [mlt jy hlt]; omega)
      have e2 : GET_PREV_FREE h4 y = (blkD h4 jy).payload.getD 1 0 := by
        rw [hyx, ← male jy (by omega)]
        exact GET_PREV_FREE_i h4 jy (by omega) (by rw [mlt jy hlt]; omega)
      have e3 : GET_NEXT_FREE hA y = (blkD hA jy).payload.getD 0 0 := by
        rw [hyx]
        exact GET_NEXT_FREE_i hA jy hjy (by omega)
      have e4 : GET_PREV_FREE hA y = (blkD hA jy).payload.getD 1 0 := by
        rw [hyx]
        exact GET_PREV_FREE_i hA jy hjy (by omega)
      rw [e1, e2, e3, e4, mlt jy hlt]
      exact ⟨rfl, rfl⟩
    · have hgt2 : k + 1 < jy := by omega
      have hj1 : k < jy - 1 := by omega
      have hjeq : jy - 1 + 1 = jy := by omega
      have e1 : GET_NEXT_FREE h4 y = (blkD h4 (jy - 1)).payload.getD 0 0 := by
        rw [hyx, ← hjeq, ← magt (jy - 1) hj1]
        exact GET_NEXT_FREE_i h4 (jy - 1) (by omega)
          (by rw [mgt (jy - 1) hj1, hjeq]; omega)
      have e2 : GET_PREV_FREE h4 y = (blkD h4 (jy - 1)).payload.getD 1 0 := by
        rw [hyx, ← hjeq, ← magt (jy - 1) hj1]
        exact GET_PREV_FREE_i h4 (jy - 1) (by omega)
          (by rw [mgt (jy - 1) hj1, hjeq]; omega)
      have e3 : GET_NEXT_FREE hA y = (blkD hA jy).payload.getD 0 0 := by
        rw [hyx]
        exact GET_NEXT_FREE_i hA jy hjy (by omega)
      have e4 : GET_PREV_FREE hA y = (blkD hA jy).payload.getD 1 0 := by
        rw [hyx]
        exact GET_PREV_FREE_i hA jy hjy (by omega)
      rw [e1, e2, e3, e4, mgt (jy - 1) hj1, hjeq]
      exact ⟨rfl, rfl⟩
  have hker : addrI hA k = x ∨ addrI hA k = addrI hA q := by
    rcases hrq with ⟨hr, hq⟩ | ⟨hr, hq⟩
    · exact Or.inl (by rw [hx, hr])
    · exact Or.inr (by rw [hq])
  have hk1er : addrI hA (k + 1) = x ∨ addrI hA (k + 1) = addrI hA q := by
    rcases hrq with ⟨hr, hq⟩ | ⟨hr, hq⟩
    · exact Or.inr (by rw [hq])
    · exact Or.inl (by rw [hx, hr])
  have hmem_ne : ∀ y, y ∈ l1 ∨ y ∈ l2 → y ≠ addrI hA k ∧ y ≠ addrI hA (k + 1) := by
    intro y hy
    have hynx : y ≠ x := by
      rcases hy with hy | hy
      · exact fun he => hxl1 (he ▸ hy)
      · exact fun he => hxl2 (he ▸ hy)
    have hynq : y ≠ addrI hA q := by
      intro he
      apply hq_notin
      rw [← he, hsplit]
      rcases hy with hy | hy
      · exact List.mem_append.mpr (Or.inl hy)
      · exact List.mem_append.mpr (Or.inr (List.mem_cons_of_mem x hy))
    constructor
    · rcases hker with he | he
      · exact fun hc => hynx (hc.trans he)
      · exact fun hc => hynq (hc.trans he)
    · rcases hk1er with he | he
      · exact fun hc => hynx (hc.trans he)
      · exact fun hc => hynq (hc.trans he)
  have hfs4_mem : ∀ y, y ∈ l1 ∨ y ∈ l2 → (y ∈ freeStarts h4 ↔ y ∈ freeStarts hA) := by
    intro y hy
    obtain ⟨hyk, hyk1⟩ := hmem_ne y hy
    have hyA : y ∈ freeStarts hA := by
      rcases hy with hy | hy
      · exact hm1 y hy
      · exact hm2 y hy
    rw [mfs y]
    constructor
    · rintro (⟨-, he⟩ | ⟨hf, -, -⟩)
      · exact absurd he hyk
      · exact hf
    · intro hf
      exact Or.inr ⟨hf, hyk, hyk1⟩
  have hnext4_mem : ∀ y, y ∈ l1 ∨ y ∈ l2 → GET_NEXT_FREE h4 y = GET_NEXT_FREE hA y := by
    intro y hy
    obtain ⟨hyk, hyk1⟩ := hmem_ne y hy
    have hyA : y ∈ freeStarts hA := by
      rcases hy with hy | hy
      · exact hm1 y hy
      · exact hm2 y hy
    exact (hlink_other y hyA hyk hyk1).1
  have hprev4_mem : ∀ y, y ∈ l1 ∨ y ∈ l2 → GET_PREV_FREE h4 y = GET_PREV_FREE hA y := by
    intro y hy
    obtain ⟨hyk, hyk1⟩ := hmem_ne y hy
    have hyA : y ∈ freeStarts hA := by
      rcases hy with hy | hy
      · exact hm1 y hy
      · exact hm2 y hy
    exact (hlink_other y hyA hyk hyk1).2
  have hc1x : chainSegB h4 h4.free_list l1 x = true := by
    rw [mfl]
    rw [chainSegB_congr_mem hA h4 l1 (fun y hy => hfs4_mem y (Or.inl hy))
      (fun y hy => hnext4_mem y (Or.inl hy))]
    exact hc1
  have hc2x : chainSegB h4 (l2.headD 0) l2 0 = true := by
    rw [chainSegB_congr_mem hA h4 l2 (fun y hy => hfs4_mem y (Or.inr hy))
      (fun y hy => hnext4_mem y (Or.inr hy))]
    rw [← hnx]
    exact hc2
  have hp1x : prevsB h4 0 l1 = true := by
    rw [prevsB_congr hA h4 l1 (fun y hy => hprev4_mem y (Or.inl hy))]
    exact hp1
  have hp2x : prevsB h4 x l2 = true := by
    rw [prevsB_congr hA h4 l2 (fun y hy => hprev4_mem y (Or.inr hy))]
    exact hp2
  have hlen2_4 : ∀ i, i < h4.blocks.length → 2 ≤ (blkD h4 i).payload.length := by
    intro i hi
    rcases Nat.lt_trichotomy i k with hik | heq | hik
    · rw [mlt i hik]
      obtain ⟨-, -, -, w4⟩ := hWF i (by omega)
      exact w4
    · rw [heq, mplen]
      obtain ⟨-, -, -, w4⟩ := hWF k (by omega)
      omega
    · rw [mgt i hik]
      obtain ⟨-, -, -, w4⟩ := hWF (i + 1) (by omega)
      exact w4
  obtain ⟨rlen, rshape, raddr, rframe, rfs, rchain, rprevs, rlim⟩ :=
    remove_master h4 x l1 l2 hlen2_4 (by rw [hnx4, hnx]) (by rw [hpx4, hpx])
      hc1x hc2x hp1x hp2x (by rw [← hsplit]; exact hnd)
  rw [← hrem] at rlen rshape raddr rframe rfs rchain rprevs rlim
  have hxnotl : x ∉ l1 ++ l2 := by
    intro hc
    rcases List.mem_append.mp hc with hc | hc
    · exact hxl1 hc
    · exact hxl2 hc
  have hk_addr_notin : addrI h4 k ∉ l1 ∧ addrI h4 k ∉ l2 := by
    rw [male k (by omega)]
    rcases hker with he | he
    · rw [he]
      exact ⟨hxl1, hxl2⟩
    · rw [he]
      constructor
      · intro hc
        exact hq_notin (by rw [hsplit]; exact List.mem_append.mpr (Or.inl hc))
      · intro hc
        exact hq_notin
          (by rw [hsplit]; exact List.mem_append.mpr (Or.inr (List.mem_cons_of_mem x hc)))
  have hblk5k : blkD h5 k = blkD h4 k :=
    rframe k (by omega) hk_addr_notin.1 hk_addr_notin.2
  refine ⟨by omega, ?_, ?_, ?_, ?_, ?_, ?_, ?_, ?_, ?_, ?_, ?_, ?_, ?_, ?_, ?_⟩
  · intro j hj
    rw [raddr j, male j hj]
  · intro j hj
    rw [raddr j, magt j hj]
  · intro j hj
    refine ⟨?_, ?_, ?_⟩
    · rw [(rshape j).1, mlt j hj]
    · rw [(rshape j).2.1, mlt j hj]
    · rw [(rshape j).2.2, mlt j hj]
  · intro j hj
    refine ⟨?_, ?_, ?_⟩
    · rw [(rshape j).1, mgt j hj]
    · rw [(rshape j).2.1, mgt j hj]
    · rw [(rshape j).2.2, mgt j hj]
  · exact WFb_transport (blkD h4 k) (blkD h5 k) (by rw [hblk5k]) (by rw [hblk5k])
      (by rw [hblk5k]) mWF
  · rw [allocB_transport (blkD h4 k) (blkD h5 k) (by rw [hblk5k])]
    exact mfree
  · rw [hblk5k]
    exact mplen
  · intro t ht
    rw [hblk5k]
    exact mgetlo t ht
  · intro t
    rw [hblk5k]
    exact mgethi t
  · intro j hj hjl
    have h1 : addrI h4 j ∉ l1 := by
      rw [male j (by omega)]
      intro hc
      exact hjl (by rw [hsplit]; exact List.mem_append.mpr (Or.inl hc))
    have h2 : addrI h4 j ∉ l2 := by
      rw [male j (by omega)]
      intro hc
      exact hjl
        (by rw [hsplit]; exact List.mem_append.mpr (Or.inr (List.mem_cons_of_mem x hc)))
    rw [rframe j (by omega) h1 h2, mlt j hj]
  · intro j hj hjl
    rcases Nat.lt_or_ge j h4.blocks.length with hjlen | hjlen
    · have h1 : addrI h4 j ∉ l1 := by
        rw [magt j hj]
        intro hc
        exact hjl (by rw [hsplit]; exact List.mem_append.mpr (Or.inl hc))
      have h2 : addrI h4 j ∉ l2 := by
        rw [magt j hj]
        intro hc
        exact hjl
          (by rw [hsplit]; exact List.mem_append.mpr (Or.inr (List.mem_cons_of_mem x hc)))
      rw [rframe j hjlen h1 h2, mgt j hj]
    · have d1 : blkD h5 j = default := by
        unfold blkD
        exact List.getD_eq_default _ _ (by omega)
      have d2 : blkD hA (j + 1) = default := by
        unfold blkD
        exact List.getD_eq_default _ _ (by omega)
      rw [d1, d2]
  · intro z
    rw [rfs z, mfs z]
    simp
  · refine ⟨l1, l2, hsplit, rchain, rprevs, ?_, ?_⟩
    · rw [List.nodup_append]
      exact ⟨hnd1, hnd2, fun a ha hb => hdisj a ha hb⟩
    · intro z hz hzx
      rw [hsplit] at hz
      rcases List.mem_append.mp hz with hz | hz
      · exact List.mem_append.mpr (Or.inl hz)
      · rcases List.mem_cons.mp hz with hz | hz
        · exact absurd hz hzx
        · exact List.mem_append.mpr (Or.inr hz)
  · rw [← addrI_length h5, ← mbrk, ← addrI_length h4, rlen, raddr]
  · rw [rlim, mlim]

/-- No-adjacent-free for a heap obtained by collapsing the block range
`[lo, hi]` of `h` into one free block, provided the blocks bordering the
range are allocated and every adjacent free pair of `h` lies inside the
range. -/
theorem NAF_after_range_merge (h hres : Heap) (lo hi : Nat)
    (hlo_hi : lo ≤ hi) (hhi : hi < h.blocks.length)
    (hlen : hres.blocks.length + (hi - lo) = h.blocks.length)
    (hflag_lt : ∀ j, j < lo → allocB (blkD hres j) = allocB (blkD h j))
    (hflag_lo : allocB (blkD hres lo) = FREE)
    (hflag_gt : ∀ j, lo < j → j < hres.blocks.length →
        allocB (blkD hres j) = allocB (blkD h (j + (hi - lo))))
    (hprevOK : lo = 0 ∨ allocB (blkD h (lo - 1)) = ALLOCATED)
    (hnextOK : hi + 1 = h.blocks.length ∨ allocB (blkD h (hi + 1)) = ALLOCATED)
    (hpairs : ∀ j, j + 1 < h.blocks.length → allocB (blkD h j) = FREE →
        allocB (blkD h (j + 1)) = FREE → lo ≤ j ∧ j + 1 ≤ hi) :
    NAF hres := by
  unfold NAF
  rw [noAdj_iff]
  intro j hj
  by_contra hc
  push_neg at hc
  obtain ⟨hc1, hc2⟩ := hc
  have hf1 : allocB (blkD hres j) = FREE := by
    rcases alloc_dichotomy (blkD hres j) with hd | hd
    · exact hd
    · exact absurd hd hc1
  have hf2 : allocB (blkD hres (j + 1)) = FREE := by
    rcases alloc_dichotomy (blkD hres (j + 1)) with hd | hd
    · exact hd
    · exact absurd hd hc2
  rcases Nat.lt_trichotomy (j + 1) lo with hcase | hcase | hcase
  · -- both strictly below the range
    have e1 : allocB (blkD h j) = FREE := by rw [← hflag_lt j (by omega)]; exact hf1
    have e2 : allocB (blkD h (j + 1)) = FREE := by
      rw [← hflag_lt (j + 1) (by omega)]
      exact hf2
    have := hpairs j (by omega) e1 e2
    omega
  · -- the pair straddles the left edge of the range
    have e1 : allocB (blkD h j) = FREE := by rw [← hflag_lt j (by omega)]; exact hf1
    rcases hprevOK with h0 | hallocprev
    · omega
    · rw [show lo - 1 = j from by omega] at hallocprev
      rw [e1] at hallocprev
      exact absurd hallocprev (by decide)
  · -- j + 1 is past lo
    rcases Nat.lt_trichotomy j lo with hcase2 | hcase2 | hcase2
    · -- then j + 1 = lo is impossible here, so j < lo < j + 1 means lo = j + ... 
      omega
    · -- j = lo: the right neighbor maps past the range
      have e2 : allocB (blkD h (j + 1 + (hi - lo))) = FREE := by
        rw [← hflag_gt (j + 1) (by omega) (by omega)]
        exact hf2
      rw [show j + 1 + (hi - lo) = hi + 1 from by omega] at e2
      rcases hnextOK with h0 | hallocnext
      · omega
      · rw [e2] at hallocnext
        exact absurd hallocnext (by decide)
    · -- both strictly past lo
      have e1 : allocB (blkD h (j + (hi - lo))) = FREE := by
        rw [← hflag_gt j (by omega) (by omega)]
        exact hf1
      have e2 : allocB (blkD h (j + 1 + (hi - lo))) = FREE := by
        rw [← hflag_gt (j + 1) (by omega) (by omega)]
        exact hf2
      rw [show j + 1 + (hi - lo) = j + (hi - lo) + 1 from by omega] at e2
      have := hpairs (j + (hi - lo)) (by omega) e1 e2
      omega

/-- An allocated block's data address is not a free start. -/
theorem alloc_addr_not_free (h : Heap) (j : Nat) (hj : j < h.blocks.length)
    (ha : allocB (blkD h j) = ALLOCATED) : addrI h j ∉ freeStarts h := by
  intro hc
  obtain ⟨j2, hj2, hx, hf⟩ := (mem_freeStarts h (addrI h j)).mp hc
  have hje : j2 = j := by
    rcases Nat.lt_trichotomy j2 j with hlt | heq | hlt
    · exact absurd hx (by have := addrI_mono h j2 j hlt (by omega); omega)
    · exact heq
    · exact absurd hx (by have := addrI_mono h j j2 hlt (by omega); omega)
  rw [hje, ha] at hf
  exact absurd hf (by decide)

/-- `brkAddr` is determined by the address profile. -/
theorem brk_of_addr (h h2 : Heap) (hlen : h2.blocks.length = h.blocks.length)
    (haddr : ∀ j, addrI h2 j = addrI h j) : brkAddr h2 = brkAddr h := by
  rw [← addrI_length h2, ← addrI_length h, hlen, haddr]

/-- The head insertion at the end of `unlock`, started from the mid-state
reached after coalescing, establishes the full `unlock` postcondition. -/
theorem insert_final_master (h hC : Heap) (l lC : List Nat) (i lo hi : Nat)
    (hi_lt : i < h.blocks.length)
    (hl_fs : ∀ z ∈ l, z ∈ freeStarts h)
    (hmid : MidBundle h hC l lC i lo hi)
    (hprevOK : lo = 0 ∨ allocB (blkD h (lo - 1)) = ALLOCATED)
    (hnextOK : hi + 1 = h.blocks.length ∨ allocB (blkD h (hi + 1)) = ALLOCATED)
    (hpairs : ∀ j, j + 1 < h.blocks.length → allocB (blkD h j) = FREE →
        allocB (blkD h (j + 1)) = FREE → lo ≤ j ∧ j + 1 ≤ hi) :
    ∀ hres, hres = { PUT_PREV_FREE (LINK_FREE hC (addrI h lo) hC.free_list)
        (addrI h lo) 0 with free_list := addrI h lo } →
    UnlockPost h hres i := by
  intro hres hdefres
  obtain ⟨hlo_i, hi_hi, hhi, hloC, hlenC, sh_lt, fr_lt, sh_gt, fr_gt, ad_le, ad_gt,
    hWFlo, hFreelo, hplo, hchC, hprC, hndC, hsubC, hnotinC, hcompC, hWFC,
    hrangefree, hbrkC, hlimC⟩ := hmid
  have hadlo : addrI hC lo = addrI h lo := ad_le lo (by omega)
  have hp2fs : addrI h lo ∈ freeStarts hC := by
    rw [mem_freeStarts]
    exact ⟨lo, hloC, hadlo.symm, hFreelo⟩
  have hlen2C : ∀ j, j < hC.blocks.length → 2 ≤ (blkD hC j).payload.length := by
    intro j hj
    obtain ⟨-, -, -, w4⟩ := hWFC j hj
    exact w4
  obtain ⟨ilen, ishape, iaddr, iframe, ifs, ichain, iprevs, ifl, ilim⟩ :=
    insert_head_spec hC (addrI h lo) lC hlen2C hp2fs hchC hprC hndC hnotinC
      hres hdefres
  refine ⟨?_, ?_, ?_, ?_, ?_, ?_, ?_, ?_⟩
  · intro j hj
    exact WFb_transport (blkD hC j) (blkD hres j) (ishape j).1 (ishape j).2.1
      (ishape j).2.2 (hWFC j (by omega))
  · refine NAF_after_range_merge h hres lo hi (by omega) hhi (by omega)
      ?_ ?_ ?_ hprevOK hnextOK hpairs
    · intro j hj
      rw [allocB_transport (blkD hC j) (blkD hres j) (ishape j).1,
          allocB_transport (blkD h j) (blkD hC j) (sh_lt j hj).1]
    · rw [allocB_transport (blkD hC lo) (blkD hres lo) (ishape lo).1]
      exact hFreelo
    · intro j hj hjlen
      rw [allocB_transport (blkD hC j) (blkD hres j) (ishape j).1,
          allocB_transport (blkD h (j + (hi - lo))) (blkD hC j) (sh_gt j hj).1]
  · refine ⟨addrI h lo :: lC, ?_, ?_, ?_, ?_⟩
    · rw [ifl]
      exact ichain
    · exact iprevs
    · exact List.nodup_cons.mpr ⟨hnotinC, hndC⟩
    · intro x hx
      rcases hcompC x ((ifs x).mp hx) with hm | hm
      · exact List.mem_cons_of_mem _ hm
      · exact hm ▸ List.mem_cons_self _ _
  · rw [brk_of_addr hC hres (by omega) iaddr]
    exact hbrkC
  · rw [ilim]
    exact hlimC
  · omega
  · intro j hj hji hja
    have hxnotfs : addrI h j ∉ freeStarts h := alloc_addr_not_free h j hj hja
    have hxnotl : addrI h j ∉ l := fun hc => hxnotfs (hl_fs _ hc)
    have hxnotlC : addrI h j ∉ lC := fun hc => hxnotl (hsubC _ hc)
    have hjrange : j < lo ∨ hi < j := by
      by_contra hc
      push_neg at hc
      have := hrangefree j (by omega) (by omega) hji
      rw [hja] at this
      exact absurd this (by decide)
    rcases hjrange with hjlo | hjhi
    · refine ⟨j, by omega, ?_, ?_⟩
      · rw [iaddr j, ad_le j (by omega)]
      · rw [iframe j (by omega) ?_ ?_, fr_lt j hjlo hxnotl]
        · rw [ad_le j (by omega)]
          have := addrI_mono h j lo hjlo (by omega)
          omega
        · rw [ad_le j (by omega)]
          exact hxnotlC
    · have hj2 : lo < j - (hi - lo) := by omega
      have hj2e : j - (hi - lo) + (hi - lo) = j := by omega
      refine ⟨j - (hi - lo), by omega, ?_, ?_⟩
      · rw [iaddr _, ad_gt _ hj2, hj2e]
      · rw [iframe _ (by omega) ?_ ?_]
        · rw [fr_gt _ hj2 (by rw [hj2e]; exact hxnotl), hj2e]
        · rw [ad_gt _ hj2, hj2e]
          have := addrI_mono h lo j (by omega) (by omega)
          omega
        · rw [ad_gt _ hj2, hj2e]
          exact hxnotlC
  · refine ⟨lo, by omega, ?_, ?_, ?_⟩
    · rw [ifl, ← hadlo, ← iaddr lo]
    · rw [allocB_transport (blkD hC lo) (blkD hres lo) (ishape lo).1]
      exact hFreelo
    · rw [(ishape lo).2.2]
      exact hplo

/-- `unlock` splits into the backward-coalescing case analysis followed by
`unlockForward`. -/
theorem unlock_eq (h : Heap) (ptr : Nat) :
    unlock h ptr =
      (if GET_PREV_ALLOC (REDO_HEADERS h ptr (GET_SIZE h ptr) FREE) ptr = FREE then
        unlockForward
          (remove_free_block
            (REDO_HEADERS (REDO_HEADERS h ptr (GET_SIZE h ptr) FREE)
              (GET_PREV_BLOCK (REDO_HEADERS h ptr (GET_SIZE h ptr) FREE) ptr)
              (GET_SIZE h ptr
                + GET_SIZE (REDO_HEADERS h ptr (GET_SIZE h ptr) FREE)
                    (GET_PREV_BLOCK (REDO_HEADERS h ptr (GET_SIZE h ptr) FREE) ptr)
                + BOUNDARY_SIZE + HEADER_SIZE)
              FREE)
            (GET_PREV_BLOCK (REDO_HEADERS h ptr (GET_SIZE h ptr) FREE) ptr))
          (GET_PREV_BLOCK (REDO_HEADERS h ptr (GET_SIZE h ptr) FREE) ptr)
          (GET_SIZE h ptr
            + GET_SIZE (REDO_HEADERS h ptr (GET_SIZE h ptr) FREE)
                (GET_PREV_BLOCK (REDO_HEADERS h ptr (GET_SIZE h ptr) FREE) ptr)
            + BOUNDARY_SIZE + HEADER_SIZE)
      else unlockForward (REDO_HEADERS h ptr (GET_SIZE h ptr) FREE) ptr
        (GET_SIZE h ptr)) := by
  by_cases hc : GET_PREV_ALLOC (REDO_HEADERS h ptr (GET_SIZE h ptr) FREE) ptr = FREE
  · simp only [unlock, unlockForward, if_pos hc]
  · simp only [unlock, unlockForward, if_neg hc]

/-- Case analysis of `unlockForward`. -/
theorem unlockForward_eq (h : Heap) (ptr size : Nat) :
    unlockForward h ptr size =
      (if GET_ALLOC_FROM_HEADER (loadWord h (GET_NEXT_HEADER h ptr)) = FREE then
        { PUT_PREV_FREE
            (LINK_FREE
              (remove_free_block
                (REDO_HEADERS h ptr
                  (size + GET_SIZE_FROM_HEADER (loadWord h (GET_NEXT_HEADER h ptr))
                    + BOUNDARY_SIZE + HEADER_SIZE)
                  FREE)
                (GET_NEXT_HEADER h ptr + HEADER_SIZE))
              ptr
              (remove_free_block
                (REDO_HEADERS h ptr
                  (size + GET_SIZE_FROM_HEADER (loadWord h (GET_NEXT_HEADER h ptr))
                    + BOUNDARY_SIZE + HEADER_SIZE)
                  FREE)
                (GET_NEXT_HEADER h ptr + HEADER_SIZE)).free_list)
            ptr 0
          with free_list := ptr }
      else { PUT_PREV_FREE (LINK_FREE h ptr h.free_list) ptr 0
          with free_list := ptr }) := by
  by_cases hc : GET_ALLOC_FROM_HEADER (loadWord h (GET_NEXT_HEADER h ptr)) = FREE
  · simp only [unlockForward, if_pos hc]
  · simp only [unlockForward, if_neg hc]

/-- The forward-coalescing phase and head insertion of `unlock`, started
from the mid-state reached after the backward phase. -/
theorem unlock_forward_master (h hB : Heap) (l lB : List Nat) (i lo : Nat)
    (hi_lt : i < h.blocks.length)
    (hl_fs : ∀ z, z ∈ l → z ∈ freeStarts h)
    (hnaf : ∀ j, j + 1 < h.blocks.length → allocB (blkD h j) = FREE →
        allocB (blkD h (j + 1)) = FREE → j = i ∨ j + 1 = i)
    (hmid : MidBundle h hB l lB i lo i)
    (hprevOK : lo = 0 ∨ allocB (blkD h (lo - 1)) = ALLOCATED) :
    UnlockPost h (unlockForward hB (addrI h lo) (8 * (blkD hB lo).payload.length)) i := by
  have hmid2 := hmid
  obtain ⟨hlo_i, hi_hi, hhi, hloB, hlenB, sh_lt, fr_lt, sh_gt, fr_gt, ad_le, ad_gt,
    hWFlo, hFreelo, hplo, hchB, hprB, hndB, hsubB, hnotinB, hcompB, hWFB,
    hrangefreeB, hbrkB, hlimB⟩ := hmid
  have hadlo : addrI hB lo = addrI h lo := ad_le lo (by omega)
  have hpairLeft : ∀ j, j + 1 = i → allocB (blkD h j) = FREE → lo ≤ j := by
    intro j hji hf1
    rcases Nat.lt_or_ge j lo with hjlo | hjlo
    · rcases hprevOK with h0 | hallocp
      · omega
      · rw [show lo - 1 = j from by omega] at hallocp
        rw [hf1] at hallocp
        exact absurd hallocp (by decide)
    · omega
  have hszB : GET_SIZE hB (addrI h lo) = 8 * (blkD hB lo).payload.length := by
    rw [← hadlo]
    exact GET_SIZE_i hB lo hloB (hWFB lo hloB)
  have hnh : GET_NEXT_HEADER hB (addrI h lo)
      = addrI hB lo + 8 * (blkD hB lo).payload.length + 16 - 8 := by
    unfold GET_NEXT_HEADER
    rw [hszB, BOUNDARY_SIZE_eq, hadlo]
    omega
  rw [unlockForward_eq]
  rcases Nat.lt_or_ge (lo + 1) hB.blocks.length with hkn | hkn
  · -- a following block exists
    have hload : loadWord hB (GET_NEXT_HEADER hB (addrI h lo)) = (blkD hB (lo + 1)).hdr := by
      rw [hnh]
      exact load_next_hdr_mid hB lo hkn
    have hi1 : i + 1 < h.blocks.length := by omega
    have hflag : GET_ALLOC_FROM_HEADER (loadWord hB (GET_NEXT_HEADER hB (addrI h lo)))
        = allocB (blkD h (i + 1)) := by
      rw [hload]
      show allocB (blkD hB (lo + 1)) = allocB (blkD h (i + 1))
      rw [allocB_transport (blkD h (lo + 1 + (i - lo))) (blkD hB (lo + 1))
        (sh_gt (lo + 1) (by omega)).1,
        show lo + 1 + (i - lo) = i + 1 from by omega]
    by_cases hNf : allocB (blkD h (i + 1)) = FREE
    · -- forward merge happens
      rw [if_pos (by rw [hflag]; exact hNf)]
      have hszFH : GET_SIZE_FROM_HEADER (loadWord hB (GET_NEXT_HEADER hB (addrI h lo)))
          = 8 * (blkD hB (lo + 1)).payload.length := by
        rw [hload]
        obtain ⟨-, w2, w3, -⟩ := hWFB (lo + 1) hkn
        unfold GET_SIZE_FROM_HEADER
        omega
      have hremaddr : GET_NEXT_HEADER hB (addrI h lo) + HEADER_SIZE = addrI hB (lo + 1) := by
        rw [hnh, HEADER_SIZE_eq, addrI_succ hB lo (by omega), blockExtent_def]
        omega
      have hsizeN : 8 * (blkD hB lo).payload.length
            + GET_SIZE_FROM_HEADER (loadWord hB (GET_NEXT_HEADER hB (addrI h lo)))
            + BOUNDARY_SIZE + HEADER_SIZE
          = 8 * (blkD hB lo).payload.length + 16 + 8 * (blkD hB (lo + 1)).payload.length := by
        rw [hszFH, BOUNDARY_SIZE_eq, HEADER_SIZE_eq]
        omega
      have hfreeB1 : allocB (blkD hB (lo + 1)) = FREE := by
        rw [allocB_transport (blkD h (lo + 1 + (i - lo))) (blkD hB (lo + 1))
          (sh_gt (lo + 1) (by omega)).1,
          show lo + 1 + (i - lo) = i + 1 from by omega]
        exact hNf
      have hmem_r : addrI hB (lo + 1) ∈ lB := by
        have hfs : addrI hB (lo + 1) ∈ freeStarts hB :=
          (mem_freeStarts hB _).mpr ⟨lo + 1, hkn, rfl, hfreeB1⟩
        rcases hcompB _ hfs with hm | hm
        · exact hm
        · exact absurd hm (by
            rw [← hadlo]
            have := addrI_mono hB lo (lo + 1) (by omega) (by omega)
            omega)
      have hq_notin : addrI hB lo ∉ lB := by
        rw [hadlo]
        exact hnotinB
      obtain ⟨Clen, Cale, Cagt, Csh_lt, Csh_gt, CWFk, Cfreek, Cplenk, Cgetlo, Cgethi,
        Cfr_lt, Cfr_gt, Cfs, ⟨m1, m2, hsplitC, CchainC, CprevsC, CndC, CmemC⟩,
        Cbrk, Clim⟩ :=
        merge_remove_spec hB lo (lo + 1) lo lB hkn hWFB (Or.inr ⟨rfl, rfl⟩)
          hchB hprB hndB hmem_r hq_notin
          (remove_free_block
            (REDO_HEADERS hB (addrI h lo)
              (8 * (blkD hB lo).payload.length
                + GET_SIZE_FROM_HEADER (loadWord hB (GET_NEXT_HEADER hB (addrI h lo)))
                + BOUNDARY_SIZE + HEADER_SIZE)
              FREE)
            (GET_NEXT_HEADER hB (addrI h lo) + HEADER_SIZE))
          (by rw [hsizeN, hremaddr, hadlo])
      set hC : Heap := remove_free_block
          (REDO_HEADERS hB (addrI h lo)
            (8 * (blkD hB lo).payload.length
              + GET_SIZE_FROM_HEADER (loadWord hB (GET_NEXT_HEADER hB (addrI h lo)))
              + BOUNDARY_SIZE + HEADER_SIZE)
            FREE)
          (GET_NEXT_HEADER hB (addrI h lo) + HEADER_SIZE) with hhC
      have hsubC : ∀ z, z ∈ m1 ++ m2 → z ∈ lB := by
        intro z hz
        rw [hsplitC]
        rcases List.mem_append.mp hz with hz | hz
        · exact List.mem_append.mpr (Or.inl hz)
        · exact List.mem_append.mpr (Or.inr (List.mem_cons_of_mem _ hz))
      have hmidC : MidBundle h hC l (m1 ++ m2) i lo (i + 1) := by
        refine ⟨by omega, by omega, by omega, by omega, by omega, ?_, ?_, ?_, ?_,
          ?_, ?_, CWFk, Cfreek, by omega, CchainC, CprevsC, CndC, ?_, ?_, ?_, ?_,
          ?_, ?_, by rw [Clim]; exact hlimB⟩
        · intro j hj
          obtain ⟨c1, c2, c3⟩ := Csh_lt j hj
          obtain ⟨b1, b2, b3⟩ := sh_lt j hj
          exact ⟨c1.trans b1, c2.trans b2, c3.trans b3⟩
        · intro j hj hjl
          rw [Cfr_lt j hj (by rw [ad_le j (by omega)]; exact fun hc => hjl (hsubB _ hc)),
            fr_lt j hj hjl]
        · intro j hj
          obtain ⟨c1, c2, c3⟩ := Csh_gt j hj
          obtain ⟨b1, b2, b3⟩ := sh_gt (j + 1) (by omega)
          rw [show j + 1 + (i - lo) = j + (i + 1 - lo) from by omega] at b1 b2 b3
          exact ⟨c1.trans b1, c2.trans b2, c3.trans b3⟩
        · intro j hj hjl
          have hjl2 : addrI h (j + 1 + (i - lo)) ∉ l := by
            rw [show j + 1 + (i - lo) = j + (i + 1 - lo) from by omega]
            exact hjl
          rw [Cfr_gt j hj (by rw [ad_gt (j + 1) (by omega)]; exact fun hc => hjl2 (hsubB _ hc)),
            fr_gt (j + 1) (by omega) hjl2,
            show j + 1 + (i - lo) = j + (i + 1 - lo) from by omega]
        · intro j hj
          rw [Cale j hj, ad_le j hj]
        · intro j hj
          rw [Cagt j hj, ad_gt (j + 1) (by omega),
            show j + 1 + (i - lo) = j + (i + 1 - lo) from by omega]
        · intro z hz
          exact hsubB _ (hsubC _ hz)
        · exact fun hc => hnotinB (hsubC _ hc)
        · intro x hx
          rcases (Cfs x).mp hx with hm | ⟨hf, hne1, hne2⟩
          · exact Or.inr (by rw [hm, hadlo])
          · rcases hcompB x hf with hm | hm
            · exact Or.inl (CmemC x hm hne2)
            · exact Or.inr hm
        · intro j hj
          rcases Nat.lt_trichotomy j lo with hjlo | heq | hjlo
          · obtain ⟨c1, c2, c3⟩ := Csh_lt j hjlo
            exact WFb_transport (blkD hB j) (blkD hC j) c1 c2 c3 (hWFB j (by omega))
          · rw [heq]
            exact CWFk
          · obtain ⟨c1, c2, c3⟩ := Csh_gt j hjlo
            exact WFb_transport (blkD hB (j + 1)) (blkD hC j) c1 c2 c3
              (hWFB (j + 1) (by omega))
        · intro j hj1 hj2 hji
          rcases Nat.lt_or_ge j (i + 1) with hji1 | hji1
          · exact hrangefreeB j hj1 (by omega) hji
          · rw [show j = i + 1 from by omega]
            exact hNf
        · rw [Cbrk]
          exact hbrkB
      refine insert_final_master h hC l (m1 ++ m2) i lo (i + 1) hi_lt hl_fs hmidC
        hprevOK ?_ ?_ _ rfl
      · rcases Nat.lt_or_ge (i + 1 + 1) h.blocks.length with hi2 | hi2
        · rcases alloc_dichotomy (blkD h (i + 1 + 1)) with hd | hd
          · rcases hnaf (i + 1) hi2 hNf hd with hc | hc <;> omega
          · exact Or.inr hd
        · exact Or.inl (by omega)
      · intro j hj hf1 hf2
        rcases hnaf j hj hf1 hf2 with hc | hc
        · subst hc
          omega
        · have := hpairLeft j hc hf1
          omega
    · -- following block is allocated: no forward merge
      rw [if_neg (by rw [hflag]; exact hNf)]
      refine insert_final_master h hB l lB i lo i hi_lt hl_fs hmid2 hprevOK ?_ ?_ _ rfl
      · rcases alloc_dichotomy (blkD h (i + 1)) with hd | hd
        · exact absurd hd hNf
        · exact Or.inr hd
      · intro j hj hf1 hf2
        rcases hnaf j hj hf1 hf2 with hc | hc
        · subst hc
          exact absurd hf2 hNf
        · have := hpairLeft j hc hf1
          omega
  · -- the freed block is the last block: the next header is the epilogue
    have hload : loadWord hB (GET_NEXT_HEADER hB (addrI h lo)) = pack 0 ALLOCATED := by
      rw [hnh]
      exact load_next_hdr_last hB lo (by omega)
    have hi1 : i + 1 = h.blocks.length := by omega
    rw [if_neg (by
      rw [hload, alloc_pack (dvd_zero 8) (by decide)]
      decide)]
    refine insert_final_master h hB l lB i lo i hi_lt hl_fs hmid2 hprevOK ?_ ?_ _ rfl
    · exact Or.inl (by omega)
    · intro j hj hf1 hf2
      rcases hnaf j hj hf1 hf2 with hc | hc
      · omega
      · have := hpairLeft j hc hf1
        omega

/-- Master correctness lemma for `unlock` on block `i`: under the
allocator invariants (free chain `l` not containing block `i`, adjacent
free pairs only next to `i`), `unlock` restores every invariant, preserves
the arena and all other allocated blocks, and installs a free block at
least as large as block `i` at the head of the free list. -/
theorem unlock_master (h : Heap) (i : Nat) (l : List Nat)
    (hi : i < h.blocks.length)
    (hWF : ∀ j, j < h.blocks.length → WFb (blkD h j))
    (hnaf : ∀ j, j + 1 < h.blocks.length → allocB (blkD h j) = FREE →
        allocB (blkD h (j + 1)) = FREE → j = i ∨ j + 1 = i)
    (hchain : chainSegB h h.free_list l 0 = true)
    (hprevs : prevsB h 0 l = true)
    (hnd : l.Nodup)
    (hnotin : addrI h i ∉ l)
    (hcomp : ∀ x, x ∈ freeStarts h → x ∈ l ∨ x = addrI h i) :
    UnlockPost h (unlock h (addrI h i)) i := by
  have hl_fs : ∀ z, z ∈ l → z ∈ freeStarts h := chainSegB_mem h l _ _ hchain
  obtain ⟨-, -, -, hp2i⟩ := hWF i hi
  rw [unlock_eq]
  set h1 : Heap := REDO_HEADERS h (addrI h i) (GET_SIZE h (addrI h i)) FREE with hh1
  obtain ⟨alen, ane, aati, aaddr, apay, afs, afl, alim⟩ :=
    mark_free_spec h i hi (hWF i hi) h1 hh1
  have hplen1 : ∀ j, (blkD h1 j).payload.length = (blkD h j).payload.length := by
    intro j
    rw [apay j]
  have hWF1 : ∀ j, j < h1.blocks.length → WFb (blkD h1 j) := by
    intro j hj
    by_cases hji : j = i
    · subst hji
      rw [aati]
      refine ⟨rfl, ?_, ?_, ?_⟩
      · show 8 * (blkD h j).payload.length % 8 ≤ 1
        omega
      · show 8 * (blkD h j).payload.length / 8 = (blkD h j).payload.length
        omega
      · show 2 ≤ (blkD h j).payload.length
        exact hp2i
    · rw [ane j hji]
      exact hWF j (by omega)
  have hfree1i : allocB (blkD h1 i) = FREE := by
    rw [aati]
    show 8 * (blkD h i).payload.length % 2 = 0
    omega
  have hlinks1 : ∀ y, y ∈ freeStarts h →
      GET_NEXT_FREE h1 y = GET_NEXT_FREE h y
        ∧ GET_PREV_FREE h1 y = GET_PREV_FREE h y := by
    intro y hy
    obtain ⟨jy, hjy, hyx, hyf⟩ := (mem_freeStarts h y).mp hy
    obtain ⟨-, -, -, wp⟩ := hWF jy hjy
    constructor
    · rw [hyx, ← aaddr jy, GET_NEXT_FREE_i h1 jy (by omega) (by rw [hplen1]; omega),
          aaddr jy, GET_NEXT_FREE_i h jy hjy (by omega), apay jy]
    · rw [hyx, ← aaddr jy, GET_PREV_FREE_i h1 jy (by omega) (by rw [hplen1]; omega),
          aaddr jy, GET_PREV_FREE_i h jy hjy (by omega), apay jy]
  have hchain1 : chainSegB h1 h1.free_list l 0 = true := by
    rw [afl]
    exact chainSegB_mono h h1 l (fun y hy hyf => (afs y).mpr (Or.inl hyf))
      (fun y hy => (hlinks1 y (hl_fs y hy)).1) _ _ hchain
  have hprevs1 : prevsB h1 0 l = true := by
    rw [prevsB_congr h h1 l (fun y hy => (hlinks1 y (hl_fs y hy)).2)]
    exact hprevs
  have hcomp1 : ∀ x, x ∈ freeStarts h1 → x ∈ l ∨ x = addrI h i := by
    intro x hx
    rcases (afs x).mp hx with hx2 | hx2
    · exact hcomp x hx2
    · exact Or.inr hx2
  have hbrk1 : brkAddr h1 = brkAddr h := brk_of_addr h h1 alen aaddr
  have hsize0 : GET_SIZE h (addrI h i) = 8 * (blkD h i).payload.length :=
    GET_SIZE_i h i hi (hWF i hi)
  have hPA0 : i = 0 → GET_PREV_ALLOC h1 (addrI h i) = ALLOCATED := by
    intro h0
    subst h0
    unfold GET_PREV_ALLOC
    rw [HEADER_SIZE_eq, BOUNDARY_SIZE_eq,
        show addrI h 0 - 8 - 8 = addrI h1 0 - 16 from by
          rw [addrI_zero, addrI_zero]]
    rw [load_prev_tag_zero h1]
    exact alloc_pack (dvd_zero 8) (by decide)
  have hPApos : 0 < i → GET_PREV_ALLOC h1 (addrI h i) = allocB (blkD h (i - 1)) := by
    intro h0
    unfold GET_PREV_ALLOC
    rw [HEADER_SIZE_eq, BOUNDARY_SIZE_eq,
        show addrI h i - 8 - 8 = addrI h1 (i - 1 + 1) - 16 from by
          rw [aaddr (i - 1 + 1), show i - 1 + 1 = i from by omega]; omega]
    rw [load_prev_tag_succ h1 (i - 1) (by omega)]
    rw [ane (i - 1) (by omega)]
    obtain ⟨w1, -, -, -⟩ := hWF (i - 1) (by omega)
    rw [w1]
    rfl
  by_cases hP : GET_PREV_ALLOC h1 (addrI h i) = FREE
  · -- the previous block is free: backward merge
    rw [if_pos hP]
    have hi0 : 0 < i := by
      by_contra h0
      rw [hPA0 (by omega)] at hP
      exact absurd hP (by decide)
    have hfprev : allocB (blkD h (i - 1)) = FREE := by
      rw [← hPApos hi0]
      exact hP
    have hptr2 : GET_PREV_BLOCK h1 (addrI h i) = addrI h1 (i - 1) := by
      unfold GET_PREV_BLOCK GET_PREV_SIZE
      rw [HEADER_SIZE_eq, BOUNDARY_SIZE_eq,
          show addrI h i - 8 - 8 = addrI h1 (i - 1 + 1) - 16 from by
            rw [aaddr (i - 1 + 1), show i - 1 + 1 = i from by omega]; omega]
      rw [load_prev_tag_succ h1 (i - 1) (by omega)]
      rw [ane (i - 1) (by omega)]
      obtain ⟨w1, w2, w3, -⟩ := hWF (i - 1) (by omega)
      rw [w1]
      rw [show GET_SIZE_FROM_HEADER (blkD h (i - 1)).hdr
          = 8 * (blkD h (i - 1)).payload.length from by
        unfold GET_SIZE_FROM_HEADER; omega]
      rw [aaddr (i - 1), aaddr (i - 1 + 1), show i - 1 + 1 = i from by omega]
      rw [show addrI h i = addrI h (i - 1) + (8 * (blkD h (i - 1)).payload.length + 16)
          from by
        rw [← blockExtent_def, ← addrI_succ h (i - 1) (by omega),
            show i - 1 + 1 = i from by omega]]
      omega
    have hgs1 : GET_SIZE h1 (GET_PREV_BLOCK h1 (addrI h i))
        = 8 * (blkD h (i - 1)).payload.length := by
      rw [hptr2, GET_SIZE_i h1 (i - 1) (by omega) (hWF1 (i - 1) (by omega)),
          hplen1 (i - 1)]
    set ptrP : Nat := GET_PREV_BLOCK h1 (addrI h i) with hptrP
    set sizeP : Nat := GET_SIZE h (addrI h i) + GET_SIZE h1 ptrP
        + BOUNDARY_SIZE + HEADER_SIZE with hsizeP
    set hB : Heap := remove_free_block (REDO_HEADERS h1 ptrP sizeP FREE) ptrP with hhB
    have hsz : sizeP = 8 * (blkD h1 (i - 1)).payload.length + 16
        + 8 * (blkD h1 (i - 1 + 1)).payload.length := by
      rw [hsizeP, hgs1, hsize0, BOUNDARY_SIZE_eq, HEADER_SIZE_eq,
          show i - 1 + 1 = i from by omega, hplen1 (i - 1), hplen1 i]
      omega
    have hmemprev : addrI h1 (i - 1) ∈ l := by
      rw [aaddr (i - 1)]
      have hfsm : addrI h (i - 1) ∈ freeStarts h :=
        (mem_freeStarts h _).mpr ⟨i - 1, by omega, rfl, hfprev⟩
      rcases hcomp _ hfsm with hm | hm
      · exact hm
      · exact absurd hm (by
          have := addrI_mono h (i - 1) i (by omega) (by omega)
          omega)
    have hqnot : addrI h1 i ∉ l := by
      rw [aaddr i]
      exact hnotin
    have hBcanon : hB = remove_free_block
        (REDO_HEADERS h1 (addrI h1 (i - 1))
          (8 * (blkD h1 (i - 1)).payload.length + 16
            + 8 * (blkD h1 (i - 1 + 1)).payload.length)
          FREE)
        (addrI h1 (i - 1)) := by
      rw [hhB, hptr2, hsz]
    obtain ⟨Blen, Bale, Bagt, Bsh_lt, Bsh_gt, BWFk, Bfreek, Bplenk, Bgetlo, Bgethi,
      Bfr_lt, Bfr_gt, Bfs, ⟨l1, l2, hsplitB, BchainB, BprevsB, BndB, BmemB⟩,
      Bbrk, Blim⟩ :=
      merge_remove_spec h1 (i - 1) (i - 1) i l (by omega) hWF1
        (Or.inl ⟨rfl, by omega⟩) hchain1 hprevs1 hnd hmemprev hqnot hB hBcanon
    have hxnotl : addrI h1 (i - 1) ∉ l1 ∧ addrI h1 (i - 1) ∉ l2 := by
      have hndx := hnd
      rw [hsplitB] at hndx
      simp [List.nodup_append, List.nodup_cons, List.disjoint_left] at hndx
      obtain ⟨-, ⟨h2a, -⟩, h4x⟩ := hndx
      exact ⟨fun hxm => (h4x hxm).1 rfl, h2a⟩
    have hsubB : ∀ z, z ∈ l1 ++ l2 → z ∈ l := by
      intro z hz
      rw [hsplitB]
      rcases List.mem_append.mp hz with hz | hz
      · exact List.mem_append.mpr (Or.inl hz)
      · exact List.mem_append.mpr (Or.inr (List.mem_cons_of_mem _ hz))
    have hmidB : MidBundle h hB l (l1 ++ l2) i (i - 1) i := by
      refine ⟨by omega, by omega, by omega, by omega, by omega, ?_, ?_, ?_, ?_,
        ?_, ?_, BWFk, Bfreek, ?_, BchainB, BprevsB, BndB, hsubB, ?_, ?_, ?_, ?_,
        ?_, by rw [Blim]; exact alim⟩
      · intro j hj
        obtain ⟨c1, c2, c3⟩ := Bsh_lt j hj
        rw [ane j (by omega)] at c1 c2 c3
        exact ⟨c1, c2, c3⟩
      · intro j hj hjl
        rw [Bfr_lt j hj (by rw [aaddr j]; exact hjl), ane j (by omega)]
      · intro j hj
        obtain ⟨c1, c2, c3⟩ := Bsh_gt j hj
        rw [ane (j + 1) (by omega)] at c1 c2 c3
        rw [show j + (i - (i - 1)) = j + 1 from by omega]
        exact ⟨c1, c2, c3⟩
      · intro j hj hjl
        rw [show j + (i - (i - 1)) = j + 1 from by omega] at hjl ⊢
        rw [Bfr_gt j hj (by rw [aaddr (j + 1)]; exact hjl), ane (j + 1) (by omega)]
      · intro j hj
        rw [Bale j hj, aaddr j]
      · intro j hj
        rw [Bagt j hj, aaddr (j + 1), show j + (i - (i - 1)) = j + 1 from by omega]
      · rw [Bplenk, show i - 1 + 1 = i from by omega, hplen1 (i - 1), hplen1 i]
        omega
      · rw [aaddr (i - 1)] at hxnotl
        intro hc
        rcases List.mem_append.mp hc with hc | hc
        · exact hxnotl.1 hc
        · exact hxnotl.2 hc
      · intro x hx
        rcases (Bfs x).mp hx with hm | ⟨hf1, hne1, hne2⟩
        · exact Or.inr (by rw [hm, aaddr (i - 1)])
        · rcases hcomp1 x hf1 with hm | hm
          · exact Or.inl (BmemB x hm hne1)
          · exact absurd hm (by
              rw [show i - 1 + 1 = i from by omega, aaddr i] at hne2
              exact hne2)
      · intro j hj
        rcases Nat.lt_trichotomy j (i - 1) with hjlo | heq | hjlo
        · obtain ⟨c1, c2, c3⟩ := Bsh_lt j hjlo
          exact WFb_transport (blkD h1 j) (blkD hB j) c1 c2 c3 (hWF1 j (by omega))
        · rw [heq]
          exact BWFk
        · obtain ⟨c1, c2, c3⟩ := Bsh_gt j hjlo
          exact WFb_transport (blkD h1 (j + 1)) (blkD hB j) c1 c2 c3
            (hWF1 (j + 1) (by omega))
      · intro j hj1 hj2 hji
        rw [show j = i - 1 from by omega]
        exact hfprev
      · rw [Bbrk]
        exact hbrk1
    have hprevOKP : i - 1 = 0 ∨ allocB (blkD h (i - 1 - 1)) = ALLOCATED := by
      rcases Nat.lt_or_ge i 2 with hi2 | hi2
      · exact Or.inl (by omega)
      · rcases alloc_dichotomy (blkD h (i - 1 - 1)) with hd | hd
        · rcases hnaf (i - 2) (by omega)
            (by rw [show i - 2 = i - 1 - 1 from by omega]; exact hd)
            (by rw [show i - 2 + 1 = i - 1 from by omega]; exact hfprev)
            with hc | hc <;> omega
        · exact Or.inr hd
    have hptrPe : ptrP = addrI h (i - 1) := hptr2.trans (aaddr (i - 1))
    have hsizePe : sizeP = 8 * (blkD hB (i - 1)).payload.length := by
      rw [hsz, Bplenk]
      omega
    rw [hptrPe, hsizePe]
    exact unlock_forward_master h hB l (l1 ++ l2) i (i - 1) hi hl_fs hnaf
      hmidB hprevOKP
  · -- the previous block is allocated (or the block is first): no backward merge
    rw [if_neg hP]
    have hmid1 : MidBundle h h1 l l i i i := by
      refine ⟨by omega, by omega, by omega, by omega, by omega, ?_, ?_, ?_, ?_,
        ?_, ?_, hWF1 i (by omega), hfree1i, ?_, hchain1, hprevs1, hnd,
        fun z hz => hz, hnotin, ?_, hWF1, ?_, hbrk1, alim⟩
      · intro j hj
        rw [ane j (by omega)]
        exact ⟨rfl, rfl, rfl⟩
      · intro j hj hjl
        rw [ane j (by omega)]
      · intro j hj
        rw [ane j (by omega), show j + (i - i) = j from by omega]
        exact ⟨rfl, rfl, rfl⟩
      · intro j hj hjl
        rw [ane j (by omega), show j + (i - i) = j from by omega]
      · intro j hj
        rw [aaddr j]
      · intro j hj
        rw [aaddr j, show j + (i - i) = j from by omega]
      · rw [aati]
      · intro x hx
        rcases hcomp1 x hx with hm | hm
        · exact Or.inl hm
        · exact Or.inr hm
      · intro j hj1 hj2 hji
        exact absurd (by omega : j = i) hji
    have hprevOK1 : i = 0 ∨ allocB (blkD h (i - 1)) = ALLOCATED := by
      rcases Nat.eq_zero_or_pos i with h0 | h0
      · exact Or.inl h0
      · rcases alloc_dichotomy (blkD h (i - 1)) with hd | hd
        · exact absurd (by rw [hPApos h0]; exact hd) hP
        · exact Or.inr hd
    rw [show GET_SIZE h (addrI h i) = 8 * (blkD h1 i).payload.length from by
      rw [hsize0, hplen1 i]]
    exact unlock_forward_master h h1 l l i i hi hl_fs hnaf hmid1 hprevOK1

/-- There are at most as many free starts as blocks. -/
theorem freeStartsFrom_length (bs : List Block) :
    ∀ d, (freeStartsFrom d bs).length ≤ bs.length := by
  induction bs with
  | nil => intro d; simp [freeStartsFrom]
  | cons b bs ih =>
    intro d
    rw [freeStartsFrom]
    split
    · simpa using ih (d + blockExtent b)
    · have := ih (d + blockExtent b)
      simp only [List.length_cons]
      omega

/-- A duplicate-free chain of free starts is no longer than the block list. -/
theorem chain_length_le (h : Heap) (l : List Nat) (hnd : l.Nodup)
    (hmem : ∀ z, z ∈ l → z ∈ freeStarts h) : l.length ≤ h.blocks.length := by
  have hsub : l ⊆ freeStarts h := fun z hz => hmem z hz
  have h1 : l.length ≤ (freeStarts h).length :=
    (hnd.subperm hsub).length_le
  have h2 : (freeStarts h).length ≤ h.blocks.length :=
    freeStartsFrom_length h.blocks firstAddr
  omega

/-- Each block lies inside the arena. -/
theorem block_inside (h : Heap) (j : Nat) (hj : j < h.blocks.length) :
    addrI h j + blockExtent (blkD h j) ≤ brkAddr h := by
  have h1 : addrI h j + blockExtent (blkD h j) = addrI h (j + 1) :=
    (addrI_succ h j hj).symm
  rw [h1]
  rcases Nat.lt_or_ge (j + 1) h.blocks.length with hlt | hge
  · have := addrI_mono h (j + 1) h.blocks.length hlt (by omega)
    rw [addrI_length] at this
    omega
  · have he : j + 1 = h.blocks.length := by omega
    rw [he, addrI_length]

/-- The loop of `find_fit`: walking a chain with enough fuel returns `0`
or a chain member whose block is big enough, at the first fit. -/
theorem findGo_spec (h : Heap) (s : Nat) :
    ∀ l : List Nat, ∀ fp fuel, l.length < fuel →
      chainSegB h fp l 0 = true →
      findGo h s fuel fp = 0
        ∨ (findGo h s fuel fp ∈ l ∧ s ≤ GET_SIZE h (findGo h s fuel fp)) := by
  intro l
  induction l with
  | nil =>
    intro fp fuel hfuel hc
    rw [chainSegB] at hc
    have : fp = 0 := by simpa using hc
    subst this
    left
    cases fuel with
    | zero => rfl
    | succ f => rfl
  | cons a l ih =>
    intro fp fuel hfuel hc
    rw [chainSegB] at hc
    simp only [Bool.and_eq_true] at hc
    obtain ⟨⟨hfa, hma⟩, hrest⟩ := hc
    have hfa2 : fp = a := by simpa using hfa
    have hma2 : a ∈ freeStarts h := by simpa using hma
    have hapos : 64 ≤ a := mem_freeStarts_pos h a hma2
    cases fuel with
    | zero => omega
    | succ f =>
      subst hfa2
      rw [show findGo h s (f + 1) fp
          = if s ≤ GET_SIZE h fp then fp else findGo h s f (GET_NEXT_FREE h fp) from by
        cases hfp : fp with
        | zero => omega
        | succ m => rfl]
      split
      · right
        exact ⟨List.mem_cons_self _ _, by assumption⟩
      · rcases ih (GET_NEXT_FREE h fp) f (by simpa using hfuel) hrest with h0 | ⟨hm, hs⟩
        · exact Or.inl h0
        · exact Or.inr ⟨List.mem_cons_of_mem _ hm, hs⟩

/-- `find_fit` returns `0` or a chain member that fits the aligned size. -/
theorem find_fit_spec (h : Heap) (size : Nat) (l : List Nat)
    (hchain : chainSegB h h.free_list l 0 = true)
    (hnd : l.Nodup) :
    find_fit h size = 0
      ∨ (find_fit h size ∈ l ∧ ALIGN_BYTES size ≤ GET_SIZE h (find_fit h size)) := by
  unfold find_fit
  split
  · exact Or.inl rfl
  · exact findGo_spec h (ALIGN_BYTES size) l h.free_list (h.blocks.length + 1)
      (by
        have := chain_length_le h l hnd (chainSegB_mem h l _ _ hchain)
        omega)
      hchain

/-- Marking a block allocated at its own size (the non-splitting branches
of `place`, lines 493 and 499, and of `relock`). -/
theorem mark_alloc_spec (h : Heap) (k size : Nat) (hk : k < h.blocks.length)
    (hdvd : 8 ∣ size) (hsz : size = 8 * (blkD h k).payload.length)
    (hp2 : 2 ≤ (blkD h k).payload.length) :
    ∀ h2, h2 = REDO_HEADERS h (addrI h k) size ALLOCATED →
    h2.blocks.length = h.blocks.length
    ∧ (∀ j, j ≠ k → blkD h2 j = blkD h j)
    ∧ (∀ j, addrI h2 j = addrI h j)
    ∧ (∀ j, (blkD h2 j).payload = (blkD h k).payload ∨ (blkD h2 j).payload = (blkD h j).payload)
    ∧ WFb (blkD h2 k) ∧ allocB (blkD h2 k) = ALLOCATED
    ∧ (blkD h2 k).payload = (blkD h k).payload
    ∧ (∀ x, x ∈ freeStarts h2 ↔ x ∈ freeStarts h ∧ x ≠ addrI h k)
    ∧ h2.free_list = h.free_list ∧ h2.limit = h.limit ∧ brkAddr h2 = brkAddr h := by
  intro h2 hdef
  have hpk : pack size ALLOCATED = size + 1 := pack_eq_add hdvd (by decide)
  set B : Block := ⟨size + 1, (blkD h k).payload, size + 1⟩ with hB
  have hBB : (⟨pack size ALLOCATED, (blkD h k).payload, pack size ALLOCATED⟩ : Block) = B := by
    rw [hpk]
  have hset : h2 = { h with blocks := h.blocks.set k B } := by
    rw [hdef, REDO_same_i h k size ALLOCATED hk hsz, hBB]
  have hext : blockExtent B = blockExtent (blkD h k) := rfl
  have hblk : ∀ j, blkD h2 j = if j = k ∧ k < h.blocks.length then B else blkD h j := by
    intro j
    rw [hset]
    exact blkD_of_set h k j _
  have hlen : h2.blocks.length = h.blocks.length := by
    rw [hset]
    simp
  have hne : ∀ j, j ≠ k → blkD h2 j = blkD h j := by
    intro j hj
    rw [hblk j, if_neg (fun hc => hj hc.1)]
  have hatk : blkD h2 k = B := by
    rw [hblk k, if_pos ⟨rfl, hk⟩]
  have haddr : ∀ j, addrI h2 j = addrI h j := by
    intro j
    rw [hset]
    exact addrI_set h k j _ hext
  have halloc : allocB (blkD h2 k) = ALLOCATED := by
    rw [hatk, hB]
    show (size + 1) % 2 = 1
    obtain ⟨c, rfl⟩ := hdvd
    omega
  refine ⟨hlen, hne, haddr, ?_, ?_, halloc, by rw [hatk], ?_, by rw [hset],
    by rw [hset], brk_of_addr h h2 hlen haddr⟩
  · intro j
    by_cases hj : j = k
    · subst hj
      rw [hatk]
      exact Or.inl rfl
    · rw [hne j hj]
      exact Or.inr rfl
  · rw [hatk, hB]
    obtain ⟨c, hc⟩ := hdvd
    refine ⟨rfl, ?_, ?_, hp2⟩
    · show (size + 1) % 8 ≤ 1
      omega
    · show (size + 1) / 8 = (blkD h k).payload.length
      omega
  · intro x
    rw [mem_freeStarts, mem_freeStarts]
    constructor
    · rintro ⟨j, hj, hx, hf⟩
      have hjk : j ≠ k := by
        intro he
        subst he
        rw [show allocB (blkD h2 j) = ALLOCATED from halloc] at hf
        exact absurd hf (by decide)
      refine ⟨⟨j, by omega, by rw [hx, haddr j], by rw [← hne j hjk]; exact hf⟩, ?_⟩
      rw [hx, haddr j]
      intro he
      rcases Nat.lt_trichotomy j k with hlt | heq | hlt
      · exact absurd he (by have := addrI_mono h j k hlt (by omega); omega)
      · exact hjk heq
      · exact absurd he (by have := addrI_mono h k j hlt (by omega); omega)
    · rintro ⟨⟨j, hj, hx, hf⟩, hxk⟩
      have hjk : j ≠ k := fun he => hxk (by rw [hx, he])
      exact ⟨j, by omega, by rw [hx, haddr j], by rw [hne j hjk]; exact hf⟩

/-- No-adjacent-free is preserved when the free blocks only shrink
(position-wise). -/
theorem NAF_transport (h h2 : Heap)
    (hflag : ∀ j, j + 1 < h2.blocks.length → allocB (blkD h2 j) = FREE →
        allocB (blkD h j) = FREE)
    (hflag2 : ∀ j, j + 1 < h2.blocks.length → allocB (blkD h2 (j + 1)) = FREE →
        allocB (blkD h (j + 1)) = FREE)
    (hlen : h2.blocks.length ≤ h.blocks.length)
    (hn : NAF h) : NAF h2 := by
  unfold NAF at *
  rw [noAdj_iff] at *
  have hn2 : ∀ j, j + 1 < h.blocks.length → allocB (blkD h j) = ALLOCATED
      ∨ allocB (blkD h (j + 1)) = ALLOCATED := fun j hj => hn j hj
  intro j hj
  by_contra hc
  push_neg at hc
  obtain ⟨hc1, hc2⟩ := hc
  have hc1b : allocB (blkD h2 j) ≠ ALLOCATED := hc1
  have hc2b : allocB (blkD h2 (j + 1)) ≠ ALLOCATED := hc2
  have hf1 : allocB (blkD h2 j) = FREE := by
    rcases alloc_dichotomy (blkD h2 j) with hd | hd
    · exact hd
    · exact absurd hd hc1b
  have hf2 : allocB (blkD h2 (j + 1)) = FREE := by
    rcases alloc_dichotomy (blkD h2 (j + 1)) with hd | hd
    · exact hd
    · exact absurd hd hc2b
  have e1 := hflag j hj hf1
  have e2 := hflag2 j hj hf2
  rcases hn2 j (by omega) with hd | hd
  · rw [e1] at hd
    exact absurd hd (by decide)
  · rw [e2] at hd
    exact absurd hd (by decide)

/-- Carving an allocated block of `size` bytes out of block `kS` and
freeing the remainder (the splitting branch of `place`, lines 503-510,
and the shrinking branch of `relock`, lines 386-390). -/
theorem split_free_unlock_master (hS : Heap) (kS size : Nat) (lS : List Nat)
    (hk : kS < hS.blocks.length)
    (hWF : ∀ j, j < hS.blocks.length → WFb (blkD hS j))
    (hNAF : NAF hS)
    (hchain : chainSegB hS hS.free_list lS 0 = true)
    (hprevs : prevsB hS 0 lS = true)
    (hnd : lS.Nodup)
    (hnotin : addrI hS kS ∉ lS)
    (hcomp : ∀ x, x ∈ freeStarts hS → x ∈ lS ∨ x = addrI hS kS)
    (hdvd : 8 ∣ size) (h16 : 16 ≤ size)
    (hroom : size + 32 ≤ 8 * (blkD hS kS).payload.length)
    (hbrk : brkAddr hS < MOD) :
    ∀ res, res = unlock
        (REDO_HEADERS (REDO_HEADERS hS (addrI hS kS) size ALLOCATED)
          (GET_NEXT_BLOCK (REDO_HEADERS hS (addrI hS kS) size ALLOCATED) (addrI hS kS))
          (sub64 (sub64 (sub64 (GET_SIZE hS (addrI hS kS)) size) HEADER_SIZE)
            BOUNDARY_SIZE)
          FREE)
        (GET_NEXT_BLOCK (REDO_HEADERS hS (addrI hS kS) size ALLOCATED) (addrI hS kS)) →
    SplitPost hS res kS size := by
  intro res hresdef
  obtain ⟨c, hc⟩ := hdvd
  have hWFkS := hWF kS hk
  have hpk2 : 2 ≤ (blkD hS kS).payload.length := hWFkS.2.2.2
  have hc2 : c + 4 ≤ (blkD hS kS).payload.length := by omega
  have hl_fs : ∀ z, z ∈ lS → z ∈ freeStarts hS := chainSegB_mem hS lS _ _ hchain
  have hszS : GET_SIZE hS (addrI hS kS) = 8 * (blkD hS kS).payload.length :=
    GET_SIZE_i hS kS hk hWFkS
  have hinside := block_inside hS kS hk
  have hbound : 8 * (blkD hS kS).payload.length < MOD := by
    rw [blockExtent_def] at hinside
    have := addrI_ge hS kS
    omega
  -- step 1: the splitting REDO_HEADERS
  set A : Block := ⟨pack (8 * c) ALLOCATED, (blkD hS kS).payload.take c, pack (8 * c) ALLOCATED⟩ with hA
  set Bst : Block := ⟨(blkD hS kS).payload.getD (c + 1) 0, (blkD hS kS).payload.drop (c + 2), (blkD hS kS).tag⟩ with hBst
  set h2 : Heap := REDO_HEADERS hS (addrI hS kS) size ALLOCATED with hh2
  have h2eq : h2 = { hS with blocks := hS.blocks.take kS ++ A :: Bst :: hS.blocks.drop (kS + 1) } := by
    rw [hh2, hc, REDO_split_i hS kS c ALLOCATED hk (by omega)]
  have hextA : blockExtent A = 8 * c + 16 := by
    rw [hA, blockExtent_def]
    simp only [List.length_take]
    omega
  have hextB : blockExtent Bst = 8 * ((blkD hS kS).payload.length - (c + 2)) + 16 := by
    rw [hBst, blockExtent_def]
    simp only [List.length_drop]
  obtain ⟨s2len, s2lt, s2k, s2k1, s2gt, s2ale, s2k1a, s2agt, s2brk, s2fl, s2lim⟩ :=
    split2_shape hS h2 kS A Bst hk
      (by rw [hextA, hextB, blockExtent_def]; omega) h2eq
  have hWFA : WFb A := by
    rw [hA]
    refine ⟨rfl, ?_, ?_, ?_⟩
    · show pack (8 * c) ALLOCATED % 8 ≤ 1
      rw [pack_eq_add (dvd_mul_right 8 c) (by decide), ALLOCATED_eq]
      omega
    · show pack (8 * c) ALLOCATED / 8 = ((blkD hS kS).payload.take c).length
      rw [pack_eq_add (dvd_mul_right 8 c) (by decide), ALLOCATED_eq]
      simp only [List.length_take]
      omega
    · show 2 ≤ ((blkD hS kS).payload.take c).length
      simp only [List.length_take]
      omega
  have hallocA : allocB A = ALLOCATED := by
    rw [hA]
    show pack (8 * c) ALLOCATED % 2 = 1
    rw [pack_eq_add (dvd_mul_right 8 c) (by decide), ALLOCATED_eq]
    omega
  have hgsz2 : GET_SIZE h2 (addrI hS kS) = size := by
    rw [← s2ale kS (by omega)]
    rw [GET_SIZE_i h2 kS (by omega) (by rw [s2k]; exact hWFA), s2k, hA]
    show 8 * ((blkD hS kS).payload.take c).length = size
    simp only [List.length_take]
    omega
  have hnfp : GET_NEXT_BLOCK h2 (addrI hS kS) = addrI h2 (kS + 1) := by
    unfold GET_NEXT_BLOCK
    rw [hgsz2, BOUNDARY_SIZE_eq, HEADER_SIZE_eq, s2k1a, hextA]
    omega
  -- step 2: the remainder size
  have hrs : sub64 (sub64 (sub64 (GET_SIZE hS (addrI hS kS)) size) HEADER_SIZE)
      BOUNDARY_SIZE = 8 * ((blkD hS kS).payload.length - (c + 2)) := by
    rw [hszS, HEADER_SIZE_eq, BOUNDARY_SIZE_eq]
    have e1 : sub64 (8 * (blkD hS kS).payload.length) size
        = 8 * (blkD hS kS).payload.length - size := sub64_eq (by omega) (by omega)
    rw [e1]
    have e2 : sub64 (8 * (blkD hS kS).payload.length - size) 8
        = 8 * (blkD hS kS).payload.length - size - 8 := sub64_eq (by omega) (by omega)
    rw [e2]
    have e3 : sub64 (8 * (blkD hS kS).payload.length - size - 8) 8
        = 8 * (blkD hS kS).payload.length - size - 8 - 8 := sub64_eq (by omega) (by omega)
    rw [e3]
    omega
  -- step 3: the remainder header rewrite
  set Bfree : Block := ⟨8 * ((blkD hS kS).payload.length - (c + 2)), (blkD hS kS).payload.drop (c + 2), 8 * ((blkD hS kS).payload.length - (c + 2))⟩ with hBfree
  set h3 : Heap := { h2 with blocks := h2.blocks.set (kS + 1) Bfree } with hh3
  have h3eq : REDO_HEADERS h2 (addrI h2 (kS + 1))
      (8 * ((blkD hS kS).payload.length - (c + 2))) FREE = h3 := by
    have e1 := REDO_same_i h2 (kS + 1) (8 * ((blkD hS kS).payload.length - (c + 2)))
      FREE (by omega)
      (by rw [s2k1, hBst]; show _ = 8 * ((blkD hS kS).payload.drop (c + 2)).length;
          simp only [List.length_drop])
    have hpk0 : pack (8 * ((blkD hS kS).payload.length - (c + 2))) FREE
        = 8 * ((blkD hS kS).payload.length - (c + 2)) := by
      rw [pack_eq_add (dvd_mul_right 8 _) (by decide), FREE_eq]
      omega
    have hpay2 : (blkD h2 (kS + 1)).payload = (blkD hS kS).payload.drop (c + 2) := by
      rw [s2k1, hBst]
    have hBlit : (⟨pack (8 * ((blkD hS kS).payload.length - (c + 2))) FREE, (blkD h2 (kS + 1)).payload, pack (8 * ((blkD hS kS).payload.length - (c + 2))) FREE⟩ : Block) = Bfree := by
      rw [hpk0, hpay2, hBfree]
    rw [e1, hBlit]
  have hresdef2 : res = unlock h3 (addrI h2 (kS + 1)) := by
    rw [hresdef, hnfp, hrs, h3eq]
  have hextBf : blockExtent Bfree = blockExtent Bst := by
    rw [hBfree, hBst, blockExtent_def, blockExtent_def]
  have h3blk : ∀ j, blkD h3 j = if j = kS + 1 ∧ kS + 1 < h2.blocks.length
      then Bfree else blkD h2 j := by
    intro j
    rw [hh3]
    exact blkD_of_set h2 (kS + 1) j _
  have h3len : h3.blocks.length = h2.blocks.length := by
    rw [hh3]
    simp
  have h3ne : ∀ j, j ≠ kS + 1 → blkD h3 j = blkD h2 j := by
    intro j hj
    rw [h3blk j, if_neg (fun hcc => hj hcc.1)]
  have h3at : blkD h3 (kS + 1) = Bfree := by
    rw [h3blk (kS + 1), if_pos ⟨rfl, by rw [s2len]; omega⟩]
  have h3addr : ∀ j, addrI h3 j = addrI h2 j := by
    intro j
    rw [hh3]
    rw [addrI_set h2 (kS + 1) j Bfree (by rw [← s2k1] at hextBf; exact hextBf)]
  have hWFBf : WFb (blkD h3 (kS + 1)) := by
    rw [h3at, hBfree]
    refine ⟨rfl, by show 8 * _ % 8 ≤ 1; omega, ?_, ?_⟩
    · show 8 * ((blkD hS kS).payload.length - (c + 2)) / 8
        = ((blkD hS kS).payload.drop (c + 2)).length
      simp only [List.length_drop]
      omega
    · show 2 ≤ ((blkD hS kS).payload.drop (c + 2)).length
      simp only [List.length_drop]
      omega
  have hfreeBf : allocB (blkD h3 (kS + 1)) = FREE := by
    rw [h3at, hBfree]
    show 8 * ((blkD hS kS).payload.length - (c + 2)) % 2 = 0
    omega
  have hallocA3 : allocB (blkD h3 kS) = ALLOCATED := by
    rw [h3ne kS (by omega), s2k]
    exact hallocA
  -- index-to-flag map of h3 relative to hS
  have hflag_lt : ∀ j, j < kS → blkD h3 j = blkD hS j := by
    intro j hj
    rw [h3ne j (by omega), s2lt j hj]
  have hflag_gt : ∀ j, kS + 1 < j → blkD h3 j = blkD hS (j - 1) := by
    intro j hj
    rw [h3ne j (by omega), s2gt j hj]
  have haddr_lt : ∀ j, j ≤ kS → addrI h3 j = addrI hS j := by
    intro j hj
    rw [h3addr j, s2ale j hj]
  have haddr_gt : ∀ j, kS + 1 < j → addrI h3 j = addrI hS (j - 1) := by
    intro j hj
    rw [h3addr j, s2agt j hj]
  have hWF3 : ∀ j, j < h3.blocks.length → WFb (blkD h3 j) := by
    intro j hj
    rw [h3len] at hj
    rcases Nat.lt_trichotomy j (kS + 1) with hjk | heq | hjk
    · rcases Nat.lt_or_ge j kS with hjk2 | hjk2
      · rw [hflag_lt j hjk2]
        exact hWF j (by omega)
      · have hje : j = kS := by omega
        subst hje
        rw [h3ne j (by omega), s2k]
        exact hWFA
    · subst heq
      exact hWFBf
    · rw [hflag_gt j hjk]
      exact hWF (j - 1) (by omega)
  have hNS : ∀ j, j + 1 < hS.blocks.length → allocB (blkD hS j) = ALLOCATED
      ∨ allocB (blkD hS (j + 1)) = ALLOCATED :=
    fun j hj => (noAdj_iff hS.blocks).mp hNAF j hj
  have hnaf3 : ∀ j, j + 1 < h3.blocks.length → allocB (blkD h3 j) = FREE →
      allocB (blkD h3 (j + 1)) = FREE → j = kS + 1 ∨ j + 1 = kS + 1 := by
    intro j hj hf1 hf2
    rw [h3len, s2len] at hj
    rcases Nat.lt_trichotomy (j + 1) (kS + 1) with hc1 | hc1 | hc1
    · rcases Nat.lt_or_ge (j + 1) kS with hc2 | hc2
      · rw [hflag_lt j (by omega)] at hf1
        rw [hflag_lt (j + 1) (by omega)] at hf2
        rcases hNS j (by omega) with hd | hd
        · rw [hf1] at hd
          exact absurd hd (by decide)
        · rw [hf2] at hd
          exact absurd hd (by decide)
      · have he : j + 1 = kS := by omega
        rw [he, h3ne kS (by omega), s2k, hallocA] at hf2
        exact absurd hf2 (by decide)
    · have he : j = kS := by omega
      subst he
      rw [h3ne j (by omega), s2k, hallocA] at hf1
      exact absurd hf1 (by decide)
    · rcases Nat.eq_or_lt_of_le (by omega : kS + 1 ≤ j) with he | hlt
      · exact Or.inl he.symm
      · rw [hflag_gt j hlt] at hf1
        rw [hflag_gt (j + 1) (by omega), Nat.add_sub_cancel,
            show j = j - 1 + 1 from by omega] at hf2
        rcases hNS (j - 1) (by omega) with hd | hd
        · rw [hf1] at hd
          exact absurd hd (by decide)
        · rw [hf2] at hd
          exact absurd hd (by decide)
  have hmap3 : ∀ y, y ∈ freeStarts hS → y ≠ addrI hS kS →
      (y ∈ freeStarts h3
        ∧ GET_NEXT_FREE h3 y = GET_NEXT_FREE hS y
        ∧ GET_PREV_FREE h3 y = GET_PREV_FREE hS y) := by
    intro y hy hyk
    obtain ⟨jy, hjy, hyx, hyf⟩ := (mem_freeStarts hS y).mp hy
    have hwp := (hWF jy hjy).2.2.2
    have hjyk : jy ≠ kS := fun he => hyk (by rw [hyx, he])
    rcases Nat.lt_or_ge jy kS with hjlt | hjge
    · have hb : blkD h3 jy = blkD hS jy := hflag_lt jy hjlt
      have ha : addrI h3 jy = addrI hS jy := haddr_lt jy (by omega)
      refine ⟨(mem_freeStarts h3 y).mpr ⟨jy, by rw [h3len, s2len]; omega,
        by rw [hyx, ha], by rw [hb]; exact hyf⟩, ?_, ?_⟩
      · rw [hyx, ← ha, GET_NEXT_FREE_i h3 jy (by rw [h3len, s2len]; omega)
            (by rw [hb]; omega),
          ha, GET_NEXT_FREE_i hS jy hjy (by omega), hb]
      · rw [hyx, ← ha, GET_PREV_FREE_i h3 jy (by rw [h3len, s2len]; omega)
            (by rw [hb]; omega),
          ha, GET_PREV_FREE_i hS jy hjy (by omega), hb]
    · have hgt : kS < jy := by omega
      have hb : blkD h3 (jy + 1) = blkD hS jy := by
        rw [hflag_gt (jy + 1) (by omega), Nat.add_sub_cancel]
      have ha : addrI h3 (jy + 1) = addrI hS jy := by
        rw [haddr_gt (jy + 1) (by omega), Nat.add_sub_cancel]
      refine ⟨(mem_freeStarts h3 y).mpr ⟨jy + 1, by rw [h3len, s2len]; omega,
        by rw [hyx, ha], by rw [hb]; exact hyf⟩, ?_, ?_⟩
      · rw [hyx, ← ha, GET_NEXT_FREE_i h3 (jy + 1) (by rw [h3len, s2len]; omega)
            (by rw [hb]; omega),
          ha, GET_NEXT_FREE_i hS jy hjy (by omega), hb]
      · rw [hyx, ← ha, GET_PREV_FREE_i h3 (jy + 1) (by rw [h3len, s2len]; omega)
            (by rw [hb]; omega),
          ha, GET_PREV_FREE_i hS jy hjy (by omega), hb]
  have hmemne : ∀ y, y ∈ lS → y ≠ addrI hS kS := fun y hy he => hnotin (he ▸ hy)
  have hfl3 : h3.free_list = hS.free_list := by
    have e1 : h3.free_list = h2.free_list := by rw [hh3]
    rw [e1, s2fl]
  have hchain3 : chainSegB h3 h3.free_list lS 0 = true := by
    rw [hfl3]
    exact chainSegB_mono hS h3 lS (fun y hy hyf => (hmap3 y hyf (hmemne y hy)).1)
      (fun y hy => (hmap3 y (hl_fs y hy) (hmemne y hy)).2.1) _ _ hchain
  have hprevs3 : prevsB h3 0 lS = true := by
    rw [prevsB_congr hS h3 lS (fun y hy => (hmap3 y (hl_fs y hy) (hmemne y hy)).2.2)]
    exact hprevs
  have haddr3k1 : addrI h3 (kS + 1) = addrI hS kS + (8 * c + 16) := by
    rw [h3addr (kS + 1), s2k1a, hextA]
  have hnotin3 : addrI h3 (kS + 1) ∉ lS := by
    intro hcmem
    obtain ⟨jy, hjy, hyx, hyf⟩ := (mem_freeStarts hS _).mp (hl_fs _ hcmem)
    have hjyk : jy ≠ kS := fun he => (hmemne _ hcmem) (by rw [hyx, he])
    rcases Nat.lt_or_ge jy kS with hjlt | hjge
    · have := addrI_mono hS jy kS hjlt (by omega)
      rw [haddr3k1] at hyx
      omega
    · have hgt : kS < jy := by omega
      have h1 : addrI hS (kS + 1) ≤ addrI hS jy := by
        rcases Nat.eq_or_lt_of_le (by omega : kS + 1 ≤ jy) with he | hlt
        · rw [he]
        · exact Nat.le_of_lt (addrI_mono hS (kS + 1) jy hlt (by omega))
      have h2n : addrI hS (kS + 1)
          = addrI hS kS + (8 * (blkD hS kS).payload.length + 16) := by
        rw [addrI_succ hS kS hk, blockExtent_def]
      rw [haddr3k1] at hyx
      omega
  have hcomp3 : ∀ x, x ∈ freeStarts h3 → x ∈ lS ∨ x = addrI h3 (kS + 1) := by
    intro x hx
    obtain ⟨j, hj, hx2, hf⟩ := (mem_freeStarts h3 x).mp hx
    rw [h3len, s2len] at hj
    rcases Nat.lt_trichotomy j (kS + 1) with hc1 | hc1 | hc1
    · rcases Nat.lt_or_ge j kS with hc2 | hc2
      · have hb : blkD h3 j = blkD hS j := hflag_lt j hc2
        have ha : addrI h3 j = addrI hS j := haddr_lt j (by omega)
        rcases hcomp x ((mem_freeStarts hS x).mpr ⟨j, by omega, by rw [hx2, ha],
            by rw [← hb]; exact hf⟩) with hm | hm
        · exact Or.inl hm
        · exact absurd hm (by
            rw [hx2, ha]
            have := addrI_mono hS j kS hc2 (by omega)
            omega)
      · have hje : j = kS := by omega
        subst hje
        rw [h3ne j (by omega), s2k, hallocA] at hf
        exact absurd hf (by decide)
    · subst hc1
      exact Or.inr hx2
    · have hb : blkD h3 j = blkD hS (j - 1) := hflag_gt j hc1
      have ha : addrI h3 j = addrI hS (j - 1) := haddr_gt j hc1
      rcases hcomp x ((mem_freeStarts hS x).mpr ⟨j - 1, by omega, by rw [hx2, ha],
          by rw [← hb]; exact hf⟩) with hm | hm
      · exact Or.inl hm
      · exact absurd hm (by
          rw [hx2, ha]
          have := addrI_mono hS kS (j - 1) (by omega) (by omega)
          omega)
  rw [← h3addr (kS + 1)] at hresdef2
  obtain ⟨uWF, uNAF, ⟨lR, uch, upr, und, ucomp⟩, ubrk, ulim, ulen, uframe, -⟩ :=
    unlock_master h3 (kS + 1) lS (by rw [h3len, s2len]; omega) hWF3 hnaf3 hchain3
      hprevs3 hnd hnotin3 hcomp3
  rw [← hresdef2] at uWF uNAF uch upr ucomp ubrk ulim ulen uframe
  have hbrk3 : brkAddr h3 = brkAddr hS := by
    have e1 : brkAddr h3 = brkAddr h2 := brk_of_addr h2 h3 h3len h3addr
    rw [e1, s2brk]
  have hlim3 : h3.limit = hS.limit := by
    have e1 : h3.limit = h2.limit := by rw [hh3]
    rw [e1, s2lim]
  refine ⟨uWF, uNAF, ⟨lR, uch, upr, und, fun x hx => Or.inl (ucomp x hx)⟩,
    by rw [ubrk, hbrk3], by rw [ulim, hlim3], ?_, ?_⟩
  · intro j hj hjk hja
    rcases Nat.lt_or_ge j kS with hjlt | hjge
    · have hb : blkD h3 j = blkD hS j := hflag_lt j hjlt
      have ha : addrI h3 j = addrI hS j := haddr_lt j (by omega)
      obtain ⟨j2, hj2, ha2, hb2⟩ := uframe j (by rw [h3len, s2len]; omega) (by omega)
        (by rw [hb]; exact hja)
      exact ⟨j2, hj2, by rw [ha2, ha], by rw [hb2, hb]⟩
    · have hgt : kS < j := by omega
      have hb : blkD h3 (j + 1) = blkD hS j := by
        rw [hflag_gt (j + 1) (by omega), Nat.add_sub_cancel]
      have ha : addrI h3 (j + 1) = addrI hS j := by
        rw [haddr_gt (j + 1) (by omega), Nat.add_sub_cancel]
      obtain ⟨j2, hj2, ha2, hb2⟩ := uframe (j + 1) (by rw [h3len, s2len]; omega)
        (by omega) (by rw [hb]; exact hja)
      exact ⟨j2, hj2, by rw [ha2, ha], by rw [hb2, hb]⟩
  · have hbA : blkD h3 kS = A := by rw [h3ne kS (by omega), s2k]
    have haA : addrI h3 kS = addrI hS kS := haddr_lt kS (by omega)
    obtain ⟨j2, hj2, ha2, hb2⟩ := uframe kS (by rw [h3len, s2len]; omega) (by omega)
      (by rw [hbA]; exact hallocA)
    refine ⟨j2, hj2, by rw [ha2, haA], ?_, ?_, ?_⟩
    · rw [hb2, hbA]
      exact hallocA
    · rw [hb2, hbA, hA]
      show ((blkD hS kS).payload.take c).length = size / 8
      simp only [List.length_take]
      omega
    · rw [hb2, hbA, hA]
      show (blkD hS kS).payload.take c = (blkD hS kS).payload.take (size / 8)
      rw [show size / 8 = c from by omega]

/-- Master correctness lemma for `place`: carving an allocation of `size`
bytes out of the free block `kf` (a free-list member found by `find_fit`)
restores every invariant and leaves an allocated block of at least `size`
bytes at the block\'s address. -/
theorem place_master (h : Heap) (kf size : Nat) (l : List Nat)
    (hk : kf < h.blocks.length)
    (hWF : ∀ j, j < h.blocks.length → WFb (blkD h j))
    (hNAF : NAF h)
    (hchain : chainSegB h h.free_list l 0 = true)
    (hprevs : prevsB h 0 l = true)
    (hnd : l.Nodup)
    (hcomp : ∀ x, x ∈ freeStarts h → x ∈ l)
    (hbrk : brkAddr h < MOD)
    (hfree : allocB (blkD h kf) = FREE)
    (hdvd : 8 ∣ size) (h16 : 16 ≤ size)
    (hfit : size ≤ 8 * (blkD h kf).payload.length) :
    PlacePost h (place h (addrI h kf) size) kf size := by
  have hl_fs : ∀ z, z ∈ l → z ∈ freeStarts h := chainSegB_mem h l _ _ hchain
  have hpk2 : 2 ≤ (blkD h kf).payload.length := (hWF kf hk).2.2.2
  have hinside := block_inside h kf hk
  have hbound : 8 * (blkD h kf).payload.length < MOD := by
    rw [blockExtent_def] at hinside
    have := addrI_ge h kf
    omega
  have hfp_mem : addrI h kf ∈ l :=
    hcomp _ ((mem_freeStarts h _).mpr ⟨kf, hk, rfl, hfree⟩)
  obtain ⟨l1, l2, hsplit⟩ := List.append_of_mem hfp_mem
  have hndf : addrI h kf ∉ l1 ∧ addrI h kf ∉ l2 ∧ l1.Nodup ∧ l2.Nodup
      ∧ ∀ y ∈ l1, y ∉ l2 := by
    have hndx := hnd
    rw [hsplit] at hndx
    simp [List.nodup_append, List.nodup_cons, List.disjoint_left] at hndx
    obtain ⟨h1, ⟨h2a, h2b⟩, h4x⟩ := hndx
    exact ⟨fun hxm => (h4x hxm).1 rfl, h2a, h1, h2b, fun y hy hyl2 => (h4x hy).2 hyl2⟩
  obtain ⟨hxl1, hxl2, hnd1, hnd2, hdisj⟩ := hndf
  obtain ⟨hc1, hxfs, hc2⟩ := chainSegB_split h l1 l2 h.free_list (addrI h kf) 0
    (by rw [← hsplit]; exact hchain)
  have hnx : GET_NEXT_FREE h (addrI h kf) = l2.headD 0 := chainSegB_headD h l2 _ 0 hc2
  obtain ⟨hp1, hpx, hp2⟩ := prevsB_split h l1 l2 (addrI h kf) 0
    (by rw [← hsplit]; exact hprevs)
  have hlen2 : ∀ i, i < h.blocks.length → 2 ≤ (blkD h i).payload.length := by
    intro i hi
    exact (hWF i hi).2.2.2
  obtain ⟨rlen, rshape, raddr, rframe, rfs, rchain, rprevs, rlim⟩ :=
    remove_master h (addrI h kf) l1 l2 hlen2 hnx hpx hc1 (by rw [← hnx]; exact hc2)
      hp1 hp2 (by rw [← hsplit]; exact hnd)
  simp only [place]
  rw [align_of_dvd hdvd]
  set hR : Heap := remove_free_block h (addrI h kf) with hhR
  have hRlen : hR.blocks.length = h.blocks.length := rlen
  have hWFR : ∀ j, j < hR.blocks.length → WFb (blkD hR j) := by
    intro j hj
    exact WFb_transport (blkD h j) (blkD hR j) (rshape j).1 (rshape j).2.1
      (rshape j).2.2 (hWF j (by omega))
  have hbrkR : brkAddr hR = brkAddr h := brk_of_addr h hR rlen raddr
  have hszR : GET_SIZE hR (addrI h kf) = 8 * (blkD h kf).payload.length := by
    rw [← raddr kf, GET_SIZE_i hR kf (by omega) (hWFR kf (by omega)), (rshape kf).2.2]
  have hfreeR : allocB (blkD hR kf) = FREE := by
    rw [allocB_transport (blkD h kf) (blkD hR kf) (rshape kf).1]
    exact hfree
  have hndR : (l1 ++ l2).Nodup := by
    rw [List.nodup_append]
    exact ⟨hnd1, hnd2, fun a ha hb => hdisj a ha hb⟩
  have hsubR : ∀ z, z ∈ l1 ++ l2 → z ∈ l := by
    intro z hz
    rw [hsplit]
    rcases List.mem_append.mp hz with hz | hz
    · exact List.mem_append.mpr (Or.inl hz)
    · exact List.mem_append.mpr (Or.inr (List.mem_cons_of_mem _ hz))
  have hnotinR : addrI hR kf ∉ l1 ++ l2 := by
    rw [raddr kf]
    intro hcm
    rcases List.mem_append.mp hcm with hcm | hcm
    · exact hxl1 hcm
    · exact hxl2 hcm
  have hcompR : ∀ x, x ∈ freeStarts hR → x ∈ l1 ++ l2 ∨ x = addrI hR kf := by
    intro x hx
    by_cases hxf : x = addrI h kf
    · exact Or.inr (by rw [hxf, raddr kf])
    · rcases List.mem_append.mp (by
          rw [← hsplit]
          exact hcomp x ((rfs x).mp hx)) with hm | hm
      · exact Or.inl (List.mem_append.mpr (Or.inl hm))
      · rcases List.mem_cons.mp hm with hm2 | hm2
        · exact absurd hm2 hxf
        · exact Or.inl (List.mem_append.mpr (Or.inr hm2))
  have hNAFR : NAF hR := by
    refine NAF_transport h hR ?_ ?_ (by omega) hNAF
    · intro j hj hf
      rw [← allocB_transport (blkD h j) (blkD hR j) (rshape j).1]
      exact hf
    · intro j hj hf
      rw [← allocB_transport (blkD h (j + 1)) (blkD hR (j + 1)) (rshape (j + 1)).1]
      exact hf
  have halloc_notl : ∀ j, j < h.blocks.length → allocB (blkD h j) = ALLOCATED →
      addrI h j ∉ l := by
    intro j hj hja hcm
    exact alloc_addr_not_free h j hj hja (hl_fs _ hcm)
  have hfinish : ∀ s2, s2 = 8 * (blkD h kf).payload.length →
      PlacePost h (REDO_HEADERS hR (addrI h kf) s2 ALLOCATED) kf size := by
    intro s2 hs2
    subst hs2
    set hM : Heap := REDO_HEADERS hR (addrI h kf) (8 * (blkD h kf).payload.length)
      ALLOCATED with hhM
    obtain ⟨mlen, mne, maddr, mpays, mWFk, malloc, mpayk, mfs, mfl, mlim, mbrk⟩ :=
      mark_alloc_spec hR kf (8 * (blkD h kf).payload.length) (by omega)
        (dvd_mul_right 8 _) (by rw [(rshape kf).2.2]) (by rw [(rshape kf).2.2]; exact hpk2)
        hM (by rw [hhM, raddr kf])
    have hlinkM : ∀ y, y ∈ freeStarts hR → y ≠ addrI hR kf →
        GET_NEXT_FREE hM y = GET_NEXT_FREE hR y
          ∧ GET_PREV_FREE hM y = GET_PREV_FREE hR y := by
      intro y hy hyk
      obtain ⟨jy, hjy, hyx, hyf⟩ := (mem_freeStarts hR y).mp hy
      have hwp := (hWFR jy hjy).2.2.2
      have hjyk : jy ≠ kf := fun he => hyk (by rw [hyx, he])
      have hb : blkD hM jy = blkD hR jy := mne jy hjyk
      constructor
      · rw [hyx, ← maddr jy, GET_NEXT_FREE_i hM jy (by omega) (by rw [hb]; omega),
            maddr jy, GET_NEXT_FREE_i hR jy hjy (by omega), hb]
      · rw [hyx, ← maddr jy, GET_PREV_FREE_i hM jy (by omega) (by rw [hb]; omega),
            maddr jy, GET_PREV_FREE_i hR jy hjy (by omega), hb]
    have hmemRne : ∀ y, y ∈ l1 ++ l2 → y ≠ addrI hR kf :=
      fun y hy he => hnotinR (he ▸ hy)
    have hmemRfs : ∀ y, y ∈ l1 ++ l2 → y ∈ freeStarts hR :=
      chainSegB_mem hR (l1 ++ l2) _ _ rchain
    refine ⟨?_, ?_, ?_, by rw [mbrk, hbrkR], by rw [mlim, rlim], ?_, ?_⟩
    · intro j hj
      by_cases hje : j = kf
      · rw [hje]
        exact mWFk
      · rw [mne j hje]
        exact hWFR j (by omega)
    · refine NAF_transport hR hM ?_ ?_ (by omega) hNAFR
      · intro j hj hf
        by_cases hje : j = kf
        · rw [hje, malloc] at hf
          exact absurd hf (by decide)
        · rw [← mne j hje]
          exact hf
      · intro j hj hf
        by_cases hje : j + 1 = kf
        · rw [hje, malloc] at hf
          exact absurd hf (by decide)
        · rw [← mne (j + 1) hje]
          exact hf
    · refine ⟨l1 ++ l2, ?_, ?_, hndR, ?_⟩
      · show chainSegB hM hM.free_list (l1 ++ l2) 0 = true
        rw [mfl]
        exact chainSegB_mono hR hM (l1 ++ l2)
          (fun y hy hyf => (mfs y).mpr ⟨hyf, hmemRne y hy⟩)
          (fun y hy => (hlinkM y (hmemRfs y hy) (hmemRne y hy)).1) _ _ rchain
      · rw [prevsB_congr hR hM (l1 ++ l2)
          (fun y hy => (hlinkM y (hmemRfs y hy) (hmemRne y hy)).2)]
        exact rprevs
      · intro x hx
        obtain ⟨hxR, hxk⟩ := (mfs x).mp hx
        rcases hcompR x hxR with hm | hm
        · exact Or.inl hm
        · exact absurd hm hxk
    · intro j hj hja
      have hjk : j ≠ kf := by
        intro he
        rw [he, hfree] at hja
        exact absurd hja (by decide)
      have hnl : addrI h j ∉ l := halloc_notl j hj hja
      have hnl1 : addrI h j ∉ l1 := fun hcm => hnl (hsubR _ (List.mem_append.mpr (Or.inl hcm)))
      have hnl2 : addrI h j ∉ l2 := fun hcm => hnl (hsubR _ (List.mem_append.mpr (Or.inr hcm)))
      refine ⟨j, by omega, by rw [maddr j, raddr j], ?_⟩
      rw [mne j hjk, rframe j hj hnl1 hnl2]
    · refine ⟨kf, by omega, by rw [maddr kf, raddr kf], malloc, ?_⟩
      have : (blkD hM kf).payload.length = (blkD h kf).payload.length := by
        rw [mpayk, (rshape kf).2.2]
      omega
  have hdiffeq : sub64 (GET_SIZE hR (addrI h kf)) size
      = 8 * (blkD h kf).payload.length - size := by
    rw [hszR]
    exact sub64_eq (by omega) (by omega)
  by_cases hd0 : sub64 (GET_SIZE hR (addrI h kf)) size = 0
  · rw [if_pos hd0]
    exact hfinish size (by rw [hdiffeq] at hd0; omega)
  · rw [if_neg hd0]
    by_cases hd32 : sub64 (GET_SIZE hR (addrI h kf)) size < MIN_BLOCK_SIZE
    · rw [if_pos hd32]
      exact hfinish (GET_SIZE hR (addrI h kf)) hszR
    · rw [if_neg hd32]
      rw [hdiffeq] at hd0 hd32
      rw [MIN_BLOCK_SIZE_eq] at hd32
      have hroom : size + 32 ≤ 8 * (blkD h kf).payload.length := by omega
      rw [show addrI h kf = addrI hR kf from (raddr kf).symm]
      obtain ⟨sWF, sNAF, sFL, sbrk, slim, sframe, ⟨j2, hj2, ha2, hal2, hpl2, hpay2⟩⟩ :=
        split_free_unlock_master hR kf size (l1 ++ l2) (by omega) hWFR hNAFR
          rchain rprevs hndR hnotinR hcompR hdvd h16
          (by rw [(rshape kf).2.2]; exact hroom) (by rw [hbrkR]; exact hbrk) _ rfl
      refine ⟨sWF, sNAF, sFL, by rw [sbrk, hbrkR], by rw [slim, rlim], ?_, ?_⟩
      · intro j hj hja
        have hjk : j ≠ kf := by
          intro he
          rw [he, hfree] at hja
          exact absurd hja (by decide)
        have hnl : addrI h j ∉ l := halloc_notl j hj hja
        have hnl1 : addrI h j ∉ l1 := fun hcm => hnl (hsubR _ (List.mem_append.mpr (Or.inl hcm)))
        have hnl2 : addrI h j ∉ l2 := fun hcm => hnl (hsubR _ (List.mem_append.mpr (Or.inr hcm)))
        obtain ⟨j3, hj3, ha3, hb3⟩ := sframe j (by omega) hjk
          (by rw [allocB_transport (blkD h j) (blkD hR j) (rshape j).1]; exact hja)
        refine ⟨j3, hj3, by rw [ha3, raddr j], ?_⟩
        rw [hb3, rframe j hj hnl1 hnl2]
      · refine ⟨j2, hj2, by rw [ha2, raddr kf], hal2, ?_⟩
        obtain ⟨c, hcc⟩ := hdvd
        omega

/-- Master lemma for the successful branch of `extend_heap` (lines
465-477): appending a fresh free block at the old break and `unlock`-ing
it restores the invariants in the grown arena. -/
theorem extend_grow_master (h : Heap) (size0 : Nat) (l : List Nat)
    (hWF : ∀ j, j < h.blocks.length → WFb (blkD h j))
    (hNAF : NAF h)
    (hchain : chainSegB h h.free_list l 0 = true)
    (hprevs : prevsB h 0 l = true)
    (hnd : l.Nodup)
    (hcomp : ∀ x, x ∈ freeStarts h → x ∈ l)
    (hdvd : 8 ∣ size0) (h16 : 16 ≤ size0) :
    ∀ hE res, hE = { h with blocks := h.blocks
        ++ [⟨pack size0 FREE, List.replicate (size0 / 8) 0, pack size0 FREE⟩] } →
    res = unlock hE (brkAddr h) →
    UnlockPost hE res h.blocks.length
    ∧ hE.blocks.length = h.blocks.length + 1
    ∧ brkAddr hE = brkAddr h + (size0 + 16)
    ∧ hE.limit = h.limit
    ∧ (∀ j, j < h.blocks.length → blkD hE j = blkD h j)
    ∧ (∀ j, j ≤ h.blocks.length → addrI hE j = addrI h j)
    ∧ (blkD hE h.blocks.length).payload.length = size0 / 8 := by
  intro hE res hEdef hresdef
  have hl_fs : ∀ z, z ∈ l → z ∈ freeStarts h := chainSegB_mem h l _ _ hchain
  have hpk0 : pack size0 FREE = size0 := by
    rw [pack_eq_add hdvd (by decide), FREE_eq]
    omega
  have hsplitE : hE.blocks = h.blocks
      ++ [⟨pack size0 FREE, List.replicate (size0 / 8) 0, pack size0 FREE⟩] := by
    rw [hEdef]
  have hElen : hE.blocks.length = h.blocks.length + 1 := by
    rw [hsplitE]
    simp
  have hElt : ∀ j, j < h.blocks.length → blkD hE j = blkD h j := by
    intro j hj
    rw [blkD_concat_lt hE h.blocks _ hsplitE j hj]
    rfl
  have hEat : blkD hE h.blocks.length
      = ⟨size0, List.replicate (size0 / 8) 0, size0⟩ := by
    rw [blkD_concat_ge hE h.blocks _ hsplitE h.blocks.length (by omega)]
    simp [hpk0]
  have hEale : ∀ j, j ≤ h.blocks.length → addrI hE j = addrI h j := by
    intro j hj
    rw [addrI_take_pre hE h.blocks _ hsplitE j hj]
    show _ = dA (h.blocks.take j)
    unfold dA
    rw [firstAddr_eq]
  have hEbrk : brkAddr hE = brkAddr h + (size0 + 16) := by
    unfold brkAddr
    rw [hsplitE, sumExt_append, sumExt_cons, sumExt_nil, blockExtent_def]
    simp only [List.length_replicate]
    omega
  have hfp : brkAddr h = addrI hE h.blocks.length := by
    rw [hEale h.blocks.length (by omega), addrI_length]
  have hWFE : ∀ j, j < hE.blocks.length → WFb (blkD hE j) := by
    intro j hj
    rw [hElen] at hj
    rcases Nat.lt_or_ge j h.blocks.length with hjl | hjl
    · rw [hElt j hjl]
      exact hWF j hjl
    · have hje : j = h.blocks.length := by omega
      rw [hje, hEat]
      refine ⟨rfl, by show size0 % 8 ≤ 1; omega, ?_, ?_⟩
      · show size0 / 8 = (List.replicate (size0 / 8) 0).length
        simp
      · show 2 ≤ (List.replicate (size0 / 8) 0).length
        simp
        omega
  have hfreeE : allocB (blkD hE h.blocks.length) = FREE := by
    rw [hEat]
    show size0 % 2 = 0
    obtain ⟨c, rfl⟩ := hdvd
    omega
  have hNS : ∀ j, j + 1 < h.blocks.length → allocB (blkD h j) = ALLOCATED
      ∨ allocB (blkD h (j + 1)) = ALLOCATED :=
    fun j hj => (noAdj_iff h.blocks).mp hNAF j hj
  have hnafE : ∀ j, j + 1 < hE.blocks.length → allocB (blkD hE j) = FREE →
      allocB (blkD hE (j + 1)) = FREE → j = h.blocks.length ∨ j + 1 = h.blocks.length := by
    intro j hj hf1 hf2
    rw [hElen] at hj
    rcases Nat.lt_or_ge (j + 1) h.blocks.length with hjl | hjl
    · rw [hElt j (by omega)] at hf1
      rw [hElt (j + 1) hjl] at hf2
      rcases hNS j hjl with hd | hd
      · rw [hf1] at hd
        exact absurd hd (by decide)
      · rw [hf2] at hd
        exact absurd hd (by decide)
    · omega
  have hmapE : ∀ y, y ∈ freeStarts h →
      (y ∈ freeStarts hE
        ∧ GET_NEXT_FREE hE y = GET_NEXT_FREE h y
        ∧ GET_PREV_FREE hE y = GET_PREV_FREE h y) := by
    intro y hy
    obtain ⟨jy, hjy, hyx, hyf⟩ := (mem_freeStarts h y).mp hy
    have hwp := (hWF jy hjy).2.2.2
    have hb : blkD hE jy = blkD h jy := hElt jy hjy
    have ha : addrI hE jy = addrI h jy := hEale jy (by omega)
    refine ⟨(mem_freeStarts hE y).mpr ⟨jy, by omega, by rw [hyx, ha],
      by rw [hb]; exact hyf⟩, ?_, ?_⟩
    · rw [hyx, ← ha, GET_NEXT_FREE_i hE jy (by omega) (by rw [hb]; omega),
          ha, GET_NEXT_FREE_i h jy hjy (by omega), hb]
    · rw [hyx, ← ha, GET_PREV_FREE_i hE jy (by omega) (by rw [hb]; omega),
          ha, GET_PREV_FREE_i h jy hjy (by omega), hb]
  have hflE : hE.free_list = h.free_list := by rw [hEdef]
  have hchainE : chainSegB hE hE.free_list l 0 = true := by
    rw [hflE]
    exact chainSegB_mono h hE l (fun y hy hyf => (hmapE y hyf).1)
      (fun y hy => (hmapE y (hl_fs y hy)).2.1) _ _ hchain
  have hprevsE : prevsB hE 0 l = true := by
    rw [prevsB_congr h hE l (fun y hy => (hmapE y (hl_fs y hy)).2.2)]
    exact hprevs
  have hnotinE : addrI hE h.blocks.length ∉ l := by
    intro hcm
    obtain ⟨jy, hjy, hyx, hyf⟩ := (mem_freeStarts h _).mp (hl_fs _ hcm)
    have := addrI_mono h jy h.blocks.length hjy (by omega)
    rw [addrI_length] at this
    rw [← hfp] at hyx
    omega
  have hcompE : ∀ x, x ∈ freeStarts hE → x ∈ l ∨ x = addrI hE h.blocks.length := by
    intro x hx
    obtain ⟨jy, hjy, hyx, hyf⟩ := (mem_freeStarts hE x).mp hx
    rw [hElen] at hjy
    rcases Nat.lt_or_ge jy h.blocks.length with hjl | hjl
    · refine Or.inl (hcomp x ((mem_freeStarts h x).mpr
        ⟨jy, hjl, by rw [hyx, hEale jy (by omega)], by rw [← hElt jy hjl]; exact hyf⟩))
    · have hje : jy = h.blocks.length := by omega
      exact Or.inr (by rw [hyx, hje])
  rw [hfp] at hresdef
  have hpost := unlock_master hE h.blocks.length l (by omega) hWFE hnafE hchainE
    hprevsE hnd hnotinE hcompE
  rw [← hresdef] at hpost
  refine ⟨hpost, hElen, hEbrk, by rw [hEdef], hElt, hEale, ?_⟩
  rw [hEat]
  simp

/-- Distinct blocks have distinct data addresses. -/
theorem addrI_inj_ne (h : Heap) (i j : Nat) (hi : i < h.blocks.length)
    (hj : j < h.blocks.length) (hij : i ≠ j) : addrI h i ≠ addrI h j := by
  rcases Nat.lt_trichotomy i j with hlt | heq | hlt
  · have := addrI_mono h i j hlt (by omega)
    omega
  · exact absurd heq hij
  · have := addrI_mono h j i hlt (by omega)
    omega

/-- `remove_free_block` of a free block followed by the coalescing
`REDO_HEADERS` that absorbs it into its allocated left neighbor (the heart
of `relock`'s in-place grow path, lines 416-433): invariants are restored
with the enlarged block allocated and its payload extending the old one. -/
theorem remove_merge_core (h : Heap) (i : Nat) (l : List Nat)
    (hi1 : i + 1 < h.blocks.length)
    (hWF : ∀ j, j < h.blocks.length → WFb (blkD h j))
    (hNAF : NAF h)
    (hchain : chainSegB h h.free_list l 0 = true)
    (hprevs : prevsB h 0 l = true)
    (hnd : l.Nodup)
    (hcomp : ∀ x, x ∈ freeStarts h → x ∈ l)
    (halloc : allocB (blkD h i) = ALLOCATED)
    (hfree1 : allocB (blkD h (i + 1)) = FREE) :
    ∀ h1 hM, h1 = remove_free_block h (addrI h (i + 1)) →
    hM = REDO_HEADERS h1 (addrI h i)
        (8 * (blkD h i).payload.length + 16 + 8 * (blkD h (i + 1)).payload.length)
        ALLOCATED →
    (blkD h1 i).payload.length = (blkD h i).payload.length
    ∧ (blkD h1 (i + 1)).payload.length = (blkD h (i + 1)).payload.length
    ∧ ∃ lM,
      hM.blocks.length + 1 = h.blocks.length
      ∧ (∀ j, j ≤ i → addrI hM j = addrI h j)
      ∧ (∀ j, i < j → addrI hM j = addrI h (j + 1))
      ∧ (∀ j, j < hM.blocks.length → WFb (blkD hM j))
      ∧ NAF hM
      ∧ chainSegB hM hM.free_list lM 0 = true
      ∧ prevsB hM 0 lM = true
      ∧ lM.Nodup
      ∧ (∀ z, z ∈ freeStarts hM → z ∈ lM)
      ∧ addrI hM i ∉ lM
      ∧ allocB (blkD hM i) = ALLOCATED
      ∧ (blkD hM i).payload.length
          = (blkD h i).payload.length + 2 + (blkD h (i + 1)).payload.length
      ∧ (blkD hM i).payload.take (blkD h i).payload.length = (blkD h i).payload
      ∧ brkAddr hM = brkAddr h ∧ hM.limit = h.limit
      ∧ (∀ j, addrI h1 j = addrI h j)
      ∧ h1.blocks.length = h.blocks.length
      ∧ blkD h1 i = blkD h i
      ∧ blkD hM i = ⟨8 * (blkD h1 i).payload.length + 16
            + 8 * (blkD h1 (i + 1)).payload.length + ALLOCATED,
          (blkD h1 i).payload ++ (blkD h1 i).tag :: (blkD h1 (i + 1)).hdr
            :: (blkD h1 (i + 1)).payload,
          8 * (blkD h1 i).payload.length + 16
            + 8 * (blkD h1 (i + 1)).payload.length + ALLOCATED⟩ := by
  intro h1 hM hdef1 hdefM
  set x := addrI h (i + 1) with hx
  have hxfs0 : x ∈ freeStarts h := (mem_freeStarts h x).mpr ⟨i + 1, by omega, rfl, hfree1⟩
  have hmem : x ∈ l := hcomp x hxfs0
  obtain ⟨l1, l2, hsplit⟩ := List.append_of_mem hmem
  have hndf : x ∉ l1 ∧ x ∉ l2 ∧ l1.Nodup ∧ l2.Nodup ∧ ∀ y ∈ l1, y ∉ l2 := by
    rw [hsplit] at hnd
    simp [List.nodup_append, List.nodup_cons, List.disjoint_left] at hnd
    obtain ⟨ha1, ⟨h2a, h2b⟩, h4x⟩ := hnd
    exact ⟨fun hxm => (h4x hxm).1 rfl, h2a, ha1, h2b, fun y hy hyl2 => (h4x hy).2 hyl2⟩
  obtain ⟨hxl1, hxl2, hnd1, hnd2, hdisj⟩ := hndf
  obtain ⟨hc1, hxfs, hc2⟩ := chainSegB_split h l1 l2 h.free_list x 0
    (by rw [← hsplit]; exact hchain)
  have hnx : GET_NEXT_FREE h x = l2.headD 0 := chainSegB_headD h l2 _ 0 hc2
  obtain ⟨hp1, hpx, hp2⟩ := prevsB_split h l1 l2 x 0 (by rw [← hsplit]; exact hprevs)
  have hm1 : ∀ y ∈ l1, y ∈ freeStarts h := chainSegB_mem h l1 _ _ hc1
  have hm2 : ∀ y ∈ l2, y ∈ freeStarts h := chainSegB_mem h l2 _ _ hc2
  have hlen2 : ∀ j, j < h.blocks.length → 2 ≤ (blkD h j).payload.length :=
    fun j hj => (hWF j hj).2.2.2
  obtain ⟨rlen, rshape, raddr, rframe, rfs, rchain, rprevs, rlim⟩ :=
    remove_master h x l1 l2 hlen2 hnx hpx hc1 (by rw [← hnx]; exact hc2) hp1 hp2
      (by rw [← hsplit]; exact hnd)
  rw [← hdef1] at rlen rshape raddr rframe rfs rchain rprevs rlim
  have hplen_i : (blkD h1 i).payload.length = (blkD h i).payload.length := (rshape i).2.2
  have hplen_i1 : (blkD h1 (i + 1)).payload.length = (blkD h (i + 1)).payload.length :=
    (rshape (i + 1)).2.2
  refine ⟨hplen_i, hplen_i1, ?_⟩
  have hWF1 : ∀ j, j < h1.blocks.length → WFb (blkD h1 j) := by
    intro j hj
    exact WFb_transport (blkD h j) (blkD h1 j) (rshape j).1 (rshape j).2.1 (rshape j).2.2
      (hWF j (by omega))
  have hal1 : ∀ j, allocB (blkD h1 j) = allocB (blkD h j) := fun j =>
    allocB_transport (blkD h j) (blkD h1 j) (rshape j).1
  have hi1x : i + 1 < h1.blocks.length := by omega
  have hx1 : addrI h1 (i + 1) = x := by rw [raddr]
  have hxi : addrI h1 i = addrI h i := raddr i
  obtain ⟨mlen, mlt, mgt, male, magt, mWF, malloc, mplen, mgetlo, mgethi,
      mnfk, mpfk, mnfk1, mpfk1, mfs, mbrk, mfl, mlim, mblk⟩ :=
    merge_step_spec h1 i ALLOCATED (by decide) hi1x (hWF1 i (by omega))
      (hWF1 (i + 1) (by omega)) hM
      (by rw [hxi, hplen_i, hplen_i1]; exact hdefM)
  have hMlen : hM.blocks.length + 1 = h.blocks.length := by omega
  have haleM : ∀ j, j ≤ i → addrI hM j = addrI h j := fun j hj => (male j hj).trans (raddr j)
  have hagtM : ∀ j, i < j → addrI hM j = addrI h (j + 1) := fun j hj =>
    (magt j hj).trans (raddr (j + 1))
  have hWFM_all : ∀ j, j < hM.blocks.length → WFb (blkD hM j) := by
    intro j hj
    rcases Nat.lt_trichotomy j i with hlt | heq | hlt
    · rw [mlt j hlt]
      exact hWF1 j (by omega)
    · rw [heq]
      exact mWF
    · rw [mgt j hlt]
      exact hWF1 (j + 1) (by omega)
  have hNAFh := (noAdj_iff h.blocks).mp hNAF
  have hNAFh2 : ∀ j, j + 1 < h.blocks.length →
      allocB (blkD h j) = ALLOCATED ∨ allocB (blkD h (j + 1)) = ALLOCATED :=
    fun j hj => hNAFh j hj
  have hNAFM : NAF hM := by
    unfold NAF
    rw [noAdj_iff]
    intro j hj
    show allocB (blkD hM j) = ALLOCATED ∨ allocB (blkD hM (j + 1)) = ALLOCATED
    rcases Nat.lt_trichotomy (j + 1) i with hlt | heq | hlt
    · have e1 : allocB (blkD hM j) = allocB (blkD h j) := by
        rw [mlt j (by omega)]
        exact hal1 j
      have e2 : allocB (blkD hM (j + 1)) = allocB (blkD h (j + 1)) := by
        rw [mlt (j + 1) hlt]
        exact hal1 (j + 1)
      rw [e1, e2]
      exact hNAFh2 j (by omega)
    · right
      rw [← heq] at malloc
      exact malloc
    · rcases Nat.lt_or_ge i j with hij | hij
      · have e1 : allocB (blkD hM j) = allocB (blkD h (j + 1)) := by
          rw [mgt j hij]
          exact hal1 (j + 1)
        have e2 : allocB (blkD hM (j + 1)) = allocB (blkD h (j + 2)) := by
          rw [mgt (j + 1) (by omega)]
          exact hal1 (j + 2)
        rw [e1, e2]
        exact hNAFh2 (j + 1) (by omega)
      · have hij2 : j = i := by omega
        left
        rw [hij2]
        exact malloc
  have hlink_other : ∀ y, y ∈ freeStarts h1 → y ≠ addrI h1 i → y ≠ addrI h1 (i + 1) →
      GET_NEXT_FREE hM y = GET_NEXT_FREE h1 y
        ∧ GET_PREV_FREE hM y = GET_PREV_FREE h1 y := by
    intro y hy hyk hyk1
    obtain ⟨jy, hjy, hyx, hyf⟩ := (mem_freeStarts h1 y).mp hy
    obtain ⟨-, -, -, wp⟩ := hWF1 jy hjy
    have hjk : jy ≠ i := fun he => hyk (by rw [hyx, he])
    have hjk1 : jy ≠ i + 1 := fun he => hyk1 (by rw [hyx, he])
    rcases Nat.lt_or_ge jy i with hlt | hge
    · have e1 : GET_NEXT_FREE hM y = (blkD hM jy).payload.getD 0 0 := by
        rw [hyx, ← male jy (by omega)]
        exact GET_NEXT_FREE_i hM jy (by omega) (by rw [mlt jy hlt]; omega)
      have e2 : GET_PREV_FREE hM y = (blkD hM jy).payload.getD 1 0 := by
        rw [hyx, ← male jy (by omega)]
        exact GET_PREV_FREE_i hM jy (by omega) (by rw [mlt jy hlt]; omega)
      have e3 : GET_NEXT_FREE h1 y = (blkD h1 jy).payload.getD 0 0 := by
        rw [hyx]
        exact GET_NEXT_FREE_i h1 jy hjy (by omega)
      have e4 : GET_PREV_FREE h1 y = (blkD h1 jy).payload.getD 1 0 := by
        rw [hyx]
        exact GET_PREV_FREE_i h1 jy hjy (by omega)
      rw [e1, e2, e3, e4, mlt jy hlt]
      exact ⟨rfl, rfl⟩
    · have hgt2 : i + 1 < jy := by omega
      have hj1 : i < jy - 1 := by omega
      have hjeq : jy - 1 + 1 = jy := by omega
      have e1 : GET_NEXT_FREE hM y = (blkD hM (jy - 1)).payload.getD 0 0 := by
        rw [hyx, ← hjeq, ← magt (jy - 1) hj1]
        exact GET_NEXT_FREE_i hM (jy - 1) (by omega)
          (by rw [mgt (jy - 1) hj1, hjeq]; omega)
      have e2 : GET_PREV_FREE hM y = (blkD hM (jy - 1)).payload.getD 1 0 := by
        rw [hyx, ← hjeq, ← magt (jy - 1) hj1]
        exact GET_PREV_FREE_i hM (jy - 1) (by omega)
          (by rw [mgt (jy - 1) hj1, hjeq]; omega)
      have e3 : GET_NEXT_FREE h1 y = (blkD h1 jy).payload.getD 0 0 := by
        rw [hyx]
        exact GET_NEXT_FREE_i h1 jy hjy (by omega)
      have e4 : GET_PREV_FREE h1 y = (blkD h1 jy).payload.getD 1 0 := by
        rw [hyx]
        exact GET_PREV_FREE_i h1 jy hjy (by omega)
      rw [e1, e2, e3, e4, mgt (jy - 1) hj1, hjeq]
      exact ⟨rfl, rfl⟩
  have hmemfacts : ∀ y, y ∈ l1 ++ l2 →
      y ∈ freeStarts h1 ∧ y ≠ addrI h1 i ∧ y ≠ addrI h1 (i + 1) := by
    intro y hy
    have hyh : y ∈ freeStarts h := by
      rcases List.mem_append.mp hy with hy2 | hy2
      · exact hm1 y hy2
      · exact hm2 y hy2
    refine ⟨(rfs y).mpr hyh, ?_, ?_⟩
    · rw [hxi]
      intro he
      exact alloc_addr_not_free h i (by omega) halloc (he ▸ hyh)
    · rw [hx1]
      intro he
      rcases List.mem_append.mp hy with hy2 | hy2
      · exact hxl1 (he ▸ hy2)
      · exact hxl2 (he ▸ hy2)
  have hfsM_mem : ∀ y ∈ l1 ++ l2, y ∈ freeStarts hM ↔ y ∈ freeStarts h1 := by
    intro y hy
    obtain ⟨hy1, hyi, hyi1⟩ := hmemfacts y hy
    rw [mfs y]
    constructor
    · rintro (⟨hcon, -⟩ | ⟨hf, -, -⟩)
      · exact absurd hcon (by decide)
      · exact hf
    · intro hf
      exact Or.inr ⟨hf, hyi, hyi1⟩
  have hchainM : chainSegB hM hM.free_list (l1 ++ l2) 0 = true := by
    rw [mfl]
    rw [chainSegB_congr_mem h1 hM (l1 ++ l2) hfsM_mem
      (fun y hy => (hlink_other y (hmemfacts y hy).1 (hmemfacts y hy).2.1
        (hmemfacts y hy).2.2).1)]
    exact rchain
  have hprevsM : prevsB hM 0 (l1 ++ l2) = true := by
    rw [prevsB_congr h1 hM (l1 ++ l2)
      (fun y hy => (hlink_other y (hmemfacts y hy).1 (hmemfacts y hy).2.1
        (hmemfacts y hy).2.2).2)]
    exact rprevs
  have hndM : (l1 ++ l2).Nodup := by
    rw [List.nodup_append]
    exact ⟨hnd1, hnd2, fun a ha hb => hdisj a ha hb⟩
  have hcompM : ∀ z, z ∈ freeStarts hM → z ∈ l1 ++ l2 := by
    intro z hz
    rcases (mfs z).mp hz with ⟨hcon, -⟩ | ⟨hf, hzi, hzi1⟩
    · exact absurd hcon (by decide)
    · have hzh : z ∈ freeStarts h := (rfs z).mp hf
      have hzl : z ∈ l := hcomp z hzh
      rw [hsplit] at hzl
      rcases List.mem_append.mp hzl with hz1 | hz1
      · exact List.mem_append.mpr (Or.inl hz1)
      · rcases List.mem_cons.mp hz1 with hz2 | hz2
        · rw [hx1] at hzi1
          exact absurd hz2 hzi1
        · exact List.mem_append.mpr (Or.inr hz2)
  have hnotinM : addrI hM i ∉ l1 ++ l2 := by
    rw [haleM i (Nat.le_refl i)]
    intro hc
    have hmemf : addrI h i ∈ freeStarts h := by
      rcases List.mem_append.mp hc with hc2 | hc2
      · exact hm1 _ hc2
      · exact hm2 _ hc2
    exact alloc_addr_not_free h i (by omega) halloc hmemf
  have hfr_i : blkD h1 i = blkD h i := by
    apply rframe i (by omega)
    · intro hc
      exact alloc_addr_not_free h i (by omega) halloc (hm1 _ hc)
    · intro hc
      exact alloc_addr_not_free h i (by omega) halloc (hm2 _ hc)
  have hplenM2 : (blkD hM i).payload.length
      = (blkD h i).payload.length + 2 + (blkD h (i + 1)).payload.length := by
    rw [mplen, hplen_i, hplen_i1]
  have hprefix : (blkD hM i).payload.take (blkD h i).payload.length
      = (blkD h i).payload := by
    apply take_eq_of_getD
    · rw [hplenM2]
      omega
    · rfl
    · intro t ht
      have hg := mgetlo t (by rw [hplen_i]; exact ht)
      rw [hfr_i] at hg
      exact hg
  have hbrk1 : brkAddr h1 = brkAddr h := brk_of_addr h h1 rlen raddr
  exact ⟨l1 ++ l2, hMlen, haleM, hagtM, hWFM_all, hNAFM, hchainM, hprevsM, hndM,
    hcompM, hnotinM, malloc, hplenM2, hprefix, mbrk.trans hbrk1, mlim.trans rlim,
    raddr, rlen, hfr_i, mblk⟩

/-- Rewriting the header and tag of the freshly carved second block at
index `i + 1` in place. -/
theorem redo_second_same (h1 h2 : Heap) (i : Nat) (B R : Block)
    (hdef : h2 = { h1 with blocks := h1.blocks.take i ++ B :: R :: h1.blocks.drop (i + 2) }) :
    REDO_HEADERS h2 (dA (h1.blocks.take i) + blockExtent B) (8 * R.payload.length) FREE
      = { h1 with blocks := h1.blocks.take i
          ++ B :: (⟨pack (8 * R.payload.length) FREE, R.payload,
              pack (8 * R.payload.length) FREE⟩ : Block)
          :: h1.blocks.drop (i + 2) } := by
  have hsplit : h2.blocks = (h1.blocks.take i ++ [B]) ++ R :: h1.blocks.drop (i + 2) := by
    rw [hdef]
    simp
  have hda : dA (h1.blocks.take i ++ [B]) = dA (h1.blocks.take i) + blockExtent B :=
    dA_append _ _
  have hres := REDO_same h2 (h1.blocks.take i ++ [B]) R (h1.blocks.drop (i + 2))
    (8 * R.payload.length) FREE hsplit rfl
  rw [hda] at hres
  rw [hres, hdef]
  simp

/-- The in-place grow path of `relock` when the whole free right neighbor
is absorbed (lines 420-433, leftover zero or below the minimum block
size): remove the neighbor from the free list and relabel the merged
region allocated. -/
theorem grow_merge_full (h : Heap) (i : Nat) (l : List Nat)
    (hi1 : i + 1 < h.blocks.length)
    (hWF : ∀ j, j < h.blocks.length → WFb (blkD h j))
    (hNAF : NAF h)
    (hchain : chainSegB h h.free_list l 0 = true)
    (hprevs : prevsB h 0 l = true)
    (hnd : l.Nodup)
    (hcomp : ∀ x, x ∈ freeStarts h → x ∈ l)
    (halloc : allocB (blkD h i) = ALLOCATED)
    (hfree1 : allocB (blkD h (i + 1)) = FREE)
    (hbrk : brkAddr h < MOD) :
    ∀ h1 res, h1 = remove_free_block h (addrI h (i + 1)) →
    res = REDO_HEADERS h1 (addrI h i)
        (8 * (blkD h i).payload.length + 16 + 8 * (blkD h (i + 1)).payload.length)
        ALLOCATED →
    (∀ j, j < res.blocks.length → WFb (blkD res j))
    ∧ NAF res
    ∧ (∃ lR, FL res lR)
    ∧ res.limit = h.limit
    ∧ brkAddr res = brkAddr h
    ∧ (∃ j2, j2 < res.blocks.length ∧ addrI res j2 = addrI h i
        ∧ allocB (blkD res j2) = ALLOCATED
        ∧ (blkD res j2).payload.take (blkD h i).payload.length = (blkD h i).payload) := by
  intro h1 res hdef1 hdefM
  obtain ⟨hp1, hq1, lM, hMlen, haleM, hagtM, hWFM, hNAFM, hchainM, hprevsM, hndM,
      hcompM, hnotinM, mall, mplen, mpref, mbrk, mlim, -, -, -, -⟩ :=
    remove_merge_core h i l hi1 hWF hNAF hchain hprevs hnd hcomp halloc hfree1
      h1 res hdef1 hdefM
  exact ⟨hWFM, hNAFM, ⟨lM, hchainM, hprevsM, hndM, fun z hz => Or.inl (hcompM z hz)⟩,
    mlim, mbrk, ⟨i, by omega, haleM i (Nat.le_refl i), mall, mpref⟩⟩

/-- Shape of a heap in which the two blocks at `i, i + 1` have been
replaced in place by two fresh blocks. -/
theorem splice2_shape (h H2 : Heap) (i : Nat) (A B : Block)
    (hi : i + 1 < h.blocks.length)
    (hdef : H2 = { h with blocks := h.blocks.take i ++ A :: B :: h.blocks.drop (i + 2) }) :
    H2.blocks.length = h.blocks.length
    ∧ blkD H2 i = A ∧ blkD H2 (i + 1) = B
    ∧ (∀ j, j ≤ i → addrI H2 j = addrI h j) := by
  have htk : (h.blocks.take i).length = i := by
    rw [List.length_take]
    omega
  have hblocks : H2.blocks = h.blocks.take i ++ A :: B :: h.blocks.drop (i + 2) := by
    rw [hdef]
  refine ⟨?_, ?_, ?_, ?_⟩
  · rw [hblocks]
    simp only [List.length_append, List.length_cons, List.length_drop]
    omega
  · show H2.blocks.getD i default = A
    rw [hblocks, List.getD_append_right _ _ _ _ (by omega),
        show i - (h.blocks.take i).length = 0 from by omega]
    rfl
  · show H2.blocks.getD (i + 1) default = B
    rw [hblocks, List.getD_append_right _ _ _ _ (by omega),
        show i + 1 - (h.blocks.take i).length = 1 from by omega]
    rfl
  · intro j hj
    show dA (H2.blocks.take j) = dA (h.blocks.take j)
    rw [hblocks, List.take_append_of_le_length (by omega), List.take_take,
        Nat.min_eq_left hj]

/-- `redo_second_same` with the address and size supplied as values. -/
theorem redo_second_same2 (h1 h2 : Heap) (i : Nat) (B R : Block) (ad sz : Nat)
    (hdef : h2 = { h1 with blocks := h1.blocks.take i ++ B :: R :: h1.blocks.drop (i + 2) })
    (had : ad = dA (h1.blocks.take i) + blockExtent B)
    (hsz : sz = 8 * R.payload.length) :
    REDO_HEADERS h2 ad sz FREE
      = { h1 with blocks := h1.blocks.take i
          ++ B :: (⟨pack sz FREE, R.payload, pack sz FREE⟩ : Block)
          :: h1.blocks.drop (i + 2) } := by
  rw [had, hsz]
  exact redo_second_same h1 h2 i B R hdef

/-- The two carve orders coincide after the remainder's headers are
rewritten: carving `8 * k` bytes directly out of the pair of blocks
`i, i + 1` and then relabelling the remainder equals first coalescing the
pair and then splitting the merged block at the same position. -/
theorem carve_eq (h1 : Heap) (i k : Nat)
    (hi1 : i + 1 < h1.blocks.length)
    (hp2 : 2 ≤ (blkD h1 i).payload.length)
    (hkp : (blkD h1 i).payload.length + 1 ≤ k)
    (hkq : k + 2 ≤ (blkD h1 i).payload.length + (blkD h1 (i + 1)).payload.length) :
    ∀ hM, hM = REDO_HEADERS h1 (addrI h1 i)
        (8 * (blkD h1 i).payload.length + 16 + 8 * (blkD h1 (i + 1)).payload.length)
        ALLOCATED →
    REDO_HEADERS (REDO_HEADERS h1 (addrI h1 i) (8 * k) ALLOCATED)
        (addrI h1 i + 8 * k + 16)
        (8 * ((blkD h1 i).payload.length + (blkD h1 (i + 1)).payload.length - k)) FREE
      = REDO_HEADERS (REDO_HEADERS hM (addrI h1 i) (8 * k) ALLOCATED)
        (addrI h1 i + 8 * k + 16)
        (8 * ((blkD h1 i).payload.length + (blkD h1 (i + 1)).payload.length - k))
        FREE
    ∧ GET_SIZE (REDO_HEADERS h1 (addrI h1 i) (8 * k) ALLOCATED) (addrI h1 i)
        = 8 * k := by
  intro hM hMeq
  have hWtake : (h1.blocks.take i).length = i := by
    rw [List.length_take]
    omega
  have hqlen2 : 2 ≤ (blkD h1 (i + 1)).payload.length := by omega
  set Mb : Block := ⟨pack (8 * (blkD h1 i).payload.length + 16 + 8 * (blkD h1 (i + 1)).payload.length) ALLOCATED, (blkD h1 i).payload ++ (blkD h1 i).tag :: (blkD h1 (i + 1)).hdr :: (blkD h1 (i + 1)).payload, pack (8 * (blkD h1 i).payload.length + 16 + 8 * (blkD h1 (i + 1)).payload.length) ALLOCATED⟩ with hMb
  have hMeq2 : hM = { h1 with blocks := h1.blocks.take i ++ Mb :: h1.blocks.drop (i + 2) } := by
    rw [hMeq, hMb]
    exact REDO_merge2_i h1 i ALLOCATED hi1
  have hMbpay : Mb.payload = (blkD h1 i).payload ++ (blkD h1 i).tag
      :: (blkD h1 (i + 1)).hdr :: (blkD h1 (i + 1)).payload := by
    rw [hMb]
  have hMbtag : Mb.tag = pack (8 * (blkD h1 i).payload.length + 16
      + 8 * (blkD h1 (i + 1)).payload.length) ALLOCATED := by
    rw [hMb]
  obtain ⟨sMlen, sMlt, sMat, sMgt, sMale, sMagt, sMbrk, sMfl, sMlim⟩ :=
    merge2_shape h1 hM i Mb hi1
      (by rw [hMb, blockExtent_def, blockExtent_def, blockExtent_def]
          simp only [List.length_append, List.length_cons]
          omega)
      hMeq2
  have hiM : i < hM.blocks.length := by omega
  have haMi : addrI hM i = addrI h1 i := sMale i (Nat.le_refl i)
  have hsplitM := REDO_split_i hM i k ALLOCATED hiM
    (by rw [sMat, hMbpay]
        simp only [List.length_append, List.length_cons]
        omega)
  rw [haMi, sMat, hMbpay, hMbtag] at hsplitM
  have hMtake : hM.blocks.take i = h1.blocks.take i := by
    rw [hMeq2]
    show (h1.blocks.take i ++ Mb :: h1.blocks.drop (i + 2)).take i = h1.blocks.take i
    rw [List.take_append_of_le_length (by omega), List.take_take, Nat.min_self]
  have hMdrop : hM.blocks.drop (i + 1) = h1.blocks.drop (i + 2) := by
    rw [hMeq2]
    show (h1.blocks.take i ++ Mb :: h1.blocks.drop (i + 2)).drop (i + 1) = _
    rw [List.drop_append_eq_append_drop, List.drop_of_length_le (by omega),
        show i + 1 - (h1.blocks.take i).length = 1 from by omega]
    simp
  rw [hMtake, hMdrop] at hsplitM
  have hTk : ((blkD h1 i).payload ++ (blkD h1 i).tag :: (blkD h1 (i + 1)).hdr
      :: (blkD h1 (i + 1)).payload).take k
      = (blkD h1 i).payload ++ ((blkD h1 i).tag :: (blkD h1 (i + 1)).hdr
          :: (blkD h1 (i + 1)).payload).take (k - (blkD h1 i).payload.length) := by
    rw [List.take_append_eq_append_take, List.take_of_length_le (by omega)]
  have hGk : ((blkD h1 i).payload ++ (blkD h1 i).tag :: (blkD h1 (i + 1)).hdr
      :: (blkD h1 (i + 1)).payload).getD (k + 1) 0
      = (blkD h1 (i + 1)).payload.getD (k - (blkD h1 i).payload.length - 1) 0 := by
    rw [List.getD_append_right _ _ 0 _ (by omega)]
    rw [show k + 1 - (blkD h1 i).payload.length
        = (k - (blkD h1 i).payload.length - 1) + 2 from by omega]
    rfl
  have hDk : ((blkD h1 i).payload ++ (blkD h1 i).tag :: (blkD h1 (i + 1)).hdr
      :: (blkD h1 (i + 1)).payload).drop (k + 2)
      = (blkD h1 (i + 1)).payload.drop (k - (blkD h1 i).payload.length) := by
    rw [List.drop_append_eq_append_drop, List.drop_of_length_le (by omega)]
    rw [show k + 2 - (blkD h1 i).payload.length
        = (k - (blkD h1 i).payload.length) + 2 from by omega]
    simp
  rw [hTk, hGk, hDk] at hsplitM
  rcases Nat.eq_or_lt_of_le hkp with heq | hlt
  · -- k = payload + 1: the carve's tag lands on the next block's header slot
    have hdirect := REDO_mergehdr_i h1 i ALLOCATED hi1
    rw [show 8 * (blkD h1 i).payload.length + 8 = 8 * k from by omega] at hdirect
    have e1 : ((blkD h1 i).tag :: (blkD h1 (i + 1)).hdr
        :: (blkD h1 (i + 1)).payload).take (k - (blkD h1 i).payload.length)
        = [(blkD h1 i).tag] := by
      rw [show k - (blkD h1 i).payload.length = 1 from by omega]
      rfl
    have e2 : k - (blkD h1 i).payload.length - 1 = 0 := by omega
    have e3 : k - (blkD h1 i).payload.length = 1 := by omega
    rw [e1, e2, e3] at hsplitM
    have e4 : (blkD h1 i).payload ++ [(blkD h1 i).tag]
        = (blkD h1 i).payload ++ [(blkD h1 i).tag] := rfl
    set B1 : Block := ⟨pack (8 * k) ALLOCATED, (blkD h1 i).payload ++ [(blkD h1 i).tag], pack (8 * k) ALLOCATED⟩ with hB1
    set R1 : Block := ⟨(blkD h1 (i + 1)).payload.getD 0 0, (blkD h1 (i + 1)).payload.drop 1, (blkD h1 (i + 1)).tag⟩ with hR1
    set R2 : Block := ⟨(blkD h1 (i + 1)).payload.getD 0 0, (blkD h1 (i + 1)).payload.drop 1, pack (8 * (blkD h1 i).payload.length + 16 + 8 * (blkD h1 (i + 1)).payload.length) ALLOCATED⟩ with hR2
    have hlenB : ((blkD h1 i).payload ++ [(blkD h1 i).tag]).length = k := by
      simp only [List.length_append, List.length_cons, List.length_nil]
      omega
    have hWFA : WFb B1 := by
      rw [hB1]
      refine ⟨rfl, ?_, ?_, ?_⟩
      · show pack (8 * k) ALLOCATED % 8 ≤ 1
        rw [pack_eq_add ⟨k, rfl⟩ (by decide), ALLOCATED_eq]
        omega
      · show pack (8 * k) ALLOCATED / 8
          = ((blkD h1 i).payload ++ [(blkD h1 i).tag]).length
        rw [pack_eq_add ⟨k, rfl⟩ (by decide), ALLOCATED_eq, hlenB]
        omega
      · show 2 ≤ ((blkD h1 i).payload ++ [(blkD h1 i).tag]).length
        rw [hlenB]
        omega
    obtain ⟨hlen2, hbA, hbB, haddr2⟩ := splice2_shape h1 _ i B1 R1 hi1 hdirect
    refine ⟨?_, ?_⟩
    swap
    · have hgoal := GET_SIZE_i (REDO_HEADERS h1 (addrI h1 i) (8 * k) ALLOCATED) i
        (by omega) (by rw [hbA]; exact hWFA)
      rw [haddr2 i (Nat.le_refl i), hbA] at hgoal
      rw [hgoal, hB1]
      show 8 * ((blkD h1 i).payload ++ [(blkD h1 i).tag]).length = 8 * k
      rw [hlenB]
    · have hbase : ({ hM with blocks := h1.blocks.take i ++ B1 :: R2 :: h1.blocks.drop (i + 2) } : Heap)
          = { h1 with blocks := h1.blocks.take i ++ B1 :: R2 :: h1.blocks.drop (i + 2) } := by
        rw [hMeq2]
      rw [hbase] at hsplitM
      have had : addrI h1 i + 8 * k + 16 = dA (h1.blocks.take i) + blockExtent B1 := by
        rw [hB1, blockExtent_def]
        show addrI h1 i + 8 * k + 16
          = dA (h1.blocks.take i)
            + (8 * ((blkD h1 i).payload ++ [(blkD h1 i).tag]).length + 16)
        rw [show dA (h1.blocks.take i) = addrI h1 i from rfl]
        simp only [List.length_append, List.length_cons, List.length_nil]
        omega
      have hszL : 8 * ((blkD h1 i).payload.length + (blkD h1 (i + 1)).payload.length - k)
          = 8 * R1.payload.length := by
        rw [hR1]
        show _ = 8 * ((blkD h1 (i + 1)).payload.drop 1).length
        rw [List.length_drop]
        omega
      have hszR : 8 * ((blkD h1 i).payload.length + (blkD h1 (i + 1)).payload.length - k)
          = 8 * R2.payload.length := by
        rw [hR2]
        show _ = 8 * ((blkD h1 (i + 1)).payload.drop 1).length
        rw [List.length_drop]
        omega
      have hL := redo_second_same2 h1 _ i B1 R1 (addrI h1 i + 8 * k + 16)
        (8 * ((blkD h1 i).payload.length + (blkD h1 (i + 1)).payload.length - k))
        rfl had hszL
      have hR := redo_second_same2 h1 _ i B1 R2 (addrI h1 i + 8 * k + 16)
        (8 * ((blkD h1 i).payload.length + (blkD h1 (i + 1)).payload.length - k))
        rfl had hszR
      rw [hdirect, hsplitM, hL, hR]
  · -- payload + 2 ≤ k: the carve cuts inside the next block's payload
    have hk2 : (k - (blkD h1 i).payload.length - 2) + 2
        ≤ (blkD h1 (i + 1)).payload.length := by omega
    have hdirect := REDO_mergesplit_i h1 i (k - (blkD h1 i).payload.length - 2)
      ALLOCATED hi1 hk2
    rw [show 8 * (blkD h1 i).payload.length + 16
        + 8 * (k - (blkD h1 i).payload.length - 2) = 8 * k from by omega] at hdirect
    rw [show k - (blkD h1 i).payload.length - 2 + 1
        = k - (blkD h1 i).payload.length - 1 from by omega,
        show k - (blkD h1 i).payload.length - 2 + 2
        = k - (blkD h1 i).payload.length from by omega] at hdirect
    have e1 : ((blkD h1 i).tag :: (blkD h1 (i + 1)).hdr
        :: (blkD h1 (i + 1)).payload).take (k - (blkD h1 i).payload.length)
        = (blkD h1 i).tag :: (blkD h1 (i + 1)).hdr
          :: (blkD h1 (i + 1)).payload.take (k - (blkD h1 i).payload.length - 2) := by
      rw [show k - (blkD h1 i).payload.length
          = (k - (blkD h1 i).payload.length - 2) + 2 from by omega]
      rfl
    rw [e1] at hsplitM
    set B1 : Block := ⟨pack (8 * k) ALLOCATED, (blkD h1 i).payload ++ (blkD h1 i).tag :: (blkD h1 (i + 1)).hdr :: (blkD h1 (i + 1)).payload.take (k - (blkD h1 i).payload.length - 2), pack (8 * k) ALLOCATED⟩ with hB1
    set R1 : Block := ⟨(blkD h1 (i + 1)).payload.getD (k - (blkD h1 i).payload.length - 1) 0, (blkD h1 (i + 1)).payload.drop (k - (blkD h1 i).payload.length), (blkD h1 (i + 1)).tag⟩ with hR1
    set R2 : Block := ⟨(blkD h1 (i + 1)).payload.getD (k - (blkD h1 i).payload.length - 1) 0, (blkD h1 (i + 1)).payload.drop (k - (blkD h1 i).payload.length), pack (8 * (blkD h1 i).payload.length + 16 + 8 * (blkD h1 (i + 1)).payload.length) ALLOCATED⟩ with hR2
    have hlenB : ((blkD h1 i).payload ++ (blkD h1 i).tag :: (blkD h1 (i + 1)).hdr
        :: (blkD h1 (i + 1)).payload.take (k - (blkD h1 i).payload.length - 2)).length
        = k := by
      simp only [List.length_append, List.length_cons, List.length_take]
      omega
    have hWFA : WFb B1 := by
      rw [hB1]
      refine ⟨rfl, ?_, ?_, ?_⟩
      · show pack (8 * k) ALLOCATED % 8 ≤ 1
        rw [pack_eq_add ⟨k, rfl⟩ (by decide), ALLOCATED_eq]
        omega
      · show pack (8 * k) ALLOCATED / 8
          = ((blkD h1 i).payload ++ (blkD h1 i).tag :: (blkD h1 (i + 1)).hdr
              :: (blkD h1 (i + 1)).payload.take
                (k - (blkD h1 i).payload.length - 2)).length
        rw [pack_eq_add ⟨k, rfl⟩ (by decide), ALLOCATED_eq, hlenB]
        omega
      · show 2 ≤ ((blkD h1 i).payload ++ (blkD h1 i).tag :: (blkD h1 (i + 1)).hdr
            :: (blkD h1 (i + 1)).payload.take
              (k - (blkD h1 i).payload.length - 2)).length
        rw [hlenB]
        omega
    obtain ⟨hlen2, hbA, hbB, haddr2⟩ := splice2_shape h1 _ i B1 R1 hi1 hdirect
    refine ⟨?_, ?_⟩
    swap
    · have hgoal := GET_SIZE_i (REDO_HEADERS h1 (addrI h1 i) (8 * k) ALLOCATED) i
        (by omega) (by rw [hbA]; exact hWFA)
      rw [haddr2 i (Nat.le_refl i), hbA] at hgoal
      rw [hgoal, hB1]
      show 8 * ((blkD h1 i).payload ++ (blkD h1 i).tag :: (blkD h1 (i + 1)).hdr
          :: (blkD h1 (i + 1)).payload.take
            (k - (blkD h1 i).payload.length - 2)).length = 8 * k
      rw [hlenB]
    · have hbase : ({ hM with blocks := h1.blocks.take i ++ B1 :: R2 :: h1.blocks.drop (i + 2) } : Heap)
          = { h1 with blocks := h1.blocks.take i ++ B1 :: R2 :: h1.blocks.drop (i + 2) } := by
        rw [hMeq2]
      rw [hbase] at hsplitM
      have had : addrI h1 i + 8 * k + 16 = dA (h1.blocks.take i) + blockExtent B1 := by
        rw [hB1, blockExtent_def]
        show addrI h1 i + 8 * k + 16
          = dA (h1.blocks.take i)
            + (8 * ((blkD h1 i).payload ++ (blkD h1 i).tag :: (blkD h1 (i + 1)).hdr
                :: (blkD h1 (i + 1)).payload.take
                  (k - (blkD h1 i).payload.length - 2)).length + 16)
        rw [show dA (h1.blocks.take i) = addrI h1 i from rfl]
        simp only [List.length_append, List.length_cons, List.length_take]
        omega
      have hszL : 8 * ((blkD h1 i).payload.length + (blkD h1 (i + 1)).payload.length - k)
          = 8 * R1.payload.length := by
        rw [hR1]
        show _ = 8 * ((blkD h1 (i + 1)).payload.drop
            (k - (blkD h1 i).payload.length)).length
        rw [List.length_drop]
        omega
      have hszR : 8 * ((blkD h1 i).payload.length + (blkD h1 (i + 1)).payload.length - k)
          = 8 * R2.payload.length := by
        rw [hR2]
        show _ = 8 * ((blkD h1 (i + 1)).payload.drop
            (k - (blkD h1 i).payload.length)).length
        rw [List.length_drop]
        omega
      have hL := redo_second_same2 h1 _ i B1 R1 (addrI h1 i + 8 * k + 16)
        (8 * ((blkD h1 i).payload.length + (blkD h1 (i + 1)).payload.length - k))
        rfl had hszL
      have hR := redo_second_same2 h1 _ i B1 R2 (addrI h1 i + 8 * k + 16)
        (8 * ((blkD h1 i).payload.length + (blkD h1 (i + 1)).payload.length - k))
        rfl had hszR
      rw [hdirect, hsplitM, hL, hR]

/-- The in-place grow path of `relock` when part of the free right
neighbor is absorbed (lines 435-442): remove the neighbor, relabel the
first `8 * k` bytes of the merged region allocated, mark the remainder
free and insert it through `unlock`. -/
theorem grow_merge_split (h : Heap) (i k : Nat) (l : List Nat)
    (hi1 : i + 1 < h.blocks.length)
    (hWF : ∀ j, j < h.blocks.length → WFb (blkD h j))
    (hNAF : NAF h)
    (hchain : chainSegB h h.free_list l 0 = true)
    (hprevs : prevsB h 0 l = true)
    (hnd : l.Nodup)
    (hcomp : ∀ x, x ∈ freeStarts h → x ∈ l)
    (halloc : allocB (blkD h i) = ALLOCATED)
    (hfree1 : allocB (blkD h (i + 1)) = FREE)
    (hbrk : brkAddr h < MOD)
    (hkp : (blkD h i).payload.length + 1 ≤ k)
    (hkq : k + 2 ≤ (blkD h i).payload.length + (blkD h (i + 1)).payload.length) :
    ∀ h1 h2 res,
    h1 = remove_free_block h (addrI h (i + 1)) →
    h2 = REDO_HEADERS h1 (addrI h i) (8 * k) ALLOCATED →
    res = unlock
        (REDO_HEADERS h2 (GET_NEXT_BLOCK h2 (addrI h i))
          (8 * ((blkD h i).payload.length + (blkD h (i + 1)).payload.length - k))
          FREE)
        (GET_NEXT_BLOCK h2 (addrI h i)) →
    (∀ j, j < res.blocks.length → WFb (blkD res j))
    ∧ NAF res
    ∧ (∃ lR, FL res lR)
    ∧ res.limit = h.limit
    ∧ brkAddr res = brkAddr h
    ∧ (∃ j2, j2 < res.blocks.length ∧ addrI res j2 = addrI h i
        ∧ allocB (blkD res j2) = ALLOCATED
        ∧ (blkD res j2).payload.take (blkD h i).payload.length = (blkD h i).payload) := by
  intro h1 h2 res hdef1 hdef2 hdefres
  have hcore := remove_merge_core h i l hi1 hWF hNAF hchain hprevs hnd hcomp halloc
    hfree1 h1
    (REDO_HEADERS h1 (addrI h i)
      (8 * (blkD h i).payload.length + 16 + 8 * (blkD h (i + 1)).payload.length)
      ALLOCATED)
    hdef1 rfl
  set hM : Heap := REDO_HEADERS h1 (addrI h i)
      (8 * (blkD h i).payload.length + 16 + 8 * (blkD h (i + 1)).payload.length)
      ALLOCATED with hMdef
  obtain ⟨hp1, hq1, lM, hMlen, haleM, hagtM, hWFM, hNAFM, hchainM, hprevsM, hndM,
      hcompM, hnotinM, mall, mplen, mpref, mbrk, mlim, raddr, rlen, hfr_i, mblk⟩ := hcore
  have hp2 : 2 ≤ (blkD h i).payload.length := (hWF i (by omega)).2.2.2
  have hq2 : 2 ≤ (blkD h (i + 1)).payload.length := (hWF (i + 1) (by omega)).2.2.2
  have hiM : i < hM.blocks.length := by omega
  have haMi : addrI hM i = addrI h i := haleM i (Nat.le_refl i)
  have hk2M : k + 2 ≤ (blkD hM i).payload.length := by
    rw [mplen]
    omega
  -- the split REDO on the merged heap, described explicitly
  have hMs := REDO_split_i hM i k ALLOCATED hiM hk2M
  rw [haMi] at hMs
  set hS2 : Heap := REDO_HEADERS hM (addrI h i) (8 * k) ALLOCATED with hS2def
  have hlenA : ((blkD hM i).payload.take k).length = k := by
    rw [List.length_take]
    omega
  obtain ⟨slen, slt, saat, sat1, sgt, sale, sa1, sagt, sbrk2, sfl2, slim2⟩ :=
    split2_shape hM hS2 i
      ⟨pack (8 * k) ALLOCATED, (blkD hM i).payload.take k, pack (8 * k) ALLOCATED⟩
      ⟨(blkD hM i).payload.getD (k + 1) 0, (blkD hM i).payload.drop (k + 2),
        (blkD hM i).tag⟩
      hiM
      (by rw [blockExtent_def, blockExtent_def, blockExtent_def]
          simp only [List.length_take, List.length_drop]
          omega)
      (hS2def.trans hMs)
  have hWFA : WFb (blkD hS2 i) := by
    rw [saat]
    have hpk : pack (8 * k) ALLOCATED = 8 * k + 1 := by
      rw [pack_eq_add ⟨k, rfl⟩ (by decide), ALLOCATED_eq]
    refine ⟨rfl, ?_, ?_, ?_⟩
    · show pack (8 * k) ALLOCATED % 8 ≤ 1
      rw [hpk]
      omega
    · show pack (8 * k) ALLOCATED / 8 = ((blkD hM i).payload.take k).length
      rw [hpk, hlenA]
      omega
    · show 2 ≤ ((blkD hM i).payload.take k).length
      rw [hlenA]
      omega
  have hGS2 : GET_SIZE hS2 (addrI h i) = 8 * k := by
    have hg := GET_SIZE_i hS2 i (by omega) hWFA
    rw [sale i (Nat.le_refl i), haMi] at hg
    rw [hg, saat]
    show 8 * ((blkD hM i).payload.take k).length = 8 * k
    rw [hlenA]
  have hGNB : GET_NEXT_BLOCK hS2 (addrI h i) = addrI h i + 8 * k + 16 := by
    unfold GET_NEXT_BLOCK
    rw [hGS2, BOUNDARY_SIZE_eq, HEADER_SIZE_eq]
  have hSZM : GET_SIZE hM (addrI h i) = 8 * (blkD hM i).payload.length := by
    have hg := GET_SIZE_i hM i hiM (hWFM i hiM)
    rw [haMi] at hg
    exact hg
  have hMbound : 8 * (blkD hM i).payload.length < MOD := by
    have hin := block_inside hM i hiM
    rw [blockExtent_def] at hin
    have hge := addrI_ge hM i
    rw [mbrk] at hin
    omega
  have hsub : sub64 (sub64 (sub64 (GET_SIZE hM (addrI h i)) (8 * k)) HEADER_SIZE)
      BOUNDARY_SIZE
      = 8 * ((blkD h i).payload.length + (blkD h (i + 1)).payload.length - k) := by
    rw [hSZM, HEADER_SIZE_eq, BOUNDARY_SIZE_eq]
    have e1 : sub64 (8 * (blkD hM i).payload.length) (8 * k)
        = 8 * (blkD hM i).payload.length - 8 * k :=
      sub64_eq (by omega) hMbound
    rw [e1]
    have e2 : sub64 (8 * (blkD hM i).payload.length - 8 * k) 8
        = 8 * (blkD hM i).payload.length - 8 * k - 8 :=
      sub64_eq (by omega) (by omega)
    rw [e2]
    have e3 : sub64 (8 * (blkD hM i).payload.length - 8 * k - 8) 8
        = 8 * (blkD hM i).payload.length - 8 * k - 8 - 8 :=
      sub64_eq (by omega) (by omega)
    rw [e3, mplen]
    omega
  -- the equality between the direct carve and the carve of the merged block
  have hi1x : i + 1 < h1.blocks.length := by omega
  obtain ⟨hc, hgs⟩ := carve_eq h1 i k hi1x
    (by rw [hp1]; exact hp2)
    (by rw [hp1]; exact hkp)
    (by rw [hp1, hq1]; exact hkq)
    hM
    (by rw [raddr i, hp1, hq1])
  rw [raddr i, hp1, hq1] at hc
  rw [raddr i] at hgs
  rw [← hdef2] at hgs
  have hnf : GET_NEXT_BLOCK h2 (addrI h i) = addrI h i + 8 * k + 16 := by
    unfold GET_NEXT_BLOCK
    rw [hgs, BOUNDARY_SIZE_eq, HEADER_SIZE_eq]
  rw [hnf] at hdefres
  -- assemble the split master's input equation
  have hres_eq : res = unlock
      (REDO_HEADERS (REDO_HEADERS hM (addrI hM i) (8 * k) ALLOCATED)
        (GET_NEXT_BLOCK (REDO_HEADERS hM (addrI hM i) (8 * k) ALLOCATED) (addrI hM i))
        (sub64 (sub64 (sub64 (GET_SIZE hM (addrI hM i)) (8 * k)) HEADER_SIZE)
          BOUNDARY_SIZE)
        FREE)
      (GET_NEXT_BLOCK (REDO_HEADERS hM (addrI hM i) (8 * k) ALLOCATED) (addrI hM i)) := by
    rw [haMi, ← hS2def, hGNB, hsub, hdefres, hdef2]
    rw [hS2def, hc]
  obtain ⟨sWF, sNAF, sFL, sbrk, slim, sframe, ⟨j2, hj2, haj2, halj2, hplenj2, hpayj2⟩⟩ :=
    split_free_unlock_master hM i (8 * k) lM hiM hWFM hNAFM hchainM hprevsM hndM
      hnotinM (fun z hz => Or.inl (hcompM z hz)) ⟨k, rfl⟩ (by omega)
      (by rw [mplen]; omega) (by rw [mbrk]; exact hbrk) res hres_eq
  refine ⟨sWF, sNAF, sFL, slim.trans mlim, sbrk.trans mbrk, ?_⟩
  refine ⟨j2, hj2, haj2.trans haMi, halj2, ?_⟩
  rw [hpayj2, List.take_take,
      show min (blkD h i).payload.length (8 * k / 8) = (blkD h i).payload.length
        from by omega]
  exact mpref

/-- Setting an index to the element already there is the identity. -/
theorem list_set_getD_self (l : List Block) (i : Nat) (hi : i < l.length) :
    l.set i (l.getD i default) = l := by
  apply List.ext_getElem
  · simp
  · intro t ht1 ht2
    rcases eq_or_ne t i with rfl | hne
    · rw [List.getElem_set_self, List.getD_eq_getElem l default hi]
    · rw [List.getElem_set_ne (by omega)]

/-- One copy step extends the copied prefix by one word. -/
theorem set_copy_step (S D : List Nat) (m : Nat) (hmS : m < S.length)
    (hmD : m < D.length) :
    (S.take m ++ D.drop m).set m (S.getD m 0) = S.take (m + 1) ++ D.drop (m + 1) := by
  have hlt : (List.take m S).length = m := by
    rw [List.length_take]
    omega
  have htake : S.take (m + 1) = S.take m ++ [S.getD m 0] := by
    rw [List.take_succ, List.getElem?_eq_getElem hmS, List.getD_eq_getElem S 0 hmS]
    rfl
  rw [List.set_append_right _ _ (by omega)]
  rw [show m - (List.take m S).length = 0 from by omega]
  rw [List.drop_eq_getElem_cons hmD]
  rw [List.set_cons_zero]
  rw [htake]
  simp

/-- `memcpy` of `m` words between two distinct blocks overwrites the
first `m` payload words of the destination block with those of the source
block and changes nothing else. -/
theorem memcpy_blocks (h : Heap) (di si : Nat)
    (hdi : di < h.blocks.length) (hsi : si < h.blocks.length)
    (hne : di ≠ si) :
    ∀ m, m ≤ (blkD h di).payload.length → m ≤ (blkD h si).payload.length →
    memcpyWords h (addrI h di) (addrI h si) m
      = { h with blocks := h.blocks.set di ⟨(blkD h di).hdr, (blkD h si).payload.take m ++ (blkD h di).payload.drop m, (blkD h di).tag⟩ } := by
  have hdz : ¬ addrI h di = 0 := by
    have := addrI_ge h di
    omega
  intro m
  induction m with
  | zero =>
    intro hmd hms
    show memcpyWords h (addrI h di) (addrI h si) 0 = _
    simp only [memcpyWords]
    rw [if_neg hdz]
    simp only [List.range_zero, List.foldl_nil, List.take_zero, List.drop_zero,
      List.nil_append]
    have hb : (⟨(blkD h di).hdr, (blkD h di).payload, (blkD h di).tag⟩ : Block)
        = blkD h di := rfl
    rw [hb]
    rw [show h.blocks.set di (blkD h di) = h.blocks from
      list_set_getD_self h.blocks di hdi]
  | succ m ih =>
    intro hmd hms
    set Bm : Block := ⟨(blkD h di).hdr, (blkD h si).payload.take m ++ (blkD h di).payload.drop m, (blkD h di).tag⟩ with hBm
    set hmid : Heap := { h with blocks := h.blocks.set di Bm } with hmiddef
    have hm' : memcpyWords h (addrI h di) (addrI h si) m = hmid :=
      ih (by omega) (by omega)
    have hstep : memcpyWords h (addrI h di) (addrI h si) (m + 1)
        = storeWord hmid (addrI h di + 8 * m)
            (loadWord hmid (addrI h si + 8 * m)) := by
      simp only [memcpyWords]
      rw [if_neg hdz]
      rw [List.range_succ, List.foldl_append]
      have hfold : (List.range m).foldl
          (fun h' k => storeWord h' (addrI h di + 8 * k)
            (loadWord h' (addrI h si + 8 * k))) h = hmid := by
        have hfold2 := hm'
        simp only [memcpyWords] at hfold2
        rw [if_neg hdz] at hfold2
        exact hfold2
      rw [hfold]
      rfl
    have hBmlen : Bm.payload.length = (blkD h di).payload.length := by
      rw [hBm]
      show ((blkD h si).payload.take m ++ (blkD h di).payload.drop m).length = _
      rw [List.length_append, List.length_take, List.length_drop]
      omega
    have hblk : blkD hmid di = Bm := by
      rw [hmiddef]
      exact blkD_set_eq h di Bm hdi
    have hblksi : blkD hmid si = blkD h si := by
      rw [hmiddef]
      exact blkD_set_ne h di si Bm (by omega)
    have haddr : ∀ j, addrI hmid j = addrI h j := by
      intro j
      rw [hmiddef]
      exact addrI_set h di j Bm
        (by rw [blockExtent_def, blockExtent_def, hBmlen])
    have hlenmid : hmid.blocks.length = h.blocks.length := by
      rw [hmiddef]
      exact length_set_heap h di Bm
    have hblocks : hmid.blocks = h.blocks.set di Bm := by
      rw [hmiddef]
    have hrec : ∀ X : List Block, ({ hmid with blocks := X } : Heap)
        = { h with blocks := X } := by
      intro X
      rw [hmiddef]
    have hload : loadWord hmid (addrI h si + 8 * m)
        = (blkD h si).payload.getD m 0 := by
      have hl := load_pay_i hmid si m (by omega) (by rw [hblksi]; omega)
      rw [haddr si, hblksi] at hl
      exact hl
    have hs := store_pay_i hmid di m ((blkD h si).payload.getD m 0)
      (by omega) (by rw [hblk, hBmlen]; omega)
    rw [haddr di, hblk, hblocks, hrec] at hs
    rw [hstep, hload, hs, List.set_set]
    have hblk2 : (⟨Bm.hdr, Bm.payload.set m ((blkD h si).payload.getD m 0), Bm.tag⟩ : Block)
        = ⟨(blkD h di).hdr, (blkD h si).payload.take (m + 1) ++ (blkD h di).payload.drop (m + 1), (blkD h di).tag⟩ := by
      rw [hBm]
      show (⟨(blkD h di).hdr, ((blkD h si).payload.take m ++ (blkD h di).payload.drop m).set m ((blkD h si).payload.getD m 0), (blkD h di).tag⟩ : Block) = _
      rw [set_copy_step (blkD h si).payload (blkD h di).payload m (by omega) (by omega)]
    rw [hblk2]

/-- Master correctness lemma for `mlock`. -/
theorem mlock_master (h : Heap) (size : Nat) (l : List Nat)
    (hWF : ∀ j, j < h.blocks.length → WFb (blkD h j))
    (hNAF : NAF h)
    (hchain : chainSegB h h.free_list l 0 = true)
    (hprevs : prevsB h 0 l = true)
    (hnd : l.Nodup)
    (hcomp : ∀ x, x ∈ freeStarts h → x ∈ l)
    (hbrk : brkAddr h < MOD)
    (hlim : h.limit < MOD) :
    MlockPost h size (mlock h size) := by
  have hbase : MlockPost h size (0, h) := by
    refine ⟨hWF, hNAF, ⟨l, hchain, hprevs, hnd, fun x hx => Or.inl (hcomp x hx)⟩,
      rfl, hbrk, ?_, ?_, fun _ => rfl⟩
    · intro j hj hja
      exact ⟨j, hj, rfl, rfl⟩
    · intro hne
      exact absurd rfl hne
  by_cases hsz : size ≤ 0
  · simp only [mlock]
    rw [if_pos hsz]
    exact hbase
  · simp only [mlock]
    rw [if_neg hsz]
    set size2 : Nat := max (ALIGN_BYTES size) MIN_DATA_SIZE with hsize2
    have hdvd2 : 8 ∣ size2 := by
      rw [hsize2, Nat.max_def]
      split
      · rw [MIN_DATA_SIZE_eq]
        omega
      · exact align_dvd size
    have h162 : 16 ≤ size2 := by
      rw [hsize2, MIN_DATA_SIZE_eq]
      exact Nat.le_max_right _ _
    rcases find_fit_spec h size2 l hchain hnd with hfz | ⟨hfmem, hfsz⟩
    · -- no fit: grow the arena
      rw [if_neg (by rw [hfz]; simp)]
      set sizeE : Nat := max size2 CHUNK_SIZE with hsizeE
      have hdvdE : 8 ∣ sizeE := by
        rw [hsizeE, Nat.max_def]
        split
        · rw [CHUNK_SIZE_eq]
          omega
        · exact hdvd2
      have h16E : 16 ≤ sizeE := by
        rw [hsizeE]
        have := Nat.le_max_left size2 CHUNK_SIZE
        omega
      have halE : ALIGN_BYTES sizeE = sizeE := align_of_dvd hdvdE
      by_cases hgrow : brkAddr h + (sizeE + BOUNDARY_SIZE + HEADER_SIZE) ≤ h.limit
      · -- growth succeeds
        have hext : extend_heap h sizeE
            = (true, unlock ({ h with blocks := h.blocks ++ [⟨pack sizeE FREE, List.replicate (sizeE / 8) 0, pack sizeE FREE⟩] }) (brkAddr h)) := by
          simp only [extend_heap]
          rw [halE, if_pos hgrow]
        rw [hext]
        set hE : Heap := { h with blocks := h.blocks ++ [⟨pack sizeE FREE, List.replicate (sizeE / 8) 0, pack sizeE FREE⟩] } with hhE
        set hU : Heap := unlock hE (brkAddr h) with hhU
        obtain ⟨⟨uWF, uNAF, ⟨lP, uch, upr, und, ucomp⟩, ubrk, ulim, ulen, uframe,
            ⟨kR, hkR, hflR, hfreeR, hplenR⟩⟩, hElen, hEbrk, hElim, hElt, hEale, hEplen⟩ :=
          extend_grow_master h sizeE l hWF hNAF hchain hprevs hnd hcomp hdvdE h16E
            hE hU hhE hhU
        show MlockPost h size (hU.free_list, place hU hU.free_list size2)
        rw [hflR]
        have hbrkU : brkAddr hU = brkAddr h + (sizeE + 16) := by rw [ubrk, hEbrk]
        have hbrkUlt : brkAddr hU < MOD := by
          rw [hbrkU]
          rw [BOUNDARY_SIZE_eq, HEADER_SIZE_eq] at hgrow
          omega
        have hfitU : size2 ≤ 8 * (blkD hU kR).payload.length := by
          rw [hEplen] at hplenR
          have h2 : size2 ≤ sizeE := by
            rw [hsizeE]
            exact Nat.le_max_left _ _
          obtain ⟨cE, hcE⟩ := hdvdE
          omega
        obtain ⟨pWF, pNAF, pFL, pbrk, plim, pframe, ⟨j2, hj2, ha2, hal2, hsz2⟩⟩ :=
          place_master hU kR size2 lP hkR uWF uNAF uch upr und ucomp hbrkUlt
            hfreeR hdvd2 h162 hfitU
        refine ⟨pWF, pNAF, pFL, ?_, ?_, ?_, ?_, ?_⟩
        · show (place hU (addrI hU kR) size2).limit = h.limit
          rw [plim, ulim, hElim]
        · show brkAddr (place hU (addrI hU kR) size2) < MOD
          rw [pbrk]
          exact hbrkUlt
        · intro j hj hja
          obtain ⟨jU, hjU, haU, hbU⟩ := uframe j (by omega) (by omega)
            (by rw [allocB_transport (blkD h j) (blkD hE j) (by rw [hElt j hj])]
                exact hja)
          rw [hElt j hj] at hbU
          obtain ⟨j3, hj3, ha3, hb3⟩ := pframe jU hjU
            (by rw [allocB_transport (blkD h j) (blkD hU jU) (by rw [hbU])]
                exact hja)
          refine ⟨j3, hj3, ?_, ?_⟩
          · show addrI (place hU (addrI hU kR) size2) j3 = addrI h j
            rw [ha3, haU, hEale j (by omega)]
          · show blkD (place hU (addrI hU kR) size2) j3 = blkD h j
            rw [hb3, hbU]
        · intro hne
          refine ⟨⟨j2, hj2, ?_, hal2, hsz2⟩, ?_⟩
          · show addrI hU kR = addrI (place hU (addrI hU kR) size2) j2
            rw [ha2]
          · intro q hq hqa
            obtain ⟨jU, hjU, haU, hbU⟩ := uframe q (by omega) (by omega)
              (by rw [allocB_transport (blkD h q) (blkD hE q) (by rw [hElt q hq])]
                  exact hqa)
            rw [hElt q hq] at hbU
            have hqU : allocB (blkD hU jU) = ALLOCATED := by
              rw [allocB_transport (blkD h q) (blkD hU jU) (by rw [hbU])]
              exact hqa
            have hne2 : kR ≠ jU := by
              intro he
              rw [he, hqU] at hfreeR
              exact absurd hfreeR (by decide)
            have hne3 : addrI hU kR ≠ addrI hU jU := addrI_inj_ne hU kR jU hkR hjU hne2
            show addrI hU kR ≠ addrI h q
            rw [← hEale q (by omega), ← haU]
            exact hne3
        · intro h0
          have h00 : addrI hU kR = 0 := h0
          have h64 := addrI_ge hU kR
          omega
      · -- growth fails
        have hext : extend_heap h sizeE = (false, h) := by
          simp only [extend_heap]
          rw [halE, if_neg hgrow]
        rw [hext]
        exact hbase
    · -- a fit was found
      have hfpos : find_fit h size2 ∈ freeStarts h := chainSegB_mem h l _ _ hchain _ hfmem
      have hne : find_fit h size2 ≠ 0 := by
        have := mem_freeStarts_pos h _ hfpos
        omega
      rw [if_pos hne]
      obtain ⟨kf, hkf, hfp_eq, hkffree⟩ := (mem_freeStarts h _).mp hfpos
      rw [hfp_eq]
      rw [hfp_eq] at hfsz
      rw [align_of_dvd hdvd2] at hfsz
      rw [GET_SIZE_i h kf hkf (hWF kf hkf)] at hfsz
      obtain ⟨pWF, pNAF, pFL, pbrk, plim, pframe, ⟨j2, hj2, ha2, hal2, hsz2⟩⟩ :=
        place_master h kf size2 l hkf hWF hNAF hchain hprevs hnd hcomp hbrk
          hkffree hdvd2 h162 hfsz
      refine ⟨pWF, pNAF, pFL, ?_, ?_, pframe, ?_, ?_⟩
      · show (place h (addrI h kf) size2).limit = h.limit
        exact plim
      · show brkAddr (place h (addrI h kf) size2) < MOD
        rw [pbrk]
        exact hbrk
      · intro hne0
        refine ⟨⟨j2, hj2, ?_, hal2, hsz2⟩, ?_⟩
        · show addrI h kf = addrI (place h (addrI h kf) size2) j2
          rw [ha2]
        · intro q hq hqa
          have hne2 : kf ≠ q := by
            intro he
            rw [he, hqa] at hkffree
            exact absurd hkffree (by decide)
          exact addrI_inj_ne h kf q hkf hq hne2
      · intro h0
        have h00 : addrI h kf = 0 := h0
        have h64 := addrI_ge h kf
        omega

/-- `unlock` on an allocated block of a heap satisfying the full
invariants restores them. -/
theorem unlock_alloc_master (h : Heap) (i : Nat) (l : List Nat)
    (hi : i < h.blocks.length)
    (hWF : ∀ j, j < h.blocks.length → WFb (blkD h j))
    (hNAF : NAF h)
    (hchain : chainSegB h h.free_list l 0 = true)
    (hprevs : prevsB h 0 l = true)
    (hnd : l.Nodup)
    (hcomp : ∀ x, x ∈ freeStarts h → x ∈ l)
    (halloc : allocB (blkD h i) = ALLOCATED) :
    UnlockPost h (unlock h (addrI h i)) i := by
  have hl_fs : ∀ z, z ∈ l → z ∈ freeStarts h := chainSegB_mem h l _ _ hchain
  refine unlock_master h i l hi hWF ?_ hchain hprevs hnd ?_ ?_
  · intro j hj hf1 hf2
    rcases (noAdj_iff h.blocks).mp hNAF j hj with ha | ha
    · have ha2 : allocB (blkD h j) = ALLOCATED := ha
      rw [hf1] at ha2
      exact absurd ha2 (by decide)
    · have ha2 : allocB (blkD h (j + 1)) = ALLOCATED := ha
      rw [hf2] at ha2
      exact absurd ha2 (by decide)
  · intro hcm
    exact alloc_addr_not_free h i hi halloc (hl_fs _ hcm)
  · intro x hx
    exact Or.inl (hcomp x hx)

/-- The allocate-copy-free fallback of `relock` (lines 404-414): allocate
a fresh block, copy the old payload into it word by word, free the old
block. -/
theorem fallback_master (h : Heap) (i size2 : Nat) (l : List Nat)
    (hi : i < h.blocks.length)
    (hWF : ∀ j, j < h.blocks.length → WFb (blkD h j))
    (hNAF : NAF h)
    (hchain : chainSegB h h.free_list l 0 = true)
    (hprevs : prevsB h 0 l = true)
    (hnd : l.Nodup)
    (hcomp : ∀ x, x ∈ freeStarts h → x ∈ l)
    (halloc : allocB (blkD h i) = ALLOCATED)
    (hbrk : brkAddr h < MOD)
    (hlim : h.limit < MOD)
    (hdvd : 8 ∣ size2) (h16 : 16 ≤ size2)
    (hgt : 8 * (blkD h i).payload.length < size2) :
    ∀ r hc res,
    r = mlock h size2 →
    hc = memcpyWords r.2 r.1 (addrI h i) (GET_SIZE h (addrI h i) / 8) →
    res = unlock hc (addrI h i) →
    (∀ j, j < res.blocks.length → WFb (blkD res j))
    ∧ NAF res
    ∧ (∃ lR, FL res lR)
    ∧ res.limit = h.limit
    ∧ brkAddr res < MOD
    ∧ (r.1 ≠ 0 → ∃ j2, j2 < res.blocks.length ∧ r.1 = addrI res j2
        ∧ allocB (blkD res j2) = ALLOCATED
        ∧ (blkD res j2).payload.take (blkD h i).payload.length = (blkD h i).payload) := by
  intro r hc res hdefr hdefc hdefres
  have hmp := mlock_master h size2 l hWF hNAF hchain hprevs hnd hcomp hbrk hlim
  rw [← hdefr] at hmp
  obtain ⟨pWF, pNAF, ⟨lP, pch, ppr, pnd, pcompx⟩, plim, pbrk, pframe, psucc, pfail⟩ := hmp
  have pcomp : ∀ x, x ∈ freeStarts r.2 → x ∈ lP := by
    intro x hx
    rcases pcompx x hx with hz | hz
    · exact hz
    · exact absurd hz (List.not_mem_nil x)
  have hcur : GET_SIZE h (addrI h i) = 8 * (blkD h i).payload.length :=
    GET_SIZE_i h i hi (hWF i hi)
  have hm : GET_SIZE h (addrI h i) / 8 = (blkD h i).payload.length := by
    rw [hcur]
    omega
  rw [hm] at hdefc
  by_cases h0 : r.1 = 0
  · have hr2 : r.2 = h := pfail h0
    have hcc : hc = h := by
      rw [hdefc, h0]
      simp only [memcpyWords]
      exact hr2
    have hres2 : res = unlock h (addrI h i) := by
      rw [hdefres, hcc]
    have hup := unlock_alloc_master h i l hi hWF hNAF hchain hprevs hnd hcomp halloc
    rw [← hres2] at hup
    obtain ⟨uWF, uNAF, ⟨lR, uch, upr, und, ucomp⟩, ubrk, ulim, ulen, uframe, -⟩ := hup
    refine ⟨uWF, uNAF, ⟨lR, uch, upr, und, fun x hx => Or.inl (ucomp x hx)⟩, ulim,
      ?_, ?_⟩
    · rw [ubrk]
      exact hbrk
    · intro hne
      exact absurd h0 hne
  · obtain ⟨⟨jn, hjn, hr1, haln, hszn⟩, hneq⟩ := psucc h0
    obtain ⟨jold, hjold, haold, hbold⟩ := pframe i hi halloc
    have hsz2n : size2 ≤ 8 * (blkD r.2 jn).payload.length := by
      rw [align_of_dvd hdvd, MIN_DATA_SIZE_eq] at hszn
      omega
    have hne_j : jn ≠ jold := by
      intro he
      have hx := hneq i hi halloc
      rw [hr1, he, haold] at hx
      exact hx rfl
    have hmemeq := memcpy_blocks r.2 jn jold hjn hjold hne_j
      (blkD h i).payload.length (by omega)
      (by rw [hbold])
    have hpay_old : (blkD r.2 jold).payload.take (blkD h i).payload.length
        = (blkD h i).payload := by
      rw [hbold]
      exact List.take_length _
    rw [hpay_old] at hmemeq
    rw [hr1, ← haold] at hdefc
    have hceq : hc = { r.2 with blocks := r.2.blocks.set jn ⟨(blkD r.2 jn).hdr, (blkD h i).payload ++ (blkD r.2 jn).payload.drop (blkD h i).payload.length, (blkD r.2 jn).tag⟩ } := by
      rw [hdefc, hmemeq]
    set NB : Block := ⟨(blkD r.2 jn).hdr, (blkD h i).payload ++ (blkD r.2 jn).payload.drop (blkD h i).payload.length, (blkD r.2 jn).tag⟩ with hNB
    have hNBlen : NB.payload.length = (blkD r.2 jn).payload.length := by
      rw [hNB]
      show ((blkD h i).payload ++ (blkD r.2 jn).payload.drop
          (blkD h i).payload.length).length = _
      rw [List.length_append, List.length_drop]
      omega
    have hlenc : hc.blocks.length = r.2.blocks.length := by
      rw [hceq]
      exact length_set_heap r.2 jn NB
    have hblk_jn : blkD hc jn = NB := by
      rw [hceq]
      exact blkD_set_eq r.2 jn NB hjn
    have hblk_ne : ∀ j, j ≠ jn → blkD hc j = blkD r.2 j := by
      intro j hj
      rw [hceq]
      exact blkD_set_ne r.2 jn j NB hj
    have haddrc : ∀ j, addrI hc j = addrI r.2 j := by
      intro j
      rw [hceq]
      exact addrI_set r.2 jn j NB
        (by rw [blockExtent_def, blockExtent_def, hNBlen])
    have hallocc : ∀ j, allocB (blkD hc j) = allocB (blkD r.2 j) := by
      intro j
      rcases eq_or_ne j jn with rfl | hj
      · rw [hblk_jn]
        exact allocB_transport (blkD r.2 j) NB (by rw [hNB])
      · rw [hblk_ne j hj]
    have hWFc : ∀ j, j < hc.blocks.length → WFb (blkD hc j) := by
      intro j hj
      rcases eq_or_ne j jn with rfl | hjx
      · rw [hblk_jn]
        exact WFb_transport (blkD r.2 j) NB (by rw [hNB]) (by rw [hNB]) hNBlen
          (pWF j (by omega))
      · rw [hblk_ne j hjx]
        exact pWF j (by omega)
    have hNAFc : NAF hc :=
      NAF_transport r.2 hc
        (fun j hj hf => by rw [← hallocc j]; exact hf)
        (fun j hj hf => by rw [← hallocc (j + 1)]; exact hf)
        (by omega) pNAF
    have hfsc : ∀ x, x ∈ freeStarts hc ↔ x ∈ freeStarts r.2 :=
      freeStarts_congr r.2 hc hlenc haddrc (fun j hj => hallocc j)
    have hl_fsP : ∀ z, z ∈ lP → z ∈ freeStarts r.2 := chainSegB_mem r.2 lP _ _ pch
    have hlink : ∀ y, y ∈ lP →
        GET_NEXT_FREE hc y = GET_NEXT_FREE r.2 y
          ∧ GET_PREV_FREE hc y = GET_PREV_FREE r.2 y := by
      intro y hy
      obtain ⟨jy, hjy, hyx, hyf⟩ := (mem_freeStarts r.2 y).mp (hl_fsP y hy)
      obtain ⟨-, -, -, wp⟩ := pWF jy hjy
      have hjne : jy ≠ jn := by
        intro he
        rw [he, haln] at hyf
        exact absurd hyf (by decide)
      have hb : blkD hc jy = blkD r.2 jy := hblk_ne jy hjne
      constructor
      · have e1 : GET_NEXT_FREE hc y = (blkD hc jy).payload.getD 0 0 := by
          rw [hyx, ← haddrc jy]
          exact GET_NEXT_FREE_i hc jy (by omega) (by rw [hb]; omega)
        have e2 : GET_NEXT_FREE r.2 y = (blkD r.2 jy).payload.getD 0 0 := by
          rw [hyx]
          exact GET_NEXT_FREE_i r.2 jy hjy (by omega)
        rw [e1, e2, hb]
      · have e1 : GET_PREV_FREE hc y = (blkD hc jy).payload.getD 1 0 := by
          rw [hyx, ← haddrc jy]
          exact GET_PREV_FREE_i hc jy (by omega) (by rw [hb]; omega)
        have e2 : GET_PREV_FREE r.2 y = (blkD r.2 jy).payload.getD 1 0 := by
          rw [hyx]
          exact GET_PREV_FREE_i r.2 jy hjy (by omega)
        rw [e1, e2, hb]
    have hflc : hc.free_list = r.2.free_list := by
      rw [hceq]
    have chainc : chainSegB hc hc.free_list lP 0 = true := by
      rw [hflc]
      rw [chainSegB_congr_mem r.2 hc lP (fun y hy => hfsc y)
        (fun y hy => (hlink y hy).1)]
      exact pch
    have prevsc : prevsB hc 0 lP = true := by
      rw [prevsB_congr r.2 hc lP (fun y hy => (hlink y hy).2)]
      exact ppr
    have hcompc : ∀ x, x ∈ freeStarts hc → x ∈ lP := by
      intro x hx
      exact pcomp x ((hfsc x).mp hx)
    have hbold_c : blkD hc jold = blkD h i := by
      rw [hblk_ne jold (by omega), hbold]
    have hallocold : allocB (blkD hc jold) = ALLOCATED := by
      rw [allocB_transport (blkD h i) (blkD hc jold) (by rw [hbold_c])]
      exact halloc
    have haoc : addrI hc jold = addrI h i := by
      rw [haddrc jold, haold]
    rw [← haoc] at hdefres
    have hup := unlock_alloc_master hc jold lP (by omega) hWFc hNAFc chainc prevsc
      pnd hcompc hallocold
    rw [← hdefres] at hup
    obtain ⟨uWF, uNAF, ⟨lR, uch, upr, und, ucomp⟩, ubrk, ulim, ulen, uframe, -⟩ := hup
    have hbrkc : brkAddr hc = brkAddr r.2 := brk_of_addr r.2 hc hlenc haddrc
    have hlimc : hc.limit = r.2.limit := by
      rw [hceq]
    refine ⟨uWF, uNAF, ⟨lR, uch, upr, und, fun x hx => Or.inl (ucomp x hx)⟩,
      by rw [ulim, hlimc, plim], by rw [ubrk, hbrkc]; exact pbrk, ?_⟩
    intro hne
    have hallocn : allocB (blkD hc jn) = ALLOCATED := by
      rw [allocB_transport (blkD r.2 jn) (blkD hc jn) (by rw [hblk_jn, hNB])]
      exact haln
    obtain ⟨j3, hj3, ha3, hb3⟩ := uframe jn (by omega) (by omega) hallocn
    refine ⟨j3, hj3, ?_, ?_, ?_⟩
    · rw [hr1, ← haddrc jn, ha3]
    · rw [allocB_transport (blkD hc jn) (blkD res j3) (by rw [hb3])]
      exact hallocn
    · rw [hb3, hblk_jn, hNB]
      show ((blkD h i).payload ++ (blkD r.2 jn).payload.drop
          (blkD h i).payload.length).take (blkD h i).payload.length
        = (blkD h i).payload
      rw [List.take_append_of_le_length (Nat.le_refl _)]
      exact List.take_length _

/-- Alignment stays below the `size_t` modulus. -/
theorem align_lt (n : Nat) (hn : n < MOD) : ALIGN_BYTES n < MOD := by
  unfold ALIGN_BYTES
  split
  · exact hn
  · exact Nat.mod_lt _ (by decide)

/-- Introduction form for `RelockPost` on a literal pair. -/
theorem RelockPost_intro (h : Heap) (i size : Nat) (x : Nat) (y : Heap)
    (h1 : ∀ j, j < y.blocks.length → WFb (blkD y j))
    (h2 : NAF y)
    (h3 : ∃ lR, FL y lR)
    (h4 : y.limit = h.limit)
    (h5 : brkAddr y < MOD)
    (h6 : x ≠ 0 → ∃ j2, j2 < y.blocks.length ∧ x = addrI y j2
        ∧ allocB (blkD y j2) = ALLOCATED
        ∧ (blkD y j2).payload.take
            (min (blkD h i).payload.length (max (ALIGN_BYTES size) MIN_DATA_SIZE / 8))
          = (blkD h i).payload.take
            (min (blkD h i).payload.length
              (max (ALIGN_BYTES size) MIN_DATA_SIZE / 8))) :
    RelockPost h i size (x, y) :=
  ⟨h1, h2, h3, h4, h5, h6⟩

/-- Master correctness lemma for `relock` on a valid allocated block. -/
theorem relock_master (h : Heap) (i size : Nat) (l : List Nat)
    (hi : i < h.blocks.length)
    (hWF : ∀ j, j < h.blocks.length → WFb (blkD h j))
    (hNAF : NAF h)
    (hchain : chainSegB h h.free_list l 0 = true)
    (hprevs : prevsB h 0 l = true)
    (hnd : l.Nodup)
    (hcomp : ∀ x, x ∈ freeStarts h → x ∈ l)
    (halloc : allocB (blkD h i) = ALLOCATED)
    (hbrk : brkAddr h < MOD)
    (hlim : h.limit < MOD)
    (hszMOD : size < MOD) :
    RelockPost h i size (relock h (addrI h i) size) := by
  have hl_fs : ∀ z, z ∈ l → z ∈ freeStarts h := chainSegB_mem h l _ _ hchain
  have hine0 : ¬ addrI h i = 0 := by
    have := addrI_ge h i
    omega
  have hnotin : addrI h i ∉ l := fun hcm =>
    alloc_addr_not_free h i hi halloc (hl_fs _ hcm)
  simp only [relock]
  rw [if_neg hine0]
  by_cases hsz : size ≤ 0
  · rw [if_pos hsz]
    have hup := unlock_alloc_master h i l hi hWF hNAF hchain hprevs hnd hcomp halloc
    obtain ⟨uWF, uNAF, ⟨lR, uch, upr, und, ucomp⟩, ubrk, ulim, ulen, uframe, -⟩ := hup
    exact ⟨uWF, uNAF, ⟨lR, uch, upr, und, fun x hx => Or.inl (ucomp x hx)⟩, ulim,
      by rw [ubrk]; exact hbrk, fun hne => absurd rfl hne⟩
  · rw [if_neg hsz]
    set size2 : Nat := max (ALIGN_BYTES size) MIN_DATA_SIZE with hsize2
    have hdvd2 : 8 ∣ size2 := by
      rw [hsize2, Nat.max_def]
      split
      · rw [MIN_DATA_SIZE_eq]
        omega
      · exact align_dvd size
    have h162 : 16 ≤ size2 := by
      rw [hsize2, MIN_DATA_SIZE_eq]
      exact Nat.le_max_right _ _
    have hs2lt : size2 < MOD := by
      rw [hsize2]
      have h1 := align_lt size hszMOD
      have h2 : MIN_DATA_SIZE < MOD := by decide
      omega
    have hcur : GET_SIZE h (addrI h i) = 8 * (blkD h i).payload.length :=
      GET_SIZE_i h i hi (hWF i hi)
    have hp2 : 2 ≤ (blkD h i).payload.length := (hWF i hi).2.2.2
    have hplt : 8 * (blkD h i).payload.length < MOD := by
      have := block_inside h i hi
      rw [blockExtent_def] at this
      have hge := addrI_ge h i
      omega
    have hnoop : RelockPost h i size (addrI h i, h) :=
      ⟨hWF, hNAF, ⟨l, hchain, hprevs, hnd, fun x hx => Or.inl (hcomp x hx)⟩, rfl,
        hbrk, fun _ => ⟨i, hi, rfl, halloc, rfl⟩⟩
    by_cases heq : size2 = GET_SIZE h (addrI h i)
    · rw [if_pos heq]
      exact hnoop
    · rw [if_neg heq]
      by_cases hlt : size2 < GET_SIZE h (addrI h i)
      · rw [if_pos hlt]
        have hlo : sub64 (GET_SIZE h (addrI h i)) size2
            = GET_SIZE h (addrI h i) - size2 :=
          sub64_eq (Nat.le_of_lt hlt) (by rw [hcur]; exact hplt)
        by_cases hsmall : sub64 (GET_SIZE h (addrI h i)) size2 < MIN_BLOCK_SIZE
        · rw [if_pos hsmall]
          exact hnoop
        · rw [if_neg hsmall]
          rw [hlo, hcur, MIN_BLOCK_SIZE_eq] at hsmall
          rw [hcur] at hlt
          have hroom : size2 + 32 ≤ 8 * (blkD h i).payload.length := by omega
          obtain ⟨sWF, sNAF, sFL, sbrk, slim, sframe,
              ⟨j2, hj2, ha2, hal2, hpl2, hpay2⟩⟩ :=
            split_free_unlock_master h i size2 l hi hWF hNAF hchain hprevs hnd
              hnotin (fun x hx => Or.inl (hcomp x hx)) hdvd2 h162 hroom hbrk _ rfl
          refine RelockPost_intro h i size _ _ sWF sNAF sFL slim
            (by rw [sbrk]; exact hbrk) ?_
          intro hne
          refine ⟨j2, hj2, ha2.symm, hal2, ?_⟩
          rw [show min (blkD h i).payload.length (size2 / 8) = size2 / 8 from by
            omega]
          rw [hpay2, List.take_take, Nat.min_self]
      · rw [if_neg hlt]
        have hgt : GET_SIZE h (addrI h i) < size2 := by omega
        have hgt8 : 8 * (blkD h i).payload.length < size2 := by
          rw [← hcur]
          exact hgt
        have hfall : RelockPost h i size ((mlock h size2).1,
            unlock (memcpyWords (mlock h size2).2 (mlock h size2).1 (addrI h i)
              (GET_SIZE h (addrI h i) / 8)) (addrI h i)) := by
          obtain ⟨fWF, fNAF, fFL, flim, fbrk, fsucc⟩ :=
            fallback_master h i size2 l hi hWF hNAF hchain hprevs hnd hcomp halloc
              hbrk hlim hdvd2 h162 hgt8 (mlock h size2) _ _ rfl rfl rfl
          refine RelockPost_intro h i size _ _ fWF fNAF fFL flim fbrk ?_
          intro hne
          obtain ⟨j2, hj2, hr1, halj, hpayj⟩ := fsucc hne
          refine ⟨j2, hj2, hr1, halj, ?_⟩
          rw [show min (blkD h i).payload.length (size2 / 8)
              = (blkD h i).payload.length from by omega]
          rw [hpayj]
          exact (List.take_length _).symm
        rcases Nat.eq_or_lt_of_le (show i + 1 ≤ h.blocks.length by omega)
          with hlast | hi1
        · have hepi : GET_ALLOC h (GET_NEXT_BLOCK h (addrI h i)) = ALLOCATED := by
            unfold GET_ALLOC GET_NEXT_BLOCK
            rw [hcur, BOUNDARY_SIZE_eq, HEADER_SIZE_eq]
            rw [show addrI h i + 8 * (blkD h i).payload.length + 8 + 8 - 8
                = addrI h i + 8 * (blkD h i).payload.length + 16 - 8 from by omega]
            rw [load_next_hdr_last h i hlast]
            decide
          rw [if_pos (Or.inl hepi)]
          exact hfall
        · have hnb : GET_NEXT_BLOCK h (addrI h i) = addrI h (i + 1) := by
            unfold GET_NEXT_BLOCK
            rw [hcur, BOUNDARY_SIZE_eq, HEADER_SIZE_eq,
              addrI_succ h i hi, blockExtent_def]
            omega
          have hga : GET_ALLOC h (GET_NEXT_BLOCK h (addrI h i))
              = allocB (blkD h (i + 1)) := by
            rw [hnb]
            exact GET_ALLOC_i h (i + 1) hi1
          by_cases hfb : GET_ALLOC h (GET_NEXT_BLOCK h (addrI h i)) = ALLOCATED
              ∨ BOUNDARY_SIZE + HEADER_SIZE
                  + GET_SIZE h (GET_NEXT_BLOCK h (addrI h i))
                < sub64 size2 (GET_SIZE h (addrI h i))
          · rw [if_pos hfb]
            exact hfall
          · rw [if_neg hfb]
            push_neg at hfb
            obtain ⟨hfA, hfB⟩ := hfb
            rw [hga] at hfA
            have hfree1 : allocB (blkD h (i + 1)) = FREE := by
              rcases alloc_dichotomy (blkD h (i + 1)) with hf | ha
              · exact hf
              · exact absurd ha hfA
            have hq2 : 2 ≤ (blkD h (i + 1)).payload.length :=
              (hWF (i + 1) hi1).2.2.2
            have hqlt : 16 + 8 * (blkD h (i + 1)).payload.length < MOD := by
              have := block_inside h (i + 1) hi1
              rw [blockExtent_def] at this
              have hge := addrI_ge h (i + 1)
              omega
            have hszn2 : GET_SIZE h (addrI h (i + 1))
                = 8 * (blkD h (i + 1)).payload.length :=
              GET_SIZE_i h (i + 1) hi1 (hWF (i + 1) hi1)
            have hneed : sub64 size2 (GET_SIZE h (addrI h i)) = size2
                - 8 * (blkD h i).payload.length := by
              rw [hcur]
              exact sub64_eq (by omega) hs2lt
            have hgained : BOUNDARY_SIZE + HEADER_SIZE
                + GET_SIZE h (addrI h (i + 1))
                = 16 + 8 * (blkD h (i + 1)).payload.length := by
              rw [hszn2, BOUNDARY_SIZE_eq, HEADER_SIZE_eq]
            rw [hnb] at hfB
            rw [hgained, hneed] at hfB
            rw [hnb]
            have hleft : sub64 (BOUNDARY_SIZE + HEADER_SIZE
                + GET_SIZE h (addrI h (i + 1)))
                (sub64 size2 (GET_SIZE h (addrI h i)))
                = 16 + 8 * (blkD h (i + 1)).payload.length
                  - (size2 - 8 * (blkD h i).payload.length) := by
              rw [hgained, hneed]
              exact sub64_eq hfB hqlt
            obtain ⟨c, hc8⟩ := hdvd2
            by_cases hl0 : sub64 (BOUNDARY_SIZE + HEADER_SIZE
                + GET_SIZE h (addrI h (i + 1)))
                (sub64 size2 (GET_SIZE h (addrI h i))) = 0
            · rw [if_pos hl0]
              rw [hleft] at hl0
              have hfull := grow_merge_full h i l hi1 hWF hNAF hchain hprevs hnd
                hcomp halloc hfree1 hbrk
                (remove_free_block h (addrI h (i + 1)))
                (REDO_HEADERS (remove_free_block h (addrI h (i + 1)))
                  (addrI h i) size2 ALLOCATED)
                rfl
                (by rw [show 8 * (blkD h i).payload.length + 16
                    + 8 * (blkD h (i + 1)).payload.length = size2 from by omega])
              obtain ⟨gWF, gNAF, gFL, glim, gbrk, ⟨j2, hj2, haj, halj, hpayj⟩⟩ := hfull
              refine RelockPost_intro h i size _ _ gWF gNAF gFL glim
                (by rw [gbrk]; exact hbrk) ?_
              intro hne
              refine ⟨j2, hj2, haj.symm, halj, ?_⟩
              rw [show min (blkD h i).payload.length (size2 / 8)
                  = (blkD h i).payload.length from by omega]
              rw [hpayj]
              exact (List.take_length _).symm
            · rw [if_neg hl0]
              rw [hleft] at hl0
              by_cases hlsmall : sub64 (BOUNDARY_SIZE + HEADER_SIZE
                  + GET_SIZE h (addrI h (i + 1)))
                  (sub64 size2 (GET_SIZE h (addrI h i))) < MIN_BLOCK_SIZE
              · rw [if_pos hlsmall]
                rw [hleft, MIN_BLOCK_SIZE_eq] at hlsmall
                have hszeq : GET_SIZE h (addrI h i)
                    + (BOUNDARY_SIZE + HEADER_SIZE
                      + GET_SIZE h (addrI h (i + 1)))
                    = 8 * (blkD h i).payload.length + 16
                      + 8 * (blkD h (i + 1)).payload.length := by
                  rw [hcur, hgained]
                  omega
                have hfull := grow_merge_full h i l hi1 hWF hNAF hchain hprevs hnd
                  hcomp halloc hfree1 hbrk
                  (remove_free_block h (addrI h (i + 1)))
                  (REDO_HEADERS (remove_free_block h (addrI h (i + 1)))
                    (addrI h i)
                    (GET_SIZE h (addrI h i)
                      + (BOUNDARY_SIZE + HEADER_SIZE
                        + GET_SIZE h (addrI h (i + 1))))
                    ALLOCATED)
                  rfl
                  (by rw [hszeq])
                obtain ⟨gWF, gNAF, gFL, glim, gbrk, ⟨j2, hj2, haj, halj, hpayj⟩⟩ :=
                  hfull
                refine RelockPost_intro h i size _ _ gWF gNAF gFL glim
                  (by rw [gbrk]; exact hbrk) ?_
                intro hne
                refine ⟨j2, hj2, haj.symm, halj, ?_⟩
                rw [show min (blkD h i).payload.length (size2 / 8)
                    = (blkD h i).payload.length from by omega]
                rw [hpayj]
                exact (List.take_length _).symm
              · rw [if_neg hlsmall]
                rw [hleft, MIN_BLOCK_SIZE_eq] at hlsmall
                have hrem : sub64 (sub64 (BOUNDARY_SIZE + HEADER_SIZE
                    + GET_SIZE h (addrI h (i + 1)))
                    (sub64 size2 (GET_SIZE h (addrI h i)))) HEADER_SIZE
                    = 16 + 8 * (blkD h (i + 1)).payload.length
                      - (size2 - 8 * (blkD h i).payload.length) - 8 := by
                  rw [hleft, HEADER_SIZE_eq]
                  exact sub64_eq (by omega) (by omega)
                have hrem2 : sub64 (sub64 (sub64 (BOUNDARY_SIZE + HEADER_SIZE
                    + GET_SIZE h (addrI h (i + 1)))
                    (sub64 size2 (GET_SIZE h (addrI h i)))) HEADER_SIZE)
                    BOUNDARY_SIZE
                    = 8 * ((blkD h i).payload.length
                      + (blkD h (i + 1)).payload.length - c) := by
                  rw [hrem, BOUNDARY_SIZE_eq]
                  have e2 := sub64_eq
                    (show (8:Nat) ≤ 16 + 8 * (blkD h (i + 1)).payload.length
                      - (size2 - 8 * (blkD h i).payload.length) - 8 from by omega)
                    (show 16 + 8 * (blkD h (i + 1)).payload.length
                      - (size2 - 8 * (blkD h i).payload.length) - 8 < MOD from by
                        omega)
                  rw [e2]
                  omega
                have hgs := grow_merge_split h i c l hi1 hWF hNAF hchain hprevs hnd
                  hcomp halloc hfree1 hbrk (by omega) (by omega)
                  (remove_free_block h (addrI h (i + 1)))
                  (REDO_HEADERS (remove_free_block h (addrI h (i + 1)))
                    (addrI h i) size2 ALLOCATED)
                  (unlock (REDO_HEADERS
                      (REDO_HEADERS (remove_free_block h (addrI h (i + 1)))
                        (addrI h i) size2 ALLOCATED)
                      (GET_NEXT_BLOCK
                        (REDO_HEADERS (remove_free_block h (addrI h (i + 1)))
                          (addrI h i) size2 ALLOCATED)
                        (addrI h i))
                      (sub64 (sub64 (sub64 (BOUNDARY_SIZE + HEADER_SIZE
                        + GET_SIZE h (addrI h (i + 1)))
                        (sub64 size2 (GET_SIZE h (addrI h i)))) HEADER_SIZE)
                        BOUNDARY_SIZE)
                      FREE)
                    (GET_NEXT_BLOCK
                      (REDO_HEADERS (remove_free_block h (addrI h (i + 1)))
                        (addrI h i) size2 ALLOCATED)
                      (addrI h i)))
                  rfl (by rw [← hc8]) (by rw [hrem2])
                obtain ⟨gWF, gNAF, gFL, glim, gbrk, ⟨j2, hj2, haj, halj, hpayj⟩⟩ :=
                  hgs
                refine RelockPost_intro h i size _ _ gWF gNAF gFL glim
                  (by rw [gbrk]; exact hbrk) ?_
                intro hne
                refine ⟨j2, hj2, haj.symm, halj, ?_⟩
                rw [show min (blkD h i).payload.length (size2 / 8)
                    = (blkD h i).payload.length from by omega]
                rw [hpayj]
                exact (List.take_length _).symm

/-! ## The four remaining claims: invariants and data preservation -/

/-- Rounding up to the 8-byte quantum never shrinks a request that cannot
wrap past the `size_t` modulus. -/
theorem align_ge (n : Nat) (hn : n ≤ MOD - 8) : n ≤ ALIGN_BYTES n := by
  unfold ALIGN_BYTES
  split
  · exact le_refl n
  · rename_i hmod
    have hlt : 8 * (n / 8 + 1) < MOD := by
      unfold MOD at *
      omega
    rw [Nat.mod_eq_of_lt hlt]
    omega

/-- Every block of the heap `init_lock` returns has its boundary tag equal
to its header, whatever the growth limit. -/
theorem init_tags (limit : Nat) :
    ∀ j, j < (init_lock limit).2.blocks.length →
      (blkD (init_lock limit).2 j).tag = (blkD (init_lock limit).2 j).hdr := by
  have ha : ALIGN_BYTES CHUNK_SIZE = CHUNK_SIZE := by decide
  simp only [init_lock, extend_heap, ha, brkAddr, sumExt, List.foldr]
  by_cases hb : BASE + WORD_SIZE * 4 ≤ limit
  · rw [if_pos hb]
    rw [if_neg (show ¬((BASE : Nat) = 0) from by unfold BASE; omega)]
    by_cases hc : firstAddr + 0 + (CHUNK_SIZE + BOUNDARY_SIZE + HEADER_SIZE) ≤ limit
    · rw [if_pos hc]
      intro j hj
      exact ((extend_grow_master { blocks := [], free_list := 0, limit := limit }
        CHUNK_SIZE [] (fun k hk => absurd hk (Nat.not_lt_zero k)) rfl rfl rfl
        List.nodup_nil (fun x hx => absurd hx (List.not_mem_nil x))
        (by decide) (by decide) _ _ rfl rfl).1.1 j hj).1
    · rw [if_neg hc]
      intro j hj
      exact absurd hj (Nat.not_lt_zero j)
  · rw [if_neg hb]
    rw [if_neg (show ¬((SBRK_FAIL : Nat) = 0) from by unfold SBRK_FAIL MOD; omega)]
    rw [if_neg (show ¬(firstAddr + 0 + (CHUNK_SIZE + BOUNDARY_SIZE + HEADER_SIZE)
        ≤ limit) from by
      unfold firstAddr BASE WORD_SIZE CHUNK_SIZE BOUNDARY_SIZE HEADER_SIZE at *
      omega)]
    intro j hj
    exact absurd hj (Nat.not_lt_zero j)

/-- C1: after any deallocate (`unlock`) or reallocate (`relock`) of a
valid allocated block of a well-formed arena returns, no two physically
adjacent blocks are both free — the freed storage is merged with free
neighbors before the free-list insertion, so the no-adjacent-free
invariant is a post-condition of every deallocation. -/
theorem C1_no_adjacent_free (h : Heap) (i : Nat) (l : List Nat)
    (hi : i < h.blocks.length)
    (hWF : ∀ j, j < h.blocks.length → WFb (blkD h j))
    (hNAF : NAF h)
    (hchain : chainSegB h h.free_list l 0 = true)
    (hprevs : prevsB h 0 l = true)
    (hnd : l.Nodup)
    (hcomp : ∀ x, x ∈ freeStarts h → x ∈ l)
    (halloc : allocB (blkD h i) = ALLOCATED)
    (hbrk : brkAddr h < MOD)
    (hlim : h.limit < MOD) :
    NAF (unlock h (addrI h i))
      ∧ ∀ size, size < MOD → NAF (relock h (addrI h i) size).2 := by
  constructor
  · obtain ⟨-, uNAF, -⟩ :=
      unlock_alloc_master h i l hi hWF hNAF hchain hprevs hnd hcomp halloc
    exact uNAF
  · intro size hsz
    obtain ⟨-, rNAF, -⟩ :=
      relock_master h i size l hi hWF hNAF hchain hprevs hnd hcomp halloc
        hbrk hlim hsz
    exact rNAF

/-- C1 witness: freeing the allocated block of `heapW` (which merges with
the free block after it) and growing it through `relock` both leave no
two adjacent free blocks. -/
theorem C1_witness :
    NAF (unlock heapW (addrI heapW 0))
      ∧ NAF (relock heapW (addrI heapW 0) 24).2 := by
  have hc := C1_no_adjacent_free heapW 0 [96] (by decide) (by decide) (by decide)
    (by decide) (by decide) (by decide) (by decide) (by decide) (by decide)
    (by decide)
  exact ⟨hc.1, hc.2 24 (by decide)⟩

/-- C3: tag consistency — after each public operation (`mlock`, `unlock`,
`relock` on a valid allocated block of a well-formed arena, and
`init_lock` from scratch) every block of the resulting heap has its
header word equal to its boundary-tag word. -/
theorem C3_tag_consistency (h : Heap) (i size : Nat) (l : List Nat)
    (limitI : Nat)
    (hi : i < h.blocks.length)
    (hWF : ∀ j, j < h.blocks.length → WFb (blkD h j))
    (hNAF : NAF h)
    (hchain : chainSegB h h.free_list l 0 = true)
    (hprevs : prevsB h 0 l = true)
    (hnd : l.Nodup)
    (hcomp : ∀ x, x ∈ freeStarts h → x ∈ l)
    (halloc : allocB (blkD h i) = ALLOCATED)
    (hbrk : brkAddr h < MOD)
    (hlim : h.limit < MOD)
    (hszMOD : size < MOD) :
    (∀ j, j < (mlock h size).2.blocks.length →
        (blkD (mlock h size).2 j).tag = (blkD (mlock h size).2 j).hdr)
    ∧ (∀ j, j < (unlock h (addrI h i)).blocks.length →
        (blkD (unlock h (addrI h i)) j).tag
          = (blkD (unlock h (addrI h i)) j).hdr)
    ∧ (∀ j, j < (relock h (addrI h i) size).2.blocks.length →
        (blkD (relock h (addrI h i) size).2 j).tag
          = (blkD (relock h (addrI h i) size).2 j).hdr)
    ∧ (∀ j, j < (init_lock limitI).2.blocks.length →
        (blkD (init_lock limitI).2 j).tag = (blkD (init_lock limitI).2 j).hdr) := by
  refine ⟨?_, ?_, ?_, init_tags limitI⟩
  · obtain ⟨mWF, -⟩ := mlock_master h size l hWF hNAF hchain hprevs hnd hcomp
      hbrk hlim
    exact fun j hj => (mWF j hj).1
  · obtain ⟨uWF, -⟩ := unlock_alloc_master h i l hi hWF hNAF hchain hprevs hnd
      hcomp halloc
    exact fun j hj => (uWF j hj).1
  · obtain ⟨rWF, -⟩ := relock_master h i size l hi hWF hNAF hchain hprevs hnd
      hcomp halloc hbrk hlim hszMOD
    exact fun j hj => (rWF j hj).1

set_option maxRecDepth 4000 in
/-- C3 witness: header equals boundary tag for the first block after each
of the four operations on concrete inputs. -/
theorem C3_witness :
    (blkD (mlock heapW 24).2 0).tag = (blkD (mlock heapW 24).2 0).hdr
    ∧ (blkD (unlock heapW (addrI heapW 0)) 0).tag
        = (blkD (unlock heapW (addrI heapW 0)) 0).hdr
    ∧ (blkD (relock heapW (addrI heapW 0) 24).2 0).tag
        = (blkD (relock heapW (addrI heapW 0) 24).2 0).hdr
    ∧ (blkD (init_lock 8192).2 0).tag = (blkD (init_lock 8192).2 0).hdr := by
  have hc := C3_tag_consistency heapW 0 24 [96] 8192 (by decide) (by decide)
    (by decide) (by decide) (by decide) (by decide) (by decide) (by decide)
    (by decide) (by decide) (by decide)
  exact ⟨hc.1 0 (by decide), hc.2.1 0 (by decide), hc.2.2.1 0 (by decide),
    hc.2.2.2 0 (by decide)⟩

/-- C4: for a positive requested size, `mlock` first aligns the request up
to the 8-byte quantum and then floors it to the minimum payload size, so
every successfully allocated block is allocated, has a recorded payload
size that is a multiple of 8 bytes, at least `MIN_DATA_SIZE` (two machine
words), and at least the aligned-then-floored request. -/
theorem C4_mlock_align_floor (h : Heap) (size : Nat) (l : List Nat)
    (hpos : 0 < size)
    (hWF : ∀ j, j < h.blocks.length → WFb (blkD h j))
    (hNAF : NAF h)
    (hchain : chainSegB h h.free_list l 0 = true)
    (hprevs : prevsB h 0 l = true)
    (hnd : l.Nodup)
    (hcomp : ∀ x, x ∈ freeStarts h → x ∈ l)
    (hbrk : brkAddr h < MOD)
    (hlim : h.limit < MOD) :
    (mlock h size).1 ≠ 0 →
      GET_ALLOC (mlock h size).2 (mlock h size).1 = ALLOCATED
      ∧ 8 ∣ GET_SIZE (mlock h size).2 (mlock h size).1
      ∧ MIN_DATA_SIZE ≤ GET_SIZE (mlock h size).2 (mlock h size).1
      ∧ max (ALIGN_BYTES size) MIN_DATA_SIZE
          ≤ GET_SIZE (mlock h size).2 (mlock h size).1 := by
  intro hne
  obtain ⟨mWF, -, -, -, -, -, msucc, -⟩ :=
    mlock_master h size l hWF hNAF hchain hprevs hnd hcomp hbrk hlim
  obtain ⟨⟨j2, hj2, haj, halj, hszj⟩, -⟩ := msucc hne
  have hgs : GET_SIZE (mlock h size).2 (mlock h size).1
      = 8 * (blkD (mlock h size).2 j2).payload.length := by
    rw [haj]
    exact GET_SIZE_i _ j2 hj2 (mWF j2 hj2)
  refine ⟨?_, ?_, ?_, ?_⟩
  · rw [haj, GET_ALLOC_i _ j2 hj2]
    exact halj
  · rw [hgs]
    exact ⟨_, rfl⟩
  · rw [hgs]
    exact le_trans (Nat.le_max_right _ _) hszj
  · rw [hgs]
    exact hszj

/-- C4 witness: allocating 24 bytes out of `heapW` hands out the whole
free 48-byte block — allocated, 8-aligned, and at least the
aligned-then-floored request. -/
theorem C4_witness :
    (mlock heapW 24).1 ≠ 0
      ∧ (GET_ALLOC (mlock heapW 24).2 (mlock heapW 24).1 = ALLOCATED
        ∧ 8 ∣ GET_SIZE (mlock heapW 24).2 (mlock heapW 24).1
        ∧ MIN_DATA_SIZE ≤ GET_SIZE (mlock heapW 24).2 (mlock heapW 24).1
        ∧ max (ALIGN_BYTES 24) MIN_DATA_SIZE
            ≤ GET_SIZE (mlock heapW 24).2 (mlock heapW 24).1) :=
  ⟨by decide, C4_mlock_align_floor heapW 24 [96] (by decide) (by decide)
    (by decide) (by decide) (by decide) (by decide) (by decide) (by decide)
    (by decide) (by decide)⟩

/-- C7 counterexample: the claim fails as stated because of the size_t
wrap in `ALIGN_BYTES`.  On `heapC7` the allocated block at 64 holds 48
payload bytes; `relock` with the request `2^64 - 1 > 48` wraps the aligned
size to 0, floors it to 16, takes the shrink-split path, and succeeds
returning the same pointer — but only the first 16 of the 48 bytes
survive, so the first `currentPayloadSize` bytes are not preserved. -/
theorem C7_counterexample :
    8 * (blkD heapC7 0).payload.length < 2 ^ 64 - 1
      ∧ (relock heapC7 (addrI heapC7 0) (2 ^ 64 - 1)).1 = addrI heapC7 0
      ∧ ¬ ((blkD (relock heapC7 (addrI heapC7 0) (2 ^ 64 - 1)).2 0).payload.take
            (blkD heapC7 0).payload.length
          = (blkD heapC7 0).payload) := by
  decide

/-- C7 amended: data preservation on growing reallocate holds for every
request that cannot wrap the 8-byte alignment past the `size_t` modulus
(`n ≤ 2^64 - 8`): for a valid allocated block with payload smaller than
`n`, if `relock` succeeds then the returned block is allocated and its
payload begins with the old block's entire payload — in the in-place
merge paths and in the allocate-copy-free fallback alike. -/
theorem C7_amended_data_preservation (h : Heap) (i n : Nat) (l : List Nat)
    (hi : i < h.blocks.length)
    (hWF : ∀ j, j < h.blocks.length → WFb (blkD h j))
    (hNAF : NAF h)
    (hchain : chainSegB h h.free_list l 0 = true)
    (hprevs : prevsB h 0 l = true)
    (hnd : l.Nodup)
    (hcomp : ∀ x, x ∈ freeStarts h → x ∈ l)
    (halloc : allocB (blkD h i) = ALLOCATED)
    (hbrk : brkAddr h < MOD)
    (hlim : h.limit < MOD)
    (hgt : 8 * (blkD h i).payload.length < n)
    (hn : n ≤ MOD - 8) :
    (relock h (addrI h i) n).1 ≠ 0 →
    ∃ j2, j2 < (relock h (addrI h i) n).2.blocks.length
      ∧ (relock h (addrI h i) n).1 = addrI (relock h (addrI h i) n).2 j2
      ∧ allocB (blkD (relock h (addrI h i) n).2 j2) = ALLOCATED
      ∧ (blkD (relock h (addrI h i) n).2 j2).payload.take
          (blkD h i).payload.length
        = (blkD h i).payload := by
  have h8 : (8 : Nat) ≤ MOD := by decide
  have hszMOD : n < MOD := by omega
  obtain ⟨-, -, -, -, -, h6⟩ :=
    relock_master h i n l hi hWF hNAF hchain hprevs hnd hcomp halloc hbrk hlim
      hszMOD
  intro hne
  obtain ⟨j2, hj2, haj, halj, hpayj⟩ := h6 hne
  refine ⟨j2, hj2, haj, halj, ?_⟩
  have hag := align_ge n hn
  have hdvd := align_dvd n
  have hmin : min (blkD h i).payload.length
      (max (ALIGN_BYTES n) MIN_DATA_SIZE / 8) = (blkD h i).payload.length := by
    rw [MIN_DATA_SIZE_eq]
    omega
  rw [hmin] at hpayj
  rw [hpayj]
  exact List.take_length _

/-- C7 witness: growing the 16-byte block of `heapW` to 24 bytes merges
with the free neighbor, succeeds, and keeps both original payload
words. -/
theorem C7_witness :
    (relock heapW (addrI heapW 0) 24).1 ≠ 0
      ∧ ((relock heapW (addrI heapW 0) 24).1 ≠ 0 →
        ∃ j2, j2 < (relock heapW (addrI heapW 0) 24).2.blocks.length
          ∧ (relock heapW (addrI heapW 0) 24).1
              = addrI (relock heapW (addrI heapW 0) 24).2 j2
          ∧ allocB (blkD (relock heapW (addrI heapW 0) 24).2 j2) = ALLOCATED
          ∧ (blkD (relock heapW (addrI heapW 0) 24).2 j2).payload.take
              (blkD heapW 0).payload.length
            = (blkD heapW 0).payload) :=
  ⟨by decide, C7_amended_data_preservation heapW 0 24 [96] (by decide)
    (by decide) (by decide) (by decide) (by decide) (by decide) (by decide)
    (by decide) (by decide) (by decide) (by decide) (by decide)⟩

end Mlock
